import Mathlib

/-!
Visor: the registry client over a revisioned coordination store.

A shallow embedding of the Go package `visor` (`visor.go`, `app.go`, `instance.go`,
`path.go`, `error.go`).  The coordination store, the snapshot wrapper, the file helper,
the codecs, ticket creation, the ProcType and the event parser are not part of the source
tree; they are modelled from the specification and marked as such.  Go strings are lists
of characters.
Shared mutable state (the store behind `conn`) is passed explicitly: a mutating
operation returns its Go results paired with the store after the call.
-/

namespace Visor

/-- Go `string`. -/
abbrev Str := List Char

/-! ## Go standard library -/

/-- Go `strings.Replace(s, old, new, -1)` for one-character `old` and `new`. -/
def replaceAll (s : Str) (old new : Char) : Str :=
  s.map fun c => if c = old then new else c

/-- Go `strings.Split(s, "/")`. -/
def splitSlash : Str → List Str
  | [] => [[]]
  | c :: cs =>
    match splitSlash cs with
    | [] => [[c]]
    | seg :: segs => if c = '/' then [] :: seg :: segs else (c :: seg) :: segs

/-- Go `strings.Join(elems, "/")`. -/
def joinSlash : List Str → Str
  | [] => []
  | [s] => s
  | s :: t :: ss => s ++ '/' :: joinSlash (t :: ss)

/-- The element loop of Go `path.Clean`: `out` is the stack of kept elements, newest first. -/
def cleanSegs (rooted : Bool) : List Str → List Str → List Str
  | out, [] => out.reverse
  | out, seg :: rest =>
    if seg = [] ∨ seg = ['.'] then cleanSegs rooted out rest
    else if seg = ['.', '.'] then
      match out with
      | top :: out' =>
        if top = ['.', '.'] then cleanSegs rooted (seg :: out) rest
        else cleanSegs rooted out' rest
      | [] => if rooted then cleanSegs rooted [] rest else cleanSegs rooted [seg] rest
    else cleanSegs rooted (seg :: out) rest

/-- Go `path.Clean`. -/
def Clean (p : Str) : Str :=
  let rooted : Bool := p.head? = some '/'
  let body := joinSlash (cleanSegs rooted [] (splitSlash p))
  let r := if rooted then '/' :: body else body
  if r = [] then ['.'] else r

/-- Go `path.Join`. -/
def Join (elems : List Str) : Str :=
  match elems.dropWhile (fun e => decide (e = [])) with
  | [] => []
  | e :: es => Clean (joinSlash (e :: es))

/-- Decimal digits of a natural number, most significant first (`fuel > n` suffices). -/
def natDigits : Nat → Nat → Str
  | 0, _ => []
  | fuel + 1, n =>
    if n < 10 then [Char.ofNat (48 + n)]
    else natDigits fuel (n / 10) ++ [Char.ofNat (48 + n % 10)]

/-- Go `strconv.Itoa`. -/
def Itoa (n : Int) : Str :=
  if n < 0 then '-' :: natDigits (n.natAbs + 1) n.natAbs
  else natDigits (n.natAbs + 1) n.natAbs

/-- Value of a decimal digit character. -/
def digitVal (c : Char) : Option Nat :=
  if 48 ≤ c.toNat ∧ c.toNat ≤ 57 then some (c.toNat - 48) else none

/-- Left-to-right evaluation of a digit string. -/
def parseDigits : Str → Nat → Option Nat
  | [], acc => some acc
  | c :: cs, acc =>
    match digitVal c with
    | none => none
    | some d => parseDigits cs (10 * acc + d)

/-- Go `strconv.Atoi` on a 64-bit platform; `none` is its error result. -/
def Atoi (s : Str) : Option Int :=
  let signed : Option Int :=
    match s with
    | [] => none
    | c :: ds =>
      if c = '-' then
        if ds = [] then none else (parseDigits ds 0).map fun n => -(n : Int)
      else if c = '+' then
        if ds = [] then none else (parseDigits ds 0).map fun n => (n : Int)
      else (parseDigits (c :: ds) 0).map fun n => (n : Int)
  match signed with
  | none => none
  | some v => if v < -(2 : Int) ^ 63 ∨ (2 : Int) ^ 63 ≤ v then none else some v

/-- The integer that a signed decimal numeral denotes, whatever its size: what
`strconv.Atoi` reads before its range check; `none` is a syntax error. -/
def decimalValue (s : Str) : Option Int :=
  match s with
  | [] => none
  | c :: ds =>
    if c = '-' then
      if ds = [] then none else (parseDigits ds 0).map fun n => -(n : Int)
    else if c = '+' then
      if ds = [] then none else (parseDigits ds 0).map fun n => (n : Int)
    else (parseDigits (c :: ds) 0).map fun n => (n : Int)

/-- The `int` that Go `strconv.Atoi` returns on a 64-bit platform: the value read, beside
a range error the nearest bound of the `int` range, and beside a syntax error 0. -/
def atoiValue (s : Str) : Int :=
  match decimalValue s with
  | none => 0
  | some v =>
    if v < -(2 : Int) ^ 63 then -(2 : Int) ^ 63
    else if (2 : Int) ^ 63 ≤ v then 2 ^ 63 - 1
    else v

/-! ## Errors (`error.go`) -/

/-- The error values of the package: the sentinels of `error.go`, the store errors
wrapped by `*Error`, formatted messages, and a run-time panic. -/
inductive Err
  | ErrKeyConflict
  | ErrUnauthorized
  | ErrInvalidState
  | ErrNoEnt
  | RevMismatch
  | BadValue
  | message (text : Str)
  | panic
  deriving DecidableEq, Repr

/-- `IsErrNoEnt` of `error.go`. -/
def IsErrNoEnt (e : Err) : Bool :=
  match e with
  | .ErrNoEnt => true
  | _ => false

/-! ## The coordination store -/

/-- Stored bytes.  A JSON object is kept as its list of string fields. -/
inductive Body
  | text (s : Str)
  | object (fields : List (Str × Str))
  deriving DecidableEq, Repr

/-- One committed write; the write at position `i` of the history carries revision `i`. -/
inductive Event
  | put (files : List (Str × Body))
  | del (path : Str)
  deriving DecidableEq, Repr

/-- Whether key `q` lies below directory `dir`. -/
def under (dir q : Str) : Bool := (dir ++ ['/']).isPrefixOf q

/-- What a write does to key `q`: nothing, delete it, or give it a body. -/
def Event.effect (e : Event) (q : Str) : Option (Option Body) :=
  match e with
  | .put files => (files.lookup q).map some
  | .del p => if q = p ∨ under p q = true then some none else none

/-- Body and revision of key `q` after the writes `log` (newest first). -/
def statOf : List Event → Str → Option (Body × Nat)
  | [], _ => none
  | e :: es, q =>
    match e.effect q with
    | none => statOf es q
    | some none => none
    | some (some b) => some (b, es.length + 1)

/-- The writes up to and including revision `rev`. -/
def upTo (log : List Event) (rev : Int) : List Event :=
  log.drop (log.length - rev.toNat)

/-- Every key ever written, most recently written first. -/
def written : List Event → List Str
  | [] => []
  | .put files :: es => (files.map Prod.fst).reverse ++ written es
  | .del _ :: es => written es

/-- The keys that hold a body, in order of first creation. -/
def live (log : List Event) : List Str :=
  ((written log).dedup.reverse).filter fun q => (statOf log q).isSome

/-- Revision of key `q`, `0` when it is missing. -/
def fileRev (log : List Event) (q : Str) : Nat :=
  match statOf log q with
  | some (_, r) => r
  | none => 0

/-- Revision of the last write at or below `p` that is still live, `0` when nothing is there. -/
def revOf (log : List Event) (p : Str) : Nat :=
  ((live log).filter fun q => decide (q = p) || under p q).foldr
    (fun q m => max (fileRev log q) m) 0

/-- Name of the child of `dir` on the way to key `q`. -/
def childOf (dir q : Str) : Option Str :=
  if under dir q = true then some ((q.drop (dir.length + 1)).takeWhile fun ch => ch ≠ '/')
  else none

/-- Modelled from the spec: the store adapter's connection (`conn`), which is not in the
source tree.  The store is its history of committed writes, newest first, so the
current revision is the number of writes and a read at revision `R` sees the store as of `R`. -/
structure Conn where
  log : List Event
  deriving DecidableEq, Repr

/-- The store after one more committed write. -/
def Conn.commit (c : Conn) (e : Event) : Conn := ⟨e :: c.log⟩

/-- Modelled from the spec: `Rev`, the current latest revision. -/
def Conn.Rev (c : Conn) : Int := c.log.length

/-- The history a read at `rev` looks at; no revision means the latest. -/
def Conn.view (c : Conn) (rev : Option Int) : List Event :=
  match rev with
  | none => c.log
  | some r => upTo c.log r

/-- Modelled from the spec: `Exists(p, rev?)`, giving (present, rev-of-last-write). -/
def Conn.Exists (c : Conn) (path : Str) (rev : Option Int) : Except Err (Bool × Int) :=
  let r := revOf (c.view rev) path
  .ok (decide (r ≠ 0), (r : Int))

/-- Modelled from the spec: `Get(p, rev?)`, giving (bytes, rev) or NoEnt. -/
def Conn.Get (c : Conn) (path : Str) (rev : Option Int) : Except Err (Body × Int) :=
  match statOf (c.view rev) path with
  | some (b, r) => .ok (b, (r : Int))
  | none => .error .ErrNoEnt

/-- Modelled from the spec: `Getdir(p, rev)`, the children names or NoEnt. -/
def Conn.Getdir (c : Conn) (path : Str) (rev : Int) : Except Err (List Str) :=
  match ((live (upTo c.log rev)).filterMap (childOf path)).reverse.dedup.reverse with
  | [] => .error .ErrNoEnt
  | n :: ns => .ok (n :: ns)

/-- Modelled from the spec: `Set(p, rev, bytes)`, a compare-and-swap that fails with
RevMismatch when the key was written after `rev`; `rev = -1` is unconditional. -/
def Conn.Set (c : Conn) (path : Str) (rev : Int) (body : Body) : Except Err Int × Conn :=
  if rev ≠ -1 ∧ rev < (fileRev c.log path : Int) then (.error .RevMismatch, c)
  else (.ok (c.log.length + 1 : Nat), c.commit (.put [(path, body)]))

/-- Modelled from the spec: `Del(p, rev)`, recursive, compare-and-swap or RevMismatch. -/
def Conn.Del (c : Conn) (path : Str) (rev : Int) : Option Err × Conn :=
  if rev ≠ -1 ∧ rev < (revOf c.log path : Int) then (some .RevMismatch, c)
  else (none, c.commit (.del path))

/-! ## Snapshot (modelled; `snapshot.go` is not in the source tree) -/

/-- Modelled from the spec: a Snapshot is the pair (rev, connection); the connection is
the store passed alongside. -/
structure Snapshot where
  Rev : Int
  deriving DecidableEq, Repr

/-- Modelled from the spec: `FastForward(rev)` returns a Snapshot at that revision;
`rev = -1` means latest, resolved by asking the adapter for its current revision. -/
def Snapshot.FastForward (_s : Snapshot) (c : Conn) (rev : Int) : Snapshot :=
  if rev = -1 then ⟨c.Rev⟩ else ⟨rev⟩

/-- Modelled from the spec: `Exists` at the snapshot's revision. -/
def Snapshot.Exists (s : Snapshot) (c : Conn) (path : Str) : Except Err (Bool × Int) :=
  c.Exists path (some s.Rev)

/-- Modelled from the spec: `Get` at the snapshot's revision, the value as a string.  A
stored JSON object has no string form in this model and reads as `BadValue`. -/
def Snapshot.Get (s : Snapshot) (c : Conn) (path : Str) : Except Err (Str × Int) :=
  match c.Get path (some s.Rev) with
  | .error e => .error e
  | .ok (.text v, r) => .ok (v, r)
  | .ok (.object _, _) => .error .BadValue

/-- Modelled from the spec: `Getdir` at the snapshot's revision. -/
def Snapshot.Getdir (s : Snapshot) (c : Conn) (path : Str) : Except Err (List Str) :=
  c.Getdir path s.Rev

/-- Modelled from the spec: `Set` passes the snapshot's revision as the CAS precondition
and returns a new Snapshot at the post-write revision; on failure the original is returned. -/
def Snapshot.Set (s : Snapshot) (c : Conn) (path : Str) (value : Str) :
    (Snapshot × Option Err) × Conn :=
  match c.Set path s.Rev (.text value) with
  | (.error e, c') => ((s, some e), c')
  | (.ok rev, c') => ((s.FastForward c' rev, none), c')

/-- Modelled from the spec: `Del` passes the snapshot's revision as the CAS precondition. -/
def Snapshot.Del (s : Snapshot) (c : Conn) (path : Str) : Option Err × Conn :=
  c.Del path s.Rev

/-! ## Codecs and the file helper (modelled; not in the source tree) -/

/-- An in-memory value held by a `File`. -/
inductive Value
  | str (s : Str)
  | int (n : Int)
  | map (fields : List (Str × Str))
  deriving DecidableEq, Repr

/-- Modelled from the spec: the three codecs. -/
inductive Codec
  | StringCodec
  | IntCodec
  | JSONCodec
  deriving DecidableEq, Repr

/-- Modelled from the spec: encoding; a value of the wrong kind is a `BadValue`. -/
def Codec.Encode (codec : Codec) (v : Value) : Except Err Body :=
  match codec, v with
  | .StringCodec, .str s => .ok (.text s)
  | .IntCodec, .int n => .ok (.text (Itoa n))
  | .JSONCodec, .map fields => .ok (.object fields)
  | _, _ => .error .BadValue

/-- Modelled from the spec: decoding; undecodable bytes are a `BadValue`. -/
def Codec.Decode (codec : Codec) (b : Body) : Except Err Value :=
  match codec, b with
  | .StringCodec, .text s => .ok (.str s)
  | .IntCodec, .text s =>
    match Atoi s with
    | some n => .ok (.int n)
    | none => .error .BadValue
  | .JSONCodec, .object fields => .ok (.map fields)
  | _, _ => .error .BadValue

/-- Modelled from the spec: `File` = (Snapshot, Path, Codec, Value). -/
structure File where
  Snapshot : Snapshot
  Path : Str
  Codec : Codec
  Value : Value
  deriving DecidableEq, Repr

/-- Reading a typed record through the history `rev` selects. -/
def getFile (s : Snapshot) (c : Conn) (rev : Option Int) (path : Str) (codec : Codec) :
    Except Err File :=
  match c.Get path rev with
  | .error e => .error e
  | .ok (b, r) =>
    match codec.Decode b with
    | .error e => .error e
    | .ok v => .ok ⟨s.FastForward c r, path, codec, v⟩

/-- Modelled from the spec: `Get(s, path, codec)` reads a typed record at the snapshot's
revision; the record is anchored to the revision of the key. -/
def Get (s : Snapshot) (c : Conn) (path : Str) (codec : Codec) : Except Err File :=
  getFile s c (some s.Rev) path codec

/-- Modelled from the spec: `GetLatest(s, path, codec)` reads a typed record at the
latest revision. -/
def GetLatest (s : Snapshot) (c : Conn) (path : Str) (codec : Codec) : Except Err File :=
  getFile s c none path codec

/-- Modelled from the spec: `File.Set` overwrites with the record's revision as CAS
precondition; on failure the record is returned unchanged. -/
def File.Set (f : File) (c : Conn) (value : Visor.Value) : (File × Option Err) × Conn :=
  match f.Codec.Encode value with
  | .error e => ((f, some e), c)
  | .ok b =>
    match c.Set f.Path f.Snapshot.Rev b with
    | (.error e, c') => ((f, some e), c')
    | (.ok rev, c') => (({ f with Snapshot := f.Snapshot.FastForward c' rev, Value := value }, none), c')

/-- Modelled from the spec: `File.Create` fails on an existing key with `KeyConflict`. -/
def File.Create (f : File) (c : Conn) : (File × Option Err) × Conn :=
  match c.Exists f.Path none with
  | .error e => ((f, some e), c)
  | .ok (true, _) => ((f, some .ErrKeyConflict), c)
  | .ok (false, _) => f.Set c f.Value

/-! ## `path.go` -/

/-- `Path` of `path.go`. -/
structure Path where
  Snapshot : Snapshot
  Dir : Str
  deriving DecidableEq, Repr

/-- `Path.Prefix`: joins `Dir` with `path`, where `"/"` means the directory itself. -/
def Path.Prefix (p : Path) (path : Str) (paths : List Str) : Str :=
  paths.foldl (fun result x => result ++ '/' :: x)
    (if path = ['/'] then p.Dir else p.Dir ++ '/' :: path)

/-- `Path.Get`. -/
def Path.Get (p : Path) (c : Conn) (key : Str) : Except Err (Str × Int) :=
  p.Snapshot.Get c (p.Prefix key [])

/-- `Path.Set`: the revision of the returned snapshot, and the error. -/
def Path.Set (p : Path) (c : Conn) (key val : Str) : (Int × Option Err) × Conn :=
  match p.Snapshot.Set c (p.Prefix key []) val with
  | ((s, err), c') => ((s.Rev, err), c')

/-- `Path.Del`. -/
def Path.Del (p : Path) (c : Conn) (key : Str) : Option Err × Conn :=
  p.Snapshot.Del c (p.Prefix key [])

/-! ## `app.go` -/

/-- `APPS_PATH`. -/
def APPS_PATH : Str := "apps".toList

/-- `DEPLOY_LXC`. -/
def DEPLOY_LXC : Str := "lxc".toList

/-- Go `map[string]string`: an association list with one entry per key. -/
abbrev Env := List (Str × Str)

/-- Go map assignment `m[k] = v`. -/
def Env.set (m : Env) (k v : Str) : Env :=
  (k, v) :: m.filter fun p => decide (p.1 ≠ k)

/-- `App` of `app.go`; the embedded `Path` carries the snapshot and the directory. -/
structure App where
  Path : Path
  Name : Str
  RepoUrl : Str
  Stack : Str
  Env : Env
  DeployType : Str
  deriving DecidableEq, Repr

/-- `NewApp`. -/
def NewApp (name repourl stack : Str) (snapshot : Snapshot) : App :=
  { Path := ⟨snapshot, Join [APPS_PATH, name]⟩, Name := name, RepoUrl := repourl,
    Stack := stack, Env := [], DeployType := [] }

/-- `App.FastForward`: a copy of the app around the snapshot at `rev`. -/
def App.FastForward (a : App) (c : Conn) (rev : Int) : App :=
  { a with Path := { a.Path with Snapshot := a.Path.Snapshot.FastForward c rev } }

/-- `App.GetEnvironmentVar`. -/
def App.GetEnvironmentVar (a : App) (c : Conn) (k : Str) : Except Err Str :=
  match a.Path.Get c ("env/".toList ++ replaceAll k '_' '-') with
  | .error err => .error err
  | .ok (val, _) => .ok val

/-- The in-place update of `SetEnvironmentVar`: `Env[k] = v` only when `k` is not present. -/
def App.noteEnv (a : App) (k v : Str) : App :=
  if (a.Env.lookup k).isSome then a else { a with Env := a.Env.set k v }

/-- `App.SetEnvironmentVar`. -/
def App.SetEnvironmentVar (a : App) (c : Conn) (k v : Str) : (Option App × Option Err) × Conn :=
  match a.Path.Set c ("env/".toList ++ replaceAll k '_' '-') v with
  | ((_, some err), c') => ((none, some err), c')
  | ((rev, none), c') => ((some ((a.noteEnv k v).FastForward c' rev), none), c')

/-- `App.DelEnvironmentVar`. -/
def App.DelEnvironmentVar (a : App) (c : Conn) (k : Str) : (Option App × Option Err) × Conn :=
  match a.Path.Del c ("env/".toList ++ replaceAll k '_' '-') with
  | (some err, c') => ((none, some err), c')
  | (none, c') => ((some (a.FastForward c' (a.Path.Snapshot.Rev + 1)), none), c')

/-- The `range a.Env` loop of `Register`, over the entries in iteration order. -/
def App.registerEnv (a : App) : List (Str × Str) → Conn → Option Err × Conn
  | [], c => (none, c)
  | (k, v) :: rest, c =>
    match a.SetEnvironmentVar c k v with
    | ((_, some err), c') => (some err, c')
    | ((_, none), c') => (a.noteEnv k v).registerEnv rest c'

/-- `App.Register`; `now` is the timestamp `time.Now().UTC().String()`. -/
def App.Register (a : App) (c : Conn) (now : Str) : (Option App × Option Err) × Conn :=
  match c.Exists a.Path.Dir none with
  | .error _ =>
    ((none, some (.message ("application '".toList ++ a.Name ++ "' is already registered".toList))), c)
  | .ok (true, _) => ((none, some .ErrKeyConflict), c)
  | .ok (false, _) =>
    let a1 : App := if a.DeployType = [] then { a with DeployType := DEPLOY_LXC } else a
    let attrs : File :=
      { Snapshot := a1.Path.Snapshot, Codec := .JSONCodec, Path := a1.Path.Prefix "attrs".toList [],
        Value := .map [("repo-url".toList, a1.RepoUrl), ("stack".toList, a1.Stack),
          ("deploy-type".toList, a1.DeployType)] }
    match attrs.Create c with
    | ((_, some err), c1) => ((none, some err), c1)
    | ((_, none), c1) =>
      match a1.registerEnv a1.Env c1 with
      | (some err, c2) => ((none, some err), c2)
      | (none, c2) =>
        match a1.Path.Set c2 "registered".toList now with
        | ((_, some err), c3) => ((none, some err), c3)
        | ((rev, none), c3) => ((some (a1.FastForward c3 rev), none), c3)

/-- `App.Unregister`. -/
def App.Unregister (a : App) (c : Conn) : Option Err × Conn :=
  a.Path.Del c ['/']

/-- The `range varNames` loop of `EnvironmentVars`. -/
def App.readEnv (a : App) (c : Conn) : List Str → Visor.Env → Visor.Env × Option Err
  | [], vars => (vars, none)
  | n :: ns, vars =>
    match a.GetEnvironmentVar c n with
    | .error err => (vars, some err)
    | .ok v => a.readEnv c ns (vars.set (replaceAll n '-' '_') v)

/-- `App.EnvironmentVars`. -/
def App.EnvironmentVars (a : App) (c : Conn) : Visor.Env × Option Err :=
  match a.Path.Snapshot.Getdir c (a.Path.Prefix "env".toList []) with
  | .error err => if IsErrNoEnt err then ([], none) else ([], some err)
  | .ok varNames => a.readEnv c varNames []

/-- `GetApp`; a failed type assertion on a missing field is a panic. -/
def GetApp (s : Snapshot) (c : Conn) (name : Str) : Option App × Option Err :=
  let app := NewApp name [] [] s
  match Get s c (app.Path.Prefix "attrs".toList []) .JSONCodec with
  | .error err => (none, some err)
  | .ok f =>
    match f.Value with
    | .map value =>
      match value.lookup "repo-url".toList, value.lookup "stack".toList,
          value.lookup "deploy-type".toList with
      | some repo, some stack, some deploy =>
        (some { app with RepoUrl := repo, Stack := stack, DeployType := deploy }, none)
      | _, _, _ => (none, some .panic)
    | _ => (none, some .panic)

/-! ## Tickets (modelled; the ticket creation used by `Scale` is not in the source tree) -/

/-- The operation of a ticket. -/
inductive OperationType
  | OpStart
  | OpStop
  deriving DecidableEq, Repr

/-- The stored form of an operation: `start` or `stop`. -/
def OperationType.text : OperationType → Str
  | .OpStart => "start".toList
  | .OpStop => "stop".toList

/-- `UID_PATH`. -/
def UID_PATH : Str := "/uid".toList

/-- Modelled from the spec: the key `/tickets/<id>/op` of the key schema. -/
def ticketPath (id : Int) : Str := "tickets/".toList ++ Itoa id ++ "/op".toList

/-- Modelled from the spec: a work item with an operation and the target triple. -/
structure Ticket where
  Snapshot : Snapshot
  Id : Int
  AppName : Str
  RevisionName : Str
  ProcessName : Str
  Op : OperationType
  deriving DecidableEq, Repr

/-- Modelled from the spec: the ticket id allocator, the pattern of `ClaimNextPort`
against `/uid`: read the latest value and CAS-increment it.  Without a concurrent writer
the increment cannot conflict, so no retry is modelled. -/
def Getuid (s : Snapshot) (c : Conn) : Except Err Int × Conn :=
  match GetLatest s c UID_PATH .IntCodec with
  | .error err => (.error err, c)
  | .ok f =>
    match f.Value with
    | .int id =>
      match f.Set c (.int (id + 1)) with
      | ((_, some err), c') => (.error err, c')
      | ((_, none), c') => (.ok id, c')
    | _ => (.error .BadValue, c)

/-- Modelled from the spec: `CreateTicket` claims an id and creates `/tickets/<id>/op`
holding the operation; the ticket is anchored to the revision of that write. -/
def CreateTicket (app revision processName : Str) (op : OperationType) (s : Snapshot)
    (c : Conn) : (Option Ticket × Option Err) × Conn :=
  match Getuid s c with
  | (.error err, c1) => ((none, some err), c1)
  | (.ok id, c1) =>
    let f : File := ⟨s, ticketPath id, .StringCodec, .str op.text⟩
    match f.Create c1 with
    | ((_, some err), c2) => ((none, some err), c2)
    | ((f1, none), c2) => ((some ⟨f1.Snapshot, id, app, revision, processName, op⟩, none), c2)

/-! ## `visor.go` -/

/-- `SCALE_PATH`. -/
def SCALE_PATH : Str := "scale".toList

/-- Modelled from the spec: the `revs` segment of the key schema (`REVS_PATH`). -/
def REVS_PATH : Str := "revs".toList

/-- Modelled from the spec: the `procs` segment of the key schema (`PROCS_PATH`). -/
def PROCS_PATH : Str := "procs".toList

/-- Modelled from the spec: the scale key `/scale/<app>/<ref>/<ptype>`. -/
def scalePath (app revision processName : Str) : Str :=
  Join [SCALE_PATH, app, revision, processName]

/-- Modelled from the spec: `GetScale` reads the scale key, treating NoEnt as 0. -/
def Snapshot.GetScale (s : Snapshot) (c : Conn) (app revision processName : Str) :
    Except Err (Int × Int) :=
  match Visor.Get s c (scalePath app revision processName) .IntCodec with
  | .error err => if IsErrNoEnt err then .ok (0, 0) else .error err
  | .ok f =>
    match f.Value with
    | .int scale => .ok (scale, f.Snapshot.Rev)
    | _ => .error .BadValue

/-- Modelled from the spec: `SetScale` writes the scale key. -/
def Snapshot.SetScale (s : Snapshot) (c : Conn) (app revision processName : Str)
    (factor : Int) : (Snapshot × Option Err) × Conn :=
  s.Set c (scalePath app revision processName) (Itoa factor)

/-- The ticket loop of `Scale`: `n` iterations left. -/
def scaleLoop (app revision processName : Str) (op : OperationType) :
    Nat → Snapshot → Conn → Option Err × Conn
  | 0, _, c => (none, c)
  | n + 1, s, c =>
    match CreateTicket app revision processName op s c with
    | ((_, some err), c') => (some err, c')
    | ((none, none), c') => (some .panic, c')
    | ((some ticket, none), c') =>
      scaleLoop app revision processName op n (s.FastForward c' ticket.Snapshot.Rev) c'

/-- The operation and the number of tickets `Scale` derives from the factor and the
current scale. -/
def scalePlan (factor current : Int) : OperationType × Int :=
  if current > 0 then
    if factor - current < 0 then (.OpStop, -(factor - current)) else (.OpStart, factor - current)
  else (.OpStart, factor)

/-- `Scale`. -/
def Scale (app revision processName : Str) (factor : Int) (s : Snapshot) (c : Conn) :
    Option Err × Conn :=
  if factor < 0 then
    (some (.message "scaling factor needs to be a positive integer".toList), c)
  else
    match c.Exists (Join [APPS_PATH, app, REVS_PATH, revision]) none with
    | .error _ => (some (.message (app ++ '@' :: revision ++ " not found".toList)), c)
    | .ok (false, _) => (some (.message (app ++ '@' :: revision ++ " not found".toList)), c)
    | .ok (true, _) =>
      match c.Exists (Join [APPS_PATH, app, PROCS_PATH, processName]) none with
      | .error _ =>
        (some (.message ("proc '".toList ++ processName ++ "' doesn't exist".toList)), c)
      | .ok (false, _) =>
        (some (.message ("proc '".toList ++ processName ++ "' doesn't exist".toList)), c)
      | .ok (true, _) =>
        match s.GetScale c app revision processName with
        | .error err => (some err, c)
        | .ok (current, _) =>
          match s.SetScale c app revision processName factor with
          | ((_, some err), c1) => (some err, c1)
          | ((s1, none), c1) =>
            scaleLoop app revision processName (scalePlan factor current).1
              (scalePlan factor current).2.toNat s1 c1

/-! ## Vocabulary of the statements -/

/-- The store reports key `path` as present at its latest revision. -/
def Present (c : Conn) (path : Str) : Prop := ∃ r, c.Exists path none = .ok (true, r)

/-- The store reports key `path` as absent at its latest revision. -/
def Missing (c : Conn) (path : Str) : Prop := ∃ r, c.Exists path none = .ok (false, r)

/-- A ticket with operation `op` is stored under key `q`. -/
def IsTicket (c : Conn) (q : Str) (op : OperationType) : Prop :=
  (∃ id : Int, q = ticketPath id) ∧ ∃ r, statOf c.log q = some (.text op.text, r)

/-- Going from store `c` to store `c'`, exactly the tickets under the keys `created` were
created, each with operation `op`: the keys are distinct ticket keys that were missing in
`c` and hold `op` in `c'`, and every ticket of `c'` is one of them or was a ticket of `c`. -/
def Created (op : OperationType) (c c' : Conn) (created : List Str) : Prop :=
  created.Nodup ∧
  (∀ q ∈ created, (∃ id : Int, q = ticketPath id) ∧ statOf c.log q = none ∧
    ∃ r, statOf c'.log q = some (.text op.text, r)) ∧
  (∀ q o, IsTicket c' q o → q ∈ created ∨ IsTicket c q o)


/-! ## Concrete stores of the scenarios -/

/-- A store holding revision `7abcde6` and proctype `web` of app `ins-test`, and the id
allocator at 0. -/
def scaleStore : Conn :=
  ⟨[.put [("/uid".toList, .text "0".toList)],
    .put [("apps/ins-test/procs/web/registered".toList, .text "now".toList)],
    .put [("apps/ins-test/revs/7abcde6/registered".toList, .text "now".toList)]]⟩

/-- The store after scaling `ins-test@7abcde6` `web` from 0 to 9. -/
def scaleStore9 : Conn :=
  (Scale "ins-test".toList "7abcde6".toList "web".toList 9 ⟨3⟩ scaleStore).2

/-- The store after scaling on from 9 to 4. -/
def scaleStore4 : Conn :=
  (Scale "ins-test".toList "7abcde6".toList "web".toList 4 ⟨22⟩ scaleStore9).2

/-- The scenario store in which ticket key 1 is already taken. -/
def takenStore : Conn :=
  scaleStore.commit (.put [("tickets/1/op".toList, .text "start".toList)])

/-- Invariant of the ticket loop: the keys `created` are new tickets holding `op`, and
apart from them and the id allocator no key changed. -/
def Frame (op : OperationType) (c c' : Conn) (created : List Str) : Prop :=
  created.Nodup ∧
  (∀ q ∈ created, (∃ id : Int, q = ticketPath id) ∧ statOf c.log q = none ∧
    ∃ r, statOf c'.log q = some (.text op.text, r)) ∧
  (∀ q, q ∉ created → q ≠ UID_PATH → statOf c'.log q = statOf c.log q)


/-- The store key of environment variable `k` of the app stored under `dir`:
`<dir>/env/<k with every '_' replaced by '-'>`. -/
def envKey (dir k : Str) : Str := dir ++ '/' :: ("env/".toList ++ replaceAll k '_' '-')

/-- The history after `Register` wrote the environment entries in iteration order. -/
def envWrites (dir : Str) : List (Str × Str) → List Event → List Event
  | [], log => log
  | (k, v) :: rest, log => envWrites dir rest (.put [(envKey dir k, .text v)] :: log)

/-- The attributes `Register` persists for an app. -/
def attrsOf (a : App) : List (Str × Str) :=
  [("repo-url".toList, a.RepoUrl), ("stack".toList, a.Stack),
    ("deploy-type".toList, if a.DeployType = [] then DEPLOY_LXC else a.DeployType)]

/-- An app as callers build it: `NewApp`, then the exported fields `Env` and `DeployType`. -/
def mkApp (name repourl stack deployType : Str) (env : Env) (s : Snapshot) : App :=
  { NewApp name repourl stack s with Env := env, DeployType := deployType }


/-- The app `lolcatapp` of the registration scenario, on a snapshot of the empty store. -/
def lolcatapp : App :=
  mkApp "lolcatapp".toList "git://cat.git".toList "whiskers".toList [] [] ⟨0⟩

/-- The app `envyapp` with the environment of the persistence scenario. -/
def envyapp : App :=
  mkApp "envyapp".toList "git://cat.git".toList "whiskers".toList []
    [("VAR1".toList, "VAL1".toList), ("VAR2".toList, "VAL2".toList)] ⟨0⟩

/-- An app whose in-memory environment already holds `meow`. -/
def meowApp : App :=
  mkApp "lolcatapp".toList "git://cat.git".toList "whiskers".toList []
    [("meow".toList, "old".toList)] ⟨0⟩

/-- A store in which `wuff` of app `catalolna` was set at revision 1 and an unrelated key
was written at revisions 2 and 3. -/
def wuffStore : Conn :=
  ⟨[.put [("unrelated".toList, .text "2".toList)],
    .put [("unrelated".toList, .text "1".toList)],
    .put [("apps/catalolna/env/wuff".toList, .text "lulz".toList)]]⟩

/-- The app `catalolna` on the snapshot at revision 1 of `wuffStore`. -/
def catalolna : App :=
  mkApp "catalolna".toList "git://cat.git".toList "whiskers".toList [] [] ⟨1⟩

/-- The app `dog` of the unregistration scenario, on a snapshot of the empty store. -/
def dog : App :=
  mkApp "dog".toList "git://cat.git".toList "whiskers".toList [] [] ⟨0⟩

/-- An app whose environment key contains a dash. -/
def dashApp : App :=
  mkApp "envyapp".toList "git://cat.git".toList "whiskers".toList []
    [("VAR-1".toList, "VAL1".toList)] ⟨0⟩

/-! ## `visor.go`: the port allocator -/

/-- `START_PORT`. -/
def START_PORT : Int := 8000

/-- `START_PORT_PATH`. -/
def START_PORT_PATH : Str := "/next-port".toList

/-- `Init`: the revision returned, the error, and the store afterwards. -/
def Init (s : Snapshot) (c : Conn) : (Int × Option Err) × Conn :=
  match c.Exists START_PORT_PATH none with
  | .error err => ((0, some err), c)
  | .ok (false, _) =>
    match s.Set c START_PORT_PATH (Itoa START_PORT) with
    | ((_, some err), c1) => ((0, some err), c1)
    | ((s1, none), c1) => ((s1.Rev, none), c1)
  | .ok (true, _) => ((c.Rev, none), c)

/-- Go `int` addition on a 64-bit platform: the sum wrapped into the signed range. -/
def wrap64 (n : Int) : Int := (n + 2 ^ 63) % 2 ^ 64 - 2 ^ 63

/-- What the environment does during one iteration of the `ClaimNextPort` loop, between
the read of the counter and its increment: nothing, a committed write of another client,
or a failure of the increment write with the given error. -/
inductive Turn
  | quiet
  | write (path : Str) (body : Body)
  | fail (err : Err)
  deriving DecidableEq, Repr

/-- The store after the environment's part of a turn. -/
def Turn.commit (t : Turn) (c : Conn) : Conn :=
  match t with
  | .write path body => c.commit (.put [(path, body)])
  | _ => c

/-- The increment write `f.Set(port + 1)` during a turn. -/
def Turn.set (t : Turn) (f : File) (c : Conn) (value : Value) : (File × Option Err) × Conn :=
  match t with
  | .fail err => ((f, some err), c)
  | _ => f.Set c value

/-- `ClaimNextPort`: one loop iteration per turn of the environment; `none` when the loop
is still running after the last turn. -/
def ClaimNextPort : List Turn → Snapshot → Conn → Option ((Int × Option Err) × Conn)
  | [], _, _ => none
  | t :: ts, s, c =>
    match GetLatest s c START_PORT_PATH .IntCodec with
    | .error err => some ((-1, some err), c)
    | .ok f =>
      match f.Value with
      | .int port =>
        match t.set f (t.commit c) (.int (wrap64 (port + 1))) with
        | ((_, none), c2) => some ((port, none), c2)
        | ((f1, some _), c2) => ClaimNextPort ts f1.Snapshot c2
      | _ => some ((0, some .panic), c)

/-! ## `app.go`: listing -/

/-- The `range names` loop of `Apps`. -/
def appsLoop (s : Snapshot) (c : Conn) : List Str → List App → List App × Option Err
  | [], apps => (apps, none)
  | n :: ns, apps =>
    match GetApp s c n with
    | (_, some err) => (apps, some err)
    | (none, none) => (apps, some .panic)
    | (some app, none) => appsLoop s c ns (apps ++ [app])

/-- `Apps`. -/
def Apps (s : Snapshot) (c : Conn) : List App × Option Err :=
  match c.Exists APPS_PATH none with
  | .error err => ([], some err)
  | .ok (false, _) => ([], none)
  | .ok (true, _) =>
    match (s.FastForward c (-1)).Getdir c APPS_PATH with
    | .error err => ([], some err)
    | .ok names => appsLoop s c names []

/-! ## `instance.go` -/

/-- `State` of an instance, an integer 0..5. -/
abbrev State := Int

/-- `InsStateInitial`. -/
def InsStateInitial : State := 0

/-- `InsStateStarted`. -/
def InsStateStarted : State := 1

/-- `InsStateReady`. -/
def InsStateReady : State := 2

/-- `InsStateFailed`. -/
def InsStateFailed : State := 3

/-- `InsStateDead`. -/
def InsStateDead : State := 4

/-- `InsStateExited`. -/
def InsStateExited : State := 5

/-- Go `net.TCPAddr`, the IP held in its string form, the empty string for an IP of
length 0. -/
structure TCPAddr where
  IP : Str
  Port : Int
  deriving DecidableEq, Repr

/-- Go `net.JoinHostPort`: a host with a colon is bracketed. -/
def JoinHostPort (host port : Str) : Str :=
  if ':' ∈ host then '[' :: host ++ ']' :: ':' :: port else host ++ ':' :: port

/-- Go `(*net.TCPAddr).String`. -/
def TCPAddr.String (a : TCPAddr) : Str := JoinHostPort a.IP (Itoa a.Port)

/-- Modelled from the spec: a ProcType belongs to one App and is keyed by its process name
(`proctype.go` is not in the source tree). -/
structure ProcType where
  App : App
  Name : Str
  deriving DecidableEq, Repr

/-- Modelled from the spec: the ProcType subtree `/apps/<app>/procs/<ptype>` of the key
schema. -/
def ProcType.Path (p : ProcType) : Str := Join [APPS_PATH, p.App.Name, PROCS_PATH, p.Name]

/-- `Instance` of `instance.go`. -/
structure Instance where
  Snapshot : Snapshot
  ProcType : ProcType
  Addr : TCPAddr
  State : State
  deriving DecidableEq, Repr

/-- `Instance.Path`. -/
def Instance.Path (i : Instance) : Str :=
  i.ProcType.Path ++ "/instances/".toList ++
    replaceAll (replaceAll i.Addr.String '.' '-') ':' '-'

/-- `Instance.FastForward`: a new instance value around the snapshot at `rev`. -/
def Instance.FastForward (i : Instance) (c : Conn) (rev : Int) : Instance :=
  { i with Snapshot := i.Snapshot.FastForward c rev }

/-- Modelled from the spec: `SetMulti(p, map, rev)`, an atomic multi-key CAS under one
directory: it fails with RevMismatch when one of the keys was written after `rev`, and
otherwise commits all of them in one revision. -/
def Conn.SetMulti (c : Conn) (path : Str) (files : List (Str × Body)) (rev : Int) :
    Except Err Int × Conn :=
  if rev ≠ -1 ∧ (files.any fun kv => decide (rev < (fileRev c.log (path ++ '/' :: kv.1) : Int)))
      = true then
    (.error .RevMismatch, c)
  else
    (.ok (c.log.length + 1 : Nat), c.commit (.put (files.map fun kv => (path ++ '/' :: kv.1, kv.2))))

/-- Go `net.IP.String` on the string form of an IP: the IP of length 0 prints as `<nil>`
(inside `TCPAddr.String` it prints as the empty string). -/
def IP.String (ip : Str) : Str := if ip = [] then "<nil>".toList else ip

/-- The three keys `Register` writes atomically. -/
def Instance.fields (i : Instance) : List (Str × Body) :=
  [("host".toList, .text (IP.String i.Addr.IP)), ("port".toList, .text (Itoa i.Addr.Port)),
    ("state".toList, .text (Itoa i.State))]

/-- `Instance.Register`; `now` is the timestamp `time.Now().UTC().String()`. -/
def Instance.Register (i : Instance) (c : Conn) (now : Str) :
    (Option Instance × Option Err) × Conn :=
  match c.Exists i.Path (some i.Snapshot.Rev) with
  | .error err => ((none, some err), c)
  | .ok (true, _) => ((none, some .ErrKeyConflict), c)
  | .ok (false, _) =>
    if i.State ≠ InsStateInitial then ((none, some .ErrInvalidState), c)
    else
      match c.SetMulti i.Path i.fields i.Snapshot.Rev with
      | (.error err, c1) => ((some i, some err), c1)
      | (.ok _, c1) =>
        match c1.Set (i.Path ++ "/registered".toList) i.Snapshot.Rev (.text now) with
        | (.error err, c2) => ((some i, some err), c2)
        | (.ok rev, c2) => ((some (i.FastForward c2 rev), none), c2)

/-- `InstanceInfo` of `instance.go`. -/
structure InstanceInfo where
  Name : Str
  AppName : Str
  RevisionName : Str
  ProcessName : Str
  Host : Str
  Port : Int
  State : State
  deriving DecidableEq, Repr

/-- The quotation mark. -/
def quoteChar : Char := Char.ofNat 34

/-- A JSON string literal, for the byte form of a stored object. -/
def jsonString (s : Str) : Str :=
  quoteChar :: (s.flatMap fun ch => if ch = quoteChar ∨ ch = Char.ofNat 92 then [Char.ofNat 92, ch] else [ch])
    ++ [quoteChar]

/-- The members of a JSON object, comma separated. -/
def jsonMembers : List (Str × Str) → Str
  | [] => []
  | [(k, v)] => jsonString k ++ ':' :: jsonString v
  | (k, v) :: kv :: rest => jsonString k ++ ':' :: jsonString v ++ ',' :: jsonMembers (kv :: rest)

/-- Go `string(bytes)` of a stored body. -/
def Body.bytes : Body → Str
  | .text s => s
  | .object fields => Char.ofNat 123 :: jsonMembers fields ++ [Char.ofNat 125]

/-- Go `string(val)` of the value returned by `conn.Get`, empty when the read failed. -/
def stringOf (r : Except Err (Body × Int)) : Str :=
  match r with
  | .ok (b, _) => b.bytes
  | .error _ => []

/-- The error of a failed `strconv.Atoi`. -/
def atoiError : Err := .message "strconv.Atoi: invalid syntax or value out of range".toList

/-- The error result of `strconv.Atoi`. -/
def atoiErr (s : Str) : Option Err :=
  match Atoi s with
  | some _ => none
  | none => some atoiError

/-- The instance directory `GetInstanceInfo` reads. -/
def instanceInfoPath (app rev proc ins : Str) : Str :=
  "/apps/".toList ++ app ++ "/revs/".toList ++ rev ++ "/procs/".toList ++ proc ++
    "/instances/".toList ++ ins

/-- `GetInstanceInfo`: every assignment to `err` replaces the one before, and the value
returned is the one of the last assignment. -/
def GetInstanceInfo (s : Snapshot) (c : Conn) (app rev proc ins : Str) :
    InstanceInfo × Option Err :=
  let path := instanceInfoPath app rev proc ins
  let state := c.Get (path ++ "/state".toList) (some s.Rev)
  let host := c.Get (path ++ "/host".toList) (some s.Rev)
  let port := c.Get (path ++ "/port".toList) (some s.Rev)
  let iport := atoiValue (stringOf port)
  let istate := atoiValue (stringOf state)
  ({ Name := ins, AppName := app, RevisionName := rev, ProcessName := proc,
     Host := stringOf host, Port := iport, State := istate }, atoiErr (stringOf state))

/-- The error of a `conn.Get` result, `nil` on success. -/
def errOf (r : Except Err (Body × Int)) : Option Err :=
  match r with
  | .ok _ => none
  | .error err => some err

/-- The errors of the five steps of `GetInstanceInfo` in program order: state read, host
read, port read, port parse, state parse. -/
def instanceInfoErrors (s : Snapshot) (c : Conn) (app rev proc ins : Str) : List (Option Err) :=
  let path := instanceInfoPath app rev proc ins
  let state := c.Get (path ++ "/state".toList) (some s.Rev)
  let host := c.Get (path ++ "/host".toList) (some s.Rev)
  let port := c.Get (path ++ "/port".toList) (some s.Rev)
  [errOf state, errOf host, errOf port, atoiErr (stringOf port), atoiErr (stringOf state)]

/-- The first error of a sequence of steps, `nil` when all succeeded. -/
def firstError : List (Option Err) → Option Err
  | [] => none
  | some err :: _ => some err
  | none :: rest => firstError rest

/-! ## The watcher -/

/-- Whether the path elements match the glob elements; `*` matches any one element. -/
def matchSegs : List Str → List Str → Bool
  | [], [] => true
  | g :: gs, p :: ps => (decide (g = ['*']) || decide (g = p)) && matchSegs gs ps
  | _, _ => false

/-- Modelled from the spec: glob matching, `*` being a single-segment wildcard. -/
def globMatch (glob path : Str) : Bool := matchSegs (splitSlash glob) (splitSlash path)

/-- A change notification of the store (`doozer.Event`): the revision, the key, and the
body, which is absent for a delete. -/
structure WaitEvent where
  Rev : Int
  Path : Str
  Body : Option Body
  deriving DecidableEq, Repr

/-- `IsSet` of a change notification. -/
def WaitEvent.IsSet (ev : WaitEvent) : Bool := ev.Body.isSome

/-- The key of a write that matches the glob, with its new body: for a delete, the first
live key at or below the deleted path that matches. -/
def Event.hit (e : Event) (older : List Event) (glob : Str) : Option (Str × Option Body) :=
  match e with
  | .put files => (files.find? fun kv => globMatch glob kv.1).map fun kv => (kv.1, some kv.2)
  | .del p =>
    ((live older).find? fun q => (decide (q = p) || under p q) && globMatch glob q).map
      fun q => (q, none)

/-- The oldest write at revision `rev` or later that matches the glob. -/
def firstHit (glob : Str) (rev : Int) : List Event → Option WaitEvent
  | [] => none
  | e :: es =>
    match firstHit glob rev es with
    | some w => some w
    | none =>
      if rev ≤ ((es.length + 1 : Nat) : Int) then
        (e.hit es glob).map fun h => ⟨((es.length + 1 : Nat) : Int), h.1, h.2⟩
      else none

/-- The terminal error of `Wait`. -/
def connectionLost : Err := .message "connection lost".toList

/-- Modelled from the spec: `Wait(glob, rev)`, the first event at revision ≥ `rev` matching
`glob`.  The history is the whole run: where it holds no such event, the call returns the
terminal error that ends the watcher. -/
def Conn.Wait (c : Conn) (glob : Str) (rev : Int) : Except Err WaitEvent :=
  match firstHit glob rev c.log with
  | some ev => .ok ev
  | none => .error connectionLost

/-- The element at position `n` of a split path, empty when there is none. -/
def segment (segs : List Str) (n : Nat) : Str := (segs.get? n).getD []

/-- Modelled from the spec: `parseEvent` parses the path of an event, extracting app, rev,
proctype and instance id (the event parser is not in the source tree). -/
def parseEvent (ev : WaitEvent) : List (Str × Str) :=
  let segs := splitSlash ev.Path
  [("app".toList, segment segs 2), ("rev".toList, segment segs 4),
    ("proctype".toList, segment segs 6), ("instance".toList, segment segs 8)]

/-- Go map indexing `m[k]` on a `map[string]string`: empty when the key is absent. -/
def index (m : List (Str × Str)) (k : Str) : Str := (m.lookup k).getD []

/-- The glob `WatchInstance` waits on. -/
def INSTANCE_GLOB : Str := "/apps/*/revs/*/procs/*/instances/*/registered".toList

/-- The body of the `WatchInstance` loop after `Wait` returned `ev` without error: the
value of `rev` for the next iteration, and what is sent to the listener. -/
def watchNext (s : Snapshot) (c : Conn) (rev : Int) (ev : WaitEvent) :
    Int × Option InstanceInfo :=
  let path := parseEvent ev
  if !ev.IsSet then (rev, none)
  else
    match GetInstanceInfo (s.FastForward c ev.Rev) c (index path "app".toList)
        (index path "rev".toList) (index path "proctype".toList)
        (index path "instance".toList) with
    | (_, some _) => (rev, none)
    | (ins, none) => (ev.Rev, some ins)

/-- What a run of the watcher shows: the revisions passed to `Wait`, the records sent to
the listener, and the error returned (`nil` while the loop is still running). -/
structure WatchRun where
  waits : List Int
  sent : List InstanceInfo
  err : Option Err
  deriving DecidableEq, Repr

/-- The `WatchInstance` loop, for at most `fuel` iterations, from the loop variable `rev`. -/
def watchLoop (s : Snapshot) (c : Conn) : Nat → Int → WatchRun
  | 0, _ => ⟨[], [], none⟩
  | fuel + 1, rev =>
    match c.Wait INSTANCE_GLOB (rev + 1) with
    | .error err => ⟨[rev + 1], [], some err⟩
    | .ok ev =>
      let next := watchNext s c rev ev
      let run := watchLoop s c fuel next.1
      ⟨(rev + 1) :: run.waits, next.2.toList ++ run.sent, run.err⟩

/-- `WatchInstance`, observed for at most `fuel` iterations of its loop. -/
def WatchInstance (fuel : Nat) (s : Snapshot) (c : Conn) : WatchRun :=
  watchLoop s c fuel s.Rev

/-! ## Vocabulary and concrete stores of the later statements -/

/-- The store reports key `path` as present at revision `rev`. -/
def PresentAt (c : Conn) (rev : Int) (path : Str) : Prop :=
  ∃ r, c.Exists path (some rev) = .ok (true, r)

/-- The store reports key `path` as absent at revision `rev`. -/
def MissingAt (c : Conn) (rev : Int) (path : Str) : Prop :=
  ∃ r, c.Exists path (some rev) = .ok (false, r)

/-- The store in which `/next-port` holds 8000, as `Init` leaves the empty store. -/
def portStore : Conn := ⟨[.put [(START_PORT_PATH, .text "8000".toList)]]⟩

/-- The store in which `/next-port` holds the largest Go `int`, 2^63 - 1. -/
def maxPortStore : Conn := ⟨[.put [(START_PORT_PATH, .text "9223372036854775807".toList)]]⟩

/-- The store in which `/next-port` holds 2^63, the first decimal integer past the Go
`int` range. -/
def hugePortStore : Conn := ⟨[.put [(START_PORT_PATH, .text "9223372036854775808".toList)]]⟩

/-- The store after registering the apps `cat`, `dog` and `lol`, in that order. -/
def zooStore : Conn :=
  ((mkApp "lol".toList "zebra".toList "joke".toList [] [] ⟨0⟩).Register
    ((mkApp "dog".toList "zebra".toList "joke".toList [] [] ⟨0⟩).Register
      ((mkApp "cat".toList "zebra".toList "joke".toList [] [] ⟨0⟩).Register ⟨[]⟩
        "t0".toList).2 "t1".toList).2 "t2".toList).2

/-- A store in which `cat` and `lol` have attributes and `dog` has only an environment
variable. -/
def strayStore : Conn :=
  ((mkApp "lol".toList "zebra".toList "joke".toList [] [] ⟨0⟩).Register
    (((mkApp "cat".toList "zebra".toList "joke".toList [] [] ⟨0⟩).Register ⟨[]⟩
        "t0".toList).2.commit
      (.put [("apps/dog/env/VAR".toList, .text "VAL".toList)])) "t2".toList).2

/-- The instance `localhost:12345` of proctype `web` of app `ins-test`, in state Initial, on
a snapshot of the empty store. -/
def webInstance : Instance :=
  ⟨⟨0⟩, ⟨NewApp "ins-test".toList "git://ins.git".toList "insane".toList ⟨0⟩, "web".toList⟩,
    ⟨"127.0.0.1".toList, 12345⟩, InsStateInitial⟩

/-- The store after registering `webInstance` on the empty store. -/
def webStore : Conn := (webInstance.Register ⟨[]⟩ "now".toList).2

/-- The same instance in state Started. -/
def startedInstance : Instance := { webInstance with State := InsStateStarted }

/-- The directory of instance `i` of `web` of revision `r` of app `a`, as the watcher
addresses it. -/
def watchedDir : Str := "/apps/a/revs/r/procs/web/instances/i".toList

/-- A history in which the watched instance was written (revision 1), registered
(revision 2) and then deleted (revision 3). -/
def deletedStore : Conn :=
  ⟨[.del watchedDir,
    .put [(watchedDir ++ "/registered".toList, .text "now".toList)],
    .put [(watchedDir ++ "/host".toList, .text "10.0.0.1".toList),
      (watchedDir ++ "/port".toList, .text "8080".toList),
      (watchedDir ++ "/state".toList, .text "0".toList)]]⟩

/-- A history whose only write is the `registered` key of the watched instance, so that the
instance has no state to hydrate. -/
def orphanStore : Conn :=
  ⟨[.put [(watchedDir ++ "/registered".toList, .text "now".toList)]]⟩

/-- A store in which the watched instance has a state and a port but no host. -/
def hostlessStore : Conn :=
  ⟨[.put [(watchedDir ++ "/port".toList, .text "8080".toList),
      (watchedDir ++ "/state".toList, .text "0".toList)]]⟩

/-- A store in which the port of the watched instance is not a decimal integer. -/
def badPortStore : Conn :=
  ⟨[.put [(watchedDir ++ "/host".toList, .text "10.0.0.1".toList),
      (watchedDir ++ "/port".toList, .text "http".toList),
      (watchedDir ++ "/state".toList, .text "0".toList)]]⟩

/-! ## Facts about the store -/

theorem effect_put_single (p q : Str) (b : Body) :
    (Event.put [(p, b)]).effect q = if q = p then some (some b) else none := by
  by_cases h : q = p
  · subst h; simp [Event.effect, List.lookup]
  · have : (q == p) = false := by simpa using h
    simp [Event.effect, List.lookup, this, h]

theorem statOf_put_single (log : List Event) (p q : Str) (b : Body) :
    statOf (.put [(p, b)] :: log) q = if q = p then some (b, log.length + 1) else statOf log q := by
  rw [statOf, effect_put_single]
  by_cases h : q = p <;> simp [h]

theorem statOf_del (log : List Event) (p q : Str) :
    statOf (.del p :: log) q = if q = p ∨ under p q = true then none else statOf log q := by
  rw [statOf]
  by_cases h : q = p ∨ under p q = true <;> simp [Event.effect, h]

theorem statOf_rev_pos (log : List Event) (q : Str) (b : Body) (r : Nat)
    (h : statOf log q = some (b, r)) : 1 ≤ r ∧ r ≤ log.length := by
  induction log with
  | nil => simp [statOf] at h
  | cons e es ih =>
    rw [statOf] at h
    cases he : e.effect q with
    | none => rw [he] at h; have := ih h; simp; omega
    | some o =>
      rw [he] at h
      cases o with
      | none => simp at h
      | some b' => simp at h; simp; omega

theorem mem_written_of_statOf (log : List Event) (q : Str) (h : (statOf log q).isSome) :
    q ∈ written log := by
  induction log with
  | nil => simp [statOf] at h
  | cons e es ih =>
    rw [statOf] at h
    cases e with
    | put files =>
      cases hl : files.lookup q with
      | none =>
        simp only [Event.effect, hl, Option.map_none'] at h
        simp only [written, List.mem_append]
        exact Or.inr (ih h)
      | some b =>
        have hm : q ∈ files.map Prod.fst := by
          clear h ih
          induction files with
          | nil => simp [List.lookup] at hl
          | cons f fs ihf =>
            obtain ⟨k, v⟩ := f
            by_cases hk : q = k
            · simp only [List.map_cons, List.mem_cons]
              exact Or.inl hk
            · have : (q == k) = false := by simpa using hk
              simp only [List.lookup, this] at hl
              simp only [List.map_cons, List.mem_cons]
              exact Or.inr (ihf hl)
        simp only [written, List.mem_append, List.mem_reverse]
        exact Or.inl hm
    | del p =>
      by_cases hq : q = p ∨ under p q = true
      · simp [Event.effect, hq] at h
      · simp only [Event.effect, hq, if_false] at h
        simp only [written]
        exact ih h

theorem mem_live (log : List Event) (q : Str) : q ∈ live log ↔ (statOf log q).isSome := by
  unfold live
  simp only [List.mem_filter, List.mem_reverse, List.mem_dedup]
  constructor
  · exact fun h => h.2
  · exact fun h => ⟨mem_written_of_statOf log q h, h⟩

theorem live_nodup (log : List Event) : (live log).Nodup := by
  unfold live
  exact ((List.nodup_reverse.2 (List.nodup_dedup _))).filter _

theorem fileRev_le_length (log : List Event) (q : Str) : fileRev log q ≤ log.length := by
  unfold fileRev
  cases h : statOf log q with
  | none => simp
  | some p => obtain ⟨b, r⟩ := p; exact (statOf_rev_pos log q b r h).2

theorem foldr_max_le (f : Str → Nat) (l : List Str) (r : Nat) :
    l.foldr (fun q m => max (f q) m) 0 ≤ r ↔ ∀ q ∈ l, f q ≤ r := by
  induction l with
  | nil => simp
  | cons x xs ih => simp [ih]

theorem revOf_le_iff (log : List Event) (p : Str) (r : Nat) :
    revOf log p ≤ r ↔ ∀ q, (q = p ∨ under p q = true) → fileRev log q ≤ r := by
  unfold revOf
  rw [foldr_max_le]
  constructor
  · intro h q hq
    by_cases hl : (statOf log q).isSome
    · apply h
      simp only [List.mem_filter, mem_live, hl, true_and]
      rcases hq with hq | hq <;> simp [hq]
    · have : statOf log q = none := by simpa using hl
      simp [fileRev, this]
  · intro h q hq
    simp only [List.mem_filter, Bool.or_eq_true, decide_eq_true_eq] at hq
    exact h q hq.2

theorem revOf_eq_zero_iff (log : List Event) (p : Str) :
    revOf log p = 0 ↔ ∀ q, (q = p ∨ under p q = true) → statOf log q = none := by
  rw [← Nat.le_zero, revOf_le_iff]
  constructor
  · intro h q hq
    have := h q hq
    cases hs : statOf log q with
    | none => rfl
    | some x =>
      obtain ⟨b, r⟩ := x
      have := statOf_rev_pos log q b r hs
      simp [fileRev, hs] at *
      omega
  · intro h q hq
    simp [fileRev, h q hq]

theorem revOf_le_length (log : List Event) (p : Str) : revOf log p ≤ log.length :=
  (revOf_le_iff log p _).2 fun q _ => fileRev_le_length log q

theorem upTo_of_le (log : List Event) (r : Int) (h : (log.length : Int) ≤ r) : upTo log r = log := by
  unfold upTo
  have : log.length - r.toNat = 0 := by omega
  simp [this]

theorem upTo_cons_of_le (e : Event) (log : List Event) (r : Int) (h : r ≤ (log.length : Int)) :
    upTo (e :: log) r = upTo log r := by
  unfold upTo
  have : (e :: log).length - r.toNat = (log.length - r.toNat) + 1 := by
    simp only [List.length_cons]; omega
  rw [this, List.drop_succ_cons]


/-! ## Decimal numerals -/

theorem digit_ofNat (d : Nat) (h : d < 10) :
    digitVal (Char.ofNat (48 + d)) = some d := by
  interval_cases d <;> rfl

theorem natDigits_digits (fuel n : Nat) : ∀ ch ∈ natDigits fuel n, (digitVal ch).isSome := by
  induction fuel generalizing n with
  | zero => simp [natDigits]
  | succ f ih =>
    intro ch hch
    rw [natDigits] at hch
    split at hch
    · rename_i hlt
      simp only [List.mem_singleton] at hch
      subst hch
      rw [digit_ofNat n hlt]; rfl
    · simp only [List.mem_append, List.mem_singleton] at hch
      rcases hch with hch | hch
      · exact ih _ ch hch
      · subst hch
        rw [digit_ofNat _ (Nat.mod_lt _ (by decide))]; rfl

theorem Itoa_tail_digits (n : Int) : ∀ ch ∈ (Itoa n).tail, (digitVal ch).isSome := by
  intro ch hch
  unfold Itoa at hch
  split at hch
  · exact natDigits_digits _ _ ch (by simpa using hch)
  · exact natDigits_digits _ _ ch (List.mem_of_mem_tail hch)

theorem Itoa_ne_op (n : Int) (op : OperationType) : Itoa n ≠ op.text := by
  intro h
  have hd := Itoa_tail_digits n
  rw [h] at hd
  have : ∀ ch ∈ (['t'] : Str), (digitVal ch).isSome := by
    intro ch hch
    apply hd
    cases op <;> simp only [List.mem_singleton] at hch <;> subst hch <;> decide
  exact absurd (this 't' (by simp)) (by decide)

theorem ticketPath_ne_uid (id : Int) : ticketPath id ≠ UID_PATH := by
  intro h
  have : (ticketPath id).head? = UID_PATH.head? := by rw [h]
  have h1 : (ticketPath id).head? = some 't' := rfl
  have h2 : UID_PATH.head? = some '/' := rfl
  rw [h1, h2] at this
  exact absurd this (by decide)

theorem parseDigits_append (xs : Str) (c : Char) (acc : Nat) :
    parseDigits (xs ++ [c]) acc =
      (parseDigits xs acc).bind fun a => (digitVal c).map fun d => 10 * a + d := by
  induction xs generalizing acc with
  | nil =>
    simp only [List.nil_append, parseDigits, Option.some_bind]
    cases digitVal c <;> rfl
  | cons x xs ih =>
    simp only [List.cons_append, parseDigits]
    cases digitVal x with
    | none => rfl
    | some d => exact ih _

theorem parseDigits_natDigits (fuel n : Nat) (h : n < fuel) :
    parseDigits (natDigits fuel n) 0 = some n := by
  induction fuel generalizing n with
  | zero => omega
  | succ f ih =>
    rw [natDigits]
    split
    · rename_i hlt
      simp [parseDigits, digit_ofNat n hlt]
    · rename_i hge
      rw [parseDigits_append, ih (n / 10) (by omega), digit_ofNat _ (Nat.mod_lt _ (by decide))]
      simp only [Option.some_bind, Option.map_some', Option.some.injEq]
      omega

theorem natDigits_ne_nil (fuel n : Nat) : natDigits (fuel + 1) n ≠ [] := by
  rw [natDigits]
  split <;> simp

theorem natDigits_head (fuel n : Nat) (c : Char) (cs : Str)
    (h : natDigits fuel n = c :: cs) : c ≠ '-' ∧ c ≠ '+' := by
  have hd := natDigits_digits fuel n c (by rw [h]; simp)
  constructor <;> (intro hc; subst hc; exact absurd hd (by decide))

theorem Atoi_Itoa (n : Int) (h0 : 0 ≤ n) (h1 : n < 2 ^ 63) : Atoi (Itoa n) = some n := by
  have hn : ¬ n < 0 := by omega
  unfold Itoa
  rw [if_neg hn]
  have hp := parseDigits_natDigits (n.natAbs + 1) n.natAbs (by omega)
  cases hd : natDigits (n.natAbs + 1) n.natAbs with
  | nil => exact absurd hd (natDigits_ne_nil _ _)
  | cons c cs =>
    obtain ⟨hm, hpl⟩ := natDigits_head _ _ c cs hd
    rw [hd] at hp
    have hnat : ((n.natAbs : Nat) : Int) = n := by omega
    simp only [Atoi, hm, hpl, if_false, hp, Option.map_some', hnat]
    simp [hnat]
    omega


/-! ## The store operations, case by case -/

theorem Conn_Set_cases (c : Conn) (p : Str) (rev : Int) (b : Body) :
    (c.Set p rev b = (.error .RevMismatch, c) ∧ rev ≠ -1 ∧ rev < (fileRev c.log p : Int)) ∨
    (c.Set p rev b = (.ok (c.log.length + 1 : Nat), c.commit (.put [(p, b)])) ∧
      ¬(rev ≠ -1 ∧ rev < (fileRev c.log p : Int))) := by
  unfold Conn.Set
  by_cases h : rev ≠ -1 ∧ rev < (fileRev c.log p : Int)
  · left; exact ⟨by rw [if_pos h], h⟩
  · right; exact ⟨by rw [if_neg h], h⟩

theorem File_Set_cases (f : File) (c : Conn) (v : Value) :
    (∃ e, f.Set c v = ((f, some e), c)) ∨
    (∃ b f', f.Codec.Encode v = .ok b ∧ f.Set c v = ((f', none), c.commit (.put [(f.Path, b)]))) := by
  unfold File.Set
  cases he : f.Codec.Encode v with
  | error e => left; exact ⟨e, rfl⟩
  | ok b =>
    rcases Conn_Set_cases c f.Path f.Snapshot.Rev b with ⟨h, _⟩ | ⟨h, _⟩
    · left; exact ⟨.RevMismatch, by simp only [h]⟩
    · right; exact ⟨b, _, rfl, by simp only [h]; rfl⟩

theorem File_Create_cases (f : File) (c : Conn) :
    (∃ e, f.Create c = ((f, some e), c)) ∨
    (revOf c.log f.Path = 0 ∧ f.Create c = f.Set c f.Value) := by
  unfold File.Create Conn.Exists
  by_cases h : revOf (c.view none) f.Path = 0
  · right
    have h' : revOf c.log f.Path = 0 := h
    refine ⟨h', ?_⟩
    simp [h]
  · left
    exact ⟨.ErrKeyConflict, by simp [h]⟩

theorem getFile_path (s : Snapshot) (c : Conn) (rev : Option Int) (path : Str) (codec : Codec)
    (f : File) (h : getFile s c rev path codec = .ok f) : f.Path = path ∧ f.Codec = codec := by
  unfold getFile at h
  split at h
  · cases h
  · split at h
    · cases h
    · cases h; exact ⟨rfl, rfl⟩

theorem Getuid_cases (s : Snapshot) (c : Conn) :
    (∃ e, Getuid s c = (.error e, c)) ∨
    (∃ id, Getuid s c = (.ok id, c.commit (.put [(UID_PATH, .text (Itoa (id + 1)))]))) := by
  unfold Getuid
  cases hg : GetLatest s c UID_PATH .IntCodec with
  | error e => left; exact ⟨e, rfl⟩
  | ok f =>
    obtain ⟨hp, hc⟩ := getFile_path s c none UID_PATH .IntCodec f hg
    cases hv : f.Value with
    | str x => left; exact ⟨.BadValue, by simp only [hv]⟩
    | map x => left; exact ⟨.BadValue, by simp only [hv]⟩
    | int id =>
      simp only [hv]
      rcases File_Set_cases f c (.int (id + 1)) with ⟨e, h⟩ | ⟨b, f', he, h⟩
      · left; exact ⟨e, by simp only [h]⟩
      · right
        rw [hc] at he
        simp only [Codec.Encode, Except.ok.injEq] at he
        subst he
        rw [hp] at h
        exact ⟨id, by simp only [h]⟩

/-- The two writes of a successful ticket creation. -/
theorem CreateTicket_cases (app revision processName : Str) (op : OperationType) (s : Snapshot)
    (c : Conn) :
    (∃ e, CreateTicket app revision processName op s c = ((none, some e), c)) ∨
    (∃ e id, CreateTicket app revision processName op s c =
      ((none, some e), c.commit (.put [(UID_PATH, .text (Itoa (id + 1)))]))) ∨
    (∃ t id, CreateTicket app revision processName op s c =
      ((some t, none), (c.commit (.put [(UID_PATH, .text (Itoa (id + 1)))])).commit
        (.put [(ticketPath id, .text op.text)])) ∧
      revOf (c.commit (.put [(UID_PATH, .text (Itoa (id + 1)))])).log (ticketPath id) = 0) := by
  unfold CreateTicket
  rcases Getuid_cases s c with ⟨e, h⟩ | ⟨id, h⟩
  · left; exact ⟨e, by simp only [h]⟩
  · right
    simp only [h]
    rcases File_Create_cases ⟨s, ticketPath id, .StringCodec, .str op.text⟩
      (c.commit (.put [(UID_PATH, .text (Itoa (id + 1)))])) with ⟨e, hc⟩ | ⟨h0, hc⟩
    · left; exact ⟨e, id, by simp only [hc]⟩
    · rcases File_Set_cases ⟨s, ticketPath id, .StringCodec, .str op.text⟩
        (c.commit (.put [(UID_PATH, .text (Itoa (id + 1)))])) (.str op.text) with ⟨e, hs⟩ | ⟨b, f', he, hs⟩
      · left; exact ⟨e, id, by simp only [hc, hs]⟩
      · right
        simp only [Codec.Encode, Except.ok.injEq] at he
        subst he
        exact ⟨_, id, by simp only [hc, hs]; rfl, h0⟩


/-! ## The ticket loop of `Scale` -/

theorem Frame_nil (op : OperationType) (c : Conn) : Frame op c c [] :=
  ⟨List.nodup_nil, by simp, fun _ _ _ => rfl⟩

theorem Frame_uid (op : OperationType) (c : Conn) (b : Body) :
    Frame op c (c.commit (.put [(UID_PATH, b)])) [] := by
  refine ⟨List.nodup_nil, by simp, fun q _ hq => ?_⟩
  simp only [Conn.commit, statOf_put_single, if_neg hq]

theorem Frame_ticket (op : OperationType) (c : Conn) (b : Body) (id : Int)
    (h0 : revOf (c.commit (.put [(UID_PATH, b)])).log (ticketPath id) = 0) :
    Frame op c ((c.commit (.put [(UID_PATH, b)])).commit (.put [(ticketPath id, .text op.text)]))
      [ticketPath id] := by
  have hnone := (revOf_eq_zero_iff _ _).1 h0 (ticketPath id) (Or.inl rfl)
  simp only [Conn.commit, statOf_put_single, if_neg (ticketPath_ne_uid id)] at hnone
  refine ⟨List.nodup_singleton _, ?_, ?_⟩
  · intro q hq
    simp only [List.mem_singleton] at hq
    subst hq
    exact ⟨⟨id, rfl⟩, hnone, _, by simp only [Conn.commit, statOf_put_single, if_true]; rfl⟩
  · intro q hq hu
    simp only [List.mem_singleton] at hq
    simp only [Conn.commit, statOf_put_single, if_neg hq, if_neg hu]

theorem Frame_append (op : OperationType) (c c1 c' : Conn) (A B : List Str)
    (hA : Frame op c c1 A) (hB : Frame op c1 c' B) : Frame op c c' (A ++ B) := by
  obtain ⟨nA, mA, fA⟩ := hA
  obtain ⟨nB, mB, fB⟩ := hB
  have hdisj : ∀ q, q ∈ A → q ∈ B → False := by
    intro q qa qb
    obtain ⟨_, _, r, hr⟩ := mA q qa
    obtain ⟨_, hn, _⟩ := mB q qb
    rw [hr] at hn; cases hn
  have huid : ∀ q, (∃ id : Int, q = ticketPath id) → q ≠ UID_PATH := by
    rintro q ⟨id, rfl⟩; exact ticketPath_ne_uid id
  refine ⟨List.Nodup.append nA nB (fun q qa qb => hdisj q qa qb), ?_, ?_⟩
  · intro q hq
    rcases List.mem_append.1 hq with qa | qb
    · obtain ⟨ht, hn, r, hr⟩ := mA q qa
      exact ⟨ht, hn, r, by rw [fB q (fun qb => hdisj q qa qb) (huid q ht), hr]⟩
    · obtain ⟨ht, hn, r, hr⟩ := mB q qb
      exact ⟨ht, by rw [← fA q (fun qa => hdisj q qa qb) (huid q ht), hn], r, hr⟩
  · intro q hq hu
    simp only [List.mem_append, not_or] at hq
    rw [fB q hq.2 hu, fA q hq.1 hu]

theorem scaleLoop_frame (app revision processName : Str) (op : OperationType) :
    ∀ (n : Nat) (s : Snapshot) (c : Conn) (res : Option Err) (c' : Conn),
      scaleLoop app revision processName op n s c = (res, c') →
      ∃ created, Frame op c c' created ∧ (res = none → created.length = n) ∧
        (∀ e, res = some e → created.length < n ∧ ∃ sj cj x, Frame op c cj created ∧
          CreateTicket app revision processName op sj cj = ((x, some e), c')) := by
  intro n
  induction n with
  | zero =>
    intro s c res c' h
    simp only [scaleLoop, Prod.mk.injEq] at h
    obtain ⟨rfl, rfl⟩ := h
    exact ⟨[], Frame_nil op c, fun _ => rfl, fun e he => by cases he⟩
  | succ n ih =>
    intro s c res c' h
    rw [scaleLoop] at h
    rcases CreateTicket_cases app revision processName op s c with ⟨e, hc⟩ | ⟨e, id, hc⟩ |
      ⟨t, id, hc, h0⟩
    · simp only [hc, Prod.mk.injEq] at h
      obtain ⟨rfl, rfl⟩ := h
      refine ⟨[], Frame_nil op c, (fun h => by cases h), fun e' he' => ?_⟩
      cases he'
      exact ⟨by simp, s, c, none, Frame_nil op c, hc⟩
    · simp only [hc, Prod.mk.injEq] at h
      obtain ⟨rfl, rfl⟩ := h
      refine ⟨[], Frame_uid op c _, (fun h => by cases h), fun e' he' => ?_⟩
      cases he'
      exact ⟨by simp, s, c, none, Frame_nil op c, hc⟩
    · simp only [hc] at h
      obtain ⟨L, hL, hok, herr⟩ := ih _ _ _ _ h
      have h1 := Frame_ticket op c _ id h0
      refine ⟨[ticketPath id] ++ L, Frame_append op c _ c' _ _ h1 hL, ?_, ?_⟩
      · intro hr
        simp only [List.singleton_append, List.length_cons, hok hr]
      · intro e he
        obtain ⟨hlt, sj, cj, x, hF, hC⟩ := herr e he
        refine ⟨by simp only [List.singleton_append, List.length_cons]; omega, sj, cj, x,
          Frame_append op c _ cj _ _ h1 hF, hC⟩


/-! ## `Scale` -/

theorem Snapshot_Set_cases (s : Snapshot) (c : Conn) (p v : Str) :
    (s.Set c p v = ((s, some .RevMismatch), c) ∧ s.Rev ≠ -1 ∧ s.Rev < (fileRev c.log p : Int)) ∨
    (s.Set c p v = ((⟨(c.log.length + 1 : Nat)⟩, none), c.commit (.put [(p, .text v)])) ∧
      ¬(s.Rev ≠ -1 ∧ s.Rev < (fileRev c.log p : Int))) := by
  unfold Snapshot.Set
  rcases Conn_Set_cases c p s.Rev (.text v) with ⟨h, hc⟩ | ⟨h, hc⟩
  · left; exact ⟨by simp only [h], hc⟩
  · right
    refine ⟨?_, hc⟩
    simp only [h, Snapshot.FastForward]
    rw [if_neg (by omega)]

theorem Present_iff (c : Conn) (path : Str) : Present c path ↔ revOf c.log path ≠ 0 := by
  unfold Present Conn.Exists Conn.view
  by_cases h : revOf c.log path = 0 <;> simp [h]

theorem Missing_iff (c : Conn) (path : Str) : Missing c path ↔ revOf c.log path = 0 := by
  unfold Missing Conn.Exists Conn.view
  by_cases h : revOf c.log path = 0 <;> simp [h]

theorem Exists_of_zero (c : Conn) (path : Str) (h : revOf c.log path = 0) :
    c.Exists path none = .ok (false, 0) := by
  simp [Conn.Exists, Conn.view, h]

theorem Exists_of_pos (c : Conn) (path : Str) (h : revOf c.log path ≠ 0) :
    c.Exists path none = .ok (true, (revOf c.log path : Int)) := by
  simp [Conn.Exists, Conn.view, h]

/-- Past its guards, `Scale` is the scale write followed by the ticket loop. -/
theorem Scale_run (app revision processName : Str) (factor cur r : Int) (s : Snapshot) (c : Conn)
    (h0 : 0 ≤ factor)
    (hrev : Present c (Join [APPS_PATH, app, REVS_PATH, revision]))
    (hproc : Present c (Join [APPS_PATH, app, PROCS_PATH, processName]))
    (hcur : s.GetScale c app revision processName = .ok (cur, r)) :
    Scale app revision processName factor s c =
      match s.SetScale c app revision processName factor with
      | ((_, some err), c1) => (some err, c1)
      | ((s1, none), c1) =>
        scaleLoop app revision processName (scalePlan factor cur).1
          (scalePlan factor cur).2.toNat s1 c1 := by
  unfold Scale
  rw [if_neg (by omega), Exists_of_pos c _ ((Present_iff c _).1 hrev),
    Exists_of_pos c _ ((Present_iff c _).1 hproc)]
  simp only [hcur]

/-- A guard of `Scale` that does not hold makes it fail without touching the store. -/
theorem Scale_guard (app revision processName : Str) (factor : Int) (s : Snapshot) (c : Conn)
    (h : factor < 0 ∨ Missing c (Join [APPS_PATH, app, REVS_PATH, revision]) ∨
      Missing c (Join [APPS_PATH, app, PROCS_PATH, processName])) :
    ∃ e, Scale app revision processName factor s c = (some e, c) := by
  unfold Scale
  by_cases hf : factor < 0
  · exact ⟨_, by rw [if_pos hf]⟩
  · rw [if_neg hf]
    by_cases hr : revOf c.log (Join [APPS_PATH, app, REVS_PATH, revision]) = 0
    · exact ⟨_, by rw [Exists_of_zero c _ hr]⟩
    · rw [Exists_of_pos c _ hr]
      have hp : revOf c.log (Join [APPS_PATH, app, PROCS_PATH, processName]) = 0 := by
        rcases h with h | h | h
        · exact absurd h hf
        · exact absurd ((Missing_iff c _).1 h) hr
        · exact (Missing_iff c _).1 h
      exact ⟨_, by rw [Exists_of_zero c _ hp]⟩

theorem Scale_ok_guards (app revision processName : Str) (factor : Int) (s : Snapshot)
    (c c' : Conn) (hok : Scale app revision processName factor s c = (none, c')) :
    0 ≤ factor ∧ Present c (Join [APPS_PATH, app, REVS_PATH, revision]) ∧
      Present c (Join [APPS_PATH, app, PROCS_PATH, processName]) := by
  by_contra hne
  have : factor < 0 ∨ Missing c (Join [APPS_PATH, app, REVS_PATH, revision]) ∨
      Missing c (Join [APPS_PATH, app, PROCS_PATH, processName]) := by
    by_cases hf : factor < 0
    · exact Or.inl hf
    · by_cases hr : revOf c.log (Join [APPS_PATH, app, REVS_PATH, revision]) = 0
      · exact Or.inr (Or.inl ((Missing_iff c _).2 hr))
      · by_cases hp : revOf c.log (Join [APPS_PATH, app, PROCS_PATH, processName]) = 0
        · exact Or.inr (Or.inr ((Missing_iff c _).2 hp))
        · exact absurd ⟨by omega, (Present_iff c _).2 hr, (Present_iff c _).2 hp⟩ hne
  obtain ⟨e, he⟩ := Scale_guard app revision processName factor s c this
  rw [he] at hok
  cases hok

theorem scalePlan_spec (factor cur : Int) (hf : 0 ≤ factor) (hc : 0 ≤ cur) :
    (scalePlan factor cur).2.toNat = (factor - cur).natAbs ∧
    (cur < factor → (scalePlan factor cur).1 = .OpStart) ∧
    (factor < cur → (scalePlan factor cur).1 = .OpStop) := by
  unfold scalePlan
  by_cases h1 : cur > 0
  · rw [if_pos h1]
    by_cases h2 : factor - cur < 0
    · rw [if_pos h2]
      refine ⟨by simp only; omega, fun h => by omega, fun _ => rfl⟩
    · rw [if_neg h2]
      refine ⟨by simp only; omega, fun _ => rfl, fun h => by omega⟩
  · rw [if_neg h1]
    refine ⟨by simp only; omega, fun _ => rfl, fun h => by omega⟩

/-- After the scale write, the loop invariant gives the tickets created since before it. -/
theorem Frame_created (op : OperationType) (c c' : Conn) (sp : Str) (n : Int) (L : List Str)
    (h : Frame op (c.commit (.put [(sp, .text (Itoa n))])) c' L) : Created op c c' L := by
  obtain ⟨nL, mL, fL⟩ := h
  refine ⟨nL, ?_, ?_⟩
  · intro q hq
    obtain ⟨ht, hn, hr⟩ := mL q hq
    refine ⟨ht, ?_, hr⟩
    simp only [Conn.commit, statOf_put_single] at hn
    by_cases hqs : q = sp
    · rw [if_pos hqs] at hn; cases hn
    · rw [if_neg hqs] at hn; exact hn
  · intro q o ⟨⟨id, hid⟩, r, hr⟩
    by_cases hq : q ∈ L
    · exact Or.inl hq
    · right
      have hu : q ≠ UID_PATH := by rw [hid]; exact ticketPath_ne_uid id
      rw [fL q hq hu] at hr
      simp only [Conn.commit, statOf_put_single] at hr
      by_cases hqs : q = sp
      · rw [if_pos hqs] at hr
        simp only [Option.some.injEq, Prod.mk.injEq, Body.text.injEq] at hr
        exact absurd hr.1 (Itoa_ne_op n o)
      · rw [if_neg hqs] at hr
        exact ⟨⟨id, hid⟩, r, hr⟩


/-! ## Cleaned paths never start with a slash unless the input does -/

theorem splitSlash_ne_nil (p : Str) : splitSlash p ≠ [] := by
  cases p with
  | nil => simp [splitSlash]
  | cons c cs =>
    rw [splitSlash]
    split
    · simp
    · split <;> simp

theorem splitSlash_no_slash (p : Str) : ∀ seg ∈ splitSlash p, '/' ∉ seg := by
  induction p with
  | nil => simp [splitSlash]
  | cons c cs ih =>
    rw [splitSlash]
    cases hs : splitSlash cs with
    | nil => exact absurd hs (splitSlash_ne_nil cs)
    | cons seg segs =>
      rw [hs] at ih
      simp only
      by_cases hc : c = '/'
      · rw [if_pos hc]
        intro x hx
        simp only [List.mem_cons] at hx
        rcases hx with rfl | hx
        · simp
        · exact ih x (by simpa using hx)
      · rw [if_neg hc]
        intro x hx
        simp only [List.mem_cons] at hx
        rcases hx with rfl | hx
        · have := ih seg (by simp)
          simp only [List.mem_cons, not_or]
          exact ⟨fun h => hc h.symm, this⟩
        · exact ih x (by simp [hx])

theorem cleanSegs_good (rooted : Bool) (rest : List Str) :
    ∀ out : List Str, (∀ seg ∈ out, seg ≠ [] ∧ '/' ∉ seg) → (∀ seg ∈ rest, '/' ∉ seg) →
      ∀ seg ∈ cleanSegs rooted out rest, seg ≠ [] ∧ '/' ∉ seg := by
  induction rest with
  | nil =>
    intro out ho _ seg hs
    simp only [cleanSegs, List.mem_reverse] at hs
    exact ho seg hs
  | cons x xs ih =>
    intro out ho hr
    have hxs : ∀ seg ∈ xs, '/' ∉ seg := fun seg h => hr seg (List.mem_cons_of_mem _ h)
    have hx : '/' ∉ x := hr x (List.mem_cons_self _ _)
    unfold cleanSegs
    split
    · exact ih out ho hxs
    · rename_i h1
      have hxne : x ≠ [] := fun h => h1 (Or.inl h)
      have hpush : ∀ seg ∈ x :: out, seg ≠ [] ∧ '/' ∉ seg := by
        intro seg hseg
        simp only [List.mem_cons] at hseg
        rcases hseg with rfl | hseg
        · exact ⟨hxne, hx⟩
        · exact ho seg hseg
      split
      · cases out with
        | nil =>
          simp only
          split
          · exact ih [] (by simp) hxs
          · exact ih [x] (by simpa using hpush) hxs
        | cons top out' =>
          simp only
          split
          · exact ih (x :: top :: out') hpush hxs
          · exact ih out' (fun seg h => ho seg (List.mem_cons_of_mem _ h)) hxs
      · exact ih (x :: out) hpush hxs

theorem joinSlash_head (segs : List Str) (h : ∀ seg ∈ segs, seg ≠ [] ∧ '/' ∉ seg) :
    (joinSlash segs).head? ≠ some '/' := by
  cases segs with
  | nil => simp [joinSlash]
  | cons s ss =>
    obtain ⟨hne, hno⟩ := h s (List.mem_cons_self _ _)
    cases s with
    | nil => exact absurd rfl hne
    | cons a as =>
      have ha : a ≠ '/' := fun h => hno (by simp [h])
      cases ss with
      | nil => simpa [joinSlash] using ha
      | cons t ts => simpa [joinSlash] using ha

theorem Clean_head (p : Str) (hp : p.head? ≠ some '/') : (Clean p).head? ≠ some '/' := by
  unfold Clean
  have hr : (decide (p.head? = some '/')) = false := by simpa using hp
  simp only [hr, Bool.false_eq_true, if_false]
  have hb := joinSlash_head (cleanSegs false [] (splitSlash p))
    (cleanSegs_good false _ [] (by simp) (splitSlash_no_slash p))
  split
  · simp
  · simpa using hb

theorem scalePath_ne_uid (app revision processName : Str) :
    scalePath app revision processName ≠ UID_PATH := by
  intro h
  have h1 : (scalePath app revision processName).head? ≠ some '/' := by
    unfold scalePath Join
    have : List.dropWhile (fun e => decide (e = []))
        [SCALE_PATH, app, revision, processName] = [SCALE_PATH, app, revision, processName] := by
      rw [List.dropWhile_cons_of_neg]
      decide
    rw [this]
    apply Clean_head
    simp [joinSlash, SCALE_PATH]
  rw [h] at h1
  exact h1 rfl


/-- C1: a successful `Scale(app, rev, p, n)` from a current scale `c ≥ 0` (an absent scale
key reads as 0) creates exactly `|n - c|` tickets: all with op Start if `n > c`, all with op
Stop if `n < c`, and none if `n = c`. -/
theorem Scale_creates_tickets (app revision processName : Str) (factor cur rev : Int)
    (s : Snapshot) (c c' : Conn)
    (hcur : s.GetScale c app revision processName = .ok (cur, rev)) (hc : 0 ≤ cur)
    (hok : Scale app revision processName factor s c = (none, c')) :
    ∃ created : List Str, created.length = (factor - cur).natAbs ∧
      (cur < factor → Created .OpStart c c' created) ∧
      (factor < cur → Created .OpStop c c' created) ∧
      (factor = cur → created = [] ∧ ∀ q o, IsTicket c' q o → IsTicket c q o) := by
  obtain ⟨h0, hrev, hproc⟩ := Scale_ok_guards app revision processName factor s c c' hok
  rw [Scale_run app revision processName factor cur rev s c h0 hrev hproc hcur] at hok
  unfold Snapshot.SetScale at hok
  rcases Snapshot_Set_cases s c (scalePath app revision processName) (Itoa factor) with
    ⟨hs, _⟩ | ⟨hs, _⟩
  · simp only [hs] at hok; cases hok
  · simp only [hs] at hok
    obtain ⟨created, hF, hlen, _⟩ := scaleLoop_frame _ _ _ _ _ _ _ _ _ hok
    obtain ⟨hn, hstart, hstop⟩ := scalePlan_spec factor cur h0 hc
    have hC := Frame_created _ c c' _ factor created hF
    refine ⟨created, by rw [hlen rfl, hn], fun h => ?_, fun h => ?_, fun h => ?_⟩
    · rw [← hstart h]; exact hC
    · rw [← hstop h]; exact hC
    · have hnil : created = [] := by
        apply List.eq_nil_of_length_eq_zero
        rw [hlen rfl, hn, h]; simp
      refine ⟨hnil, fun q o hq => ?_⟩
      rcases hC.2.2 q o hq with hm | hm
      · rw [hnil] at hm; cases hm
      · exact hm

/-- Witness of C1: scaling 0 -> 9 creates 9 Start tickets, then 9 -> 4 creates 5 Stop tickets. -/
theorem Scale_creates_tickets_witness :
    (∃ created : List Str, created.length = 9 ∧ Created .OpStart scaleStore scaleStore9 created) ∧
    (∃ created : List Str, created.length = 5 ∧ Created .OpStop scaleStore9 scaleStore4 created) := by
  constructor
  · obtain ⟨created, hlen, hstart, _, _⟩ :=
      Scale_creates_tickets "ins-test".toList "7abcde6".toList "web".toList 9 0 0 ⟨3⟩
        scaleStore scaleStore9 rfl (by decide) rfl
    exact ⟨created, hlen, hstart (by decide)⟩
  · obtain ⟨created, hlen, _, hstop, _⟩ :=
      Scale_creates_tickets "ins-test".toList "7abcde6".toList "web".toList 4 9 4 ⟨22⟩
        scaleStore9 scaleStore4 rfl (by decide) rfl
    exact ⟨created, hlen, hstop (by decide)⟩

/-- C2: if `factor < 0`, or the revision key `apps/<app>/revs/<revision>` does not exist, or
the proctype key `apps/<app>/procs/<processName>` does not exist, `Scale` returns a non-nil
error and leaves the store as it was: no write, so the scale key is unchanged and no ticket
is created. -/
theorem Scale_rejects_without_write (app revision processName : Str) (factor : Int)
    (s : Snapshot) (c : Conn)
    (h : factor < 0 ∨ Missing c (Join [APPS_PATH, app, REVS_PATH, revision]) ∨
      Missing c (Join [APPS_PATH, app, PROCS_PATH, processName])) :
    ∃ e, Scale app revision processName factor s c = (some e, c) :=
  Scale_guard app revision processName factor s c h

/-- Witness of C2: a negative factor, an unknown revision and an unknown proctype are each
rejected on the scenario store. -/
theorem Scale_rejects_without_write_witness :
    (∃ e, Scale "ins-test".toList "7abcde6".toList "web".toList (-1) ⟨3⟩ scaleStore =
      (some e, scaleStore)) ∧
    (∃ e, Scale "ins-test".toList "0000000".toList "web".toList 9 ⟨3⟩ scaleStore =
      (some e, scaleStore)) ∧
    (∃ e, Scale "ins-test".toList "7abcde6".toList "worker".toList 9 ⟨3⟩ scaleStore =
      (some e, scaleStore)) :=
  ⟨Scale_rejects_without_write _ _ _ _ _ _ (Or.inl (by decide)),
   Scale_rejects_without_write _ _ _ _ _ _ (Or.inr (Or.inl ⟨0, rfl⟩)),
   Scale_rejects_without_write _ _ _ _ _ _ (Or.inr (Or.inr ⟨0, rfl⟩))⟩


theorem GetScale_latest (s : Snapshot) (c : Conn) (app revision processName : Str) (n : Int)
    (k : Nat) (h0 : 0 ≤ n) (h1 : n < 2 ^ 63)
    (h : statOf c.log (scalePath app revision processName) = some (.text (Itoa n), k)) :
    ∃ r, (s.FastForward c (-1)).GetScale c app revision processName = .ok (n, r) := by
  have hv : upTo c.log (s.FastForward c (-1)).Rev = c.log := by
    apply upTo_of_le
    simp [Snapshot.FastForward, Conn.Rev]
  simp only [Snapshot.GetScale, Get, getFile, Conn.Get, Conn.view, hv, h, Codec.Decode,
    Atoi_Itoa n h0 h1]
  exact ⟨_, rfl⟩

/-- C3: `Scale` writes the scale key before creating any ticket and attempts no
compensation.  When the existence checks pass: if `SetScale` fails, that error is returned
and the store is untouched, so no ticket is created; if `SetScale` succeeds and `Scale`
fails with `e`, then `e` is the error of the first failing ticket creation, the tickets
created before it are fewer than required and are exactly the tickets that exist in
addition to the earlier ones, and the stored scale already equals `factor`. -/
theorem Scale_no_compensation (app revision processName : Str) (factor cur r : Int)
    (s : Snapshot) (c : Conn) (h0 : 0 ≤ factor) (hmax : factor < 2 ^ 63)
    (hrev : Present c (Join [APPS_PATH, app, REVS_PATH, revision]))
    (hproc : Present c (Join [APPS_PATH, app, PROCS_PATH, processName]))
    (hcur : s.GetScale c app revision processName = .ok (cur, r)) :
    (∀ s1 e c1, s.SetScale c app revision processName factor = ((s1, some e), c1) →
      c1 = c ∧ Scale app revision processName factor s c = (some e, c)) ∧
    (∀ s1 c1, s.SetScale c app revision processName factor = ((s1, none), c1) →
      ∀ e c', Scale app revision processName factor s c = (some e, c') →
        ∃ created sj cj x,
          created.length < (scalePlan factor cur).2.toNat ∧
          Created (scalePlan factor cur).1 c cj created ∧
          CreateTicket app revision processName (scalePlan factor cur).1 sj cj =
            ((x, some e), c') ∧
          Created (scalePlan factor cur).1 c c' created ∧
          ∃ r', (s.FastForward c' (-1)).GetScale c' app revision processName =
            .ok (factor, r')) := by
  have hrun := Scale_run app revision processName factor cur r s c h0 hrev hproc hcur
  constructor
  · intro s1 e c1 hset
    have hc1 : c1 = c := by
      unfold Snapshot.SetScale at hset
      rcases Snapshot_Set_cases s c (scalePath app revision processName) (Itoa factor) with
        ⟨hs, _⟩ | ⟨hs, _⟩
      · rw [hs] at hset; cases hset; rfl
      · rw [hs] at hset; cases hset
    subst hc1
    exact ⟨rfl, by rw [hrun]; simp only [hset]⟩
  · intro s1 c1 hset e c' hfail
    rw [hrun] at hfail
    simp only [hset] at hfail
    unfold Snapshot.SetScale at hset
    rcases Snapshot_Set_cases s c (scalePath app revision processName) (Itoa factor) with
      ⟨hs, _⟩ | ⟨hs, _⟩
    · rw [hs] at hset; cases hset
    · rw [hs] at hset
      simp only [Prod.mk.injEq, and_true] at hset
      obtain ⟨hs1, hc1⟩ := hset
      subst hc1
      obtain ⟨created, hF, _, herr⟩ := scaleLoop_frame _ _ _ _ _ _ _ _ _ hfail
      obtain ⟨hlt, sj, cj, x, hFj, hC⟩ := herr e rfl
      refine ⟨created, sj, cj, x, hlt, Frame_created _ c cj _ factor created hFj, hC,
        Frame_created _ c c' _ factor created hF, ?_⟩
      have hsp : statOf (c.commit (.put [(scalePath app revision processName,
          .text (Itoa factor))])).log (scalePath app revision processName) =
          some (.text (Itoa factor), c.log.length + 1) := by
        simp only [Conn.commit, statOf_put_single, if_true]
      have hnot : scalePath app revision processName ∉ created := by
        intro hm
        obtain ⟨_, hn, _⟩ := hF.2.1 _ hm
        rw [hsp] at hn; cases hn
      have := hF.2.2 _ hnot (scalePath_ne_uid app revision processName)
      rw [hsp] at this
      exact GetScale_latest s c' app revision processName factor _ h0 hmax this

/-- Witness of C3: with ticket key 1 already taken, scaling 0 -> 3 writes the scale, creates
ticket 0 and then fails with the key conflict of the second creation; the stored scale is 3. -/
theorem Scale_no_compensation_witness :
    ∃ created sj cj x, created.length < 3 ∧
      Created .OpStart takenStore cj created ∧
      CreateTicket "ins-test".toList "7abcde6".toList "web".toList .OpStart sj cj =
        ((x, some .ErrKeyConflict),
          (Scale "ins-test".toList "7abcde6".toList "web".toList 3 ⟨4⟩ takenStore).2) ∧
      Created .OpStart takenStore
        (Scale "ins-test".toList "7abcde6".toList "web".toList 3 ⟨4⟩ takenStore).2 created ∧
      ∃ r', ((⟨4⟩ : Snapshot).FastForward
          (Scale "ins-test".toList "7abcde6".toList "web".toList 3 ⟨4⟩ takenStore).2
          (-1)).GetScale
          (Scale "ins-test".toList "7abcde6".toList "web".toList 3 ⟨4⟩ takenStore).2
          "ins-test".toList "7abcde6".toList "web".toList = .ok (3, r') :=
  (Scale_no_compensation "ins-test".toList "7abcde6".toList "web".toList 3 0 0 ⟨4⟩ takenStore
    (by decide) (by decide) ⟨1, rfl⟩ ⟨2, rfl⟩ rfl).2 _ _ rfl _ _ rfl


/-! ## `App`: the writes of `Register` and of the environment operations -/

theorem Prefix_key (p : Path) (key : Str) (h : key ≠ ['/']) :
    p.Prefix key [] = p.Dir ++ '/' :: key := by
  simp [Path.Prefix, h]

theorem Prefix_slash (p : Path) : p.Prefix ['/'] [] = p.Dir := by
  simp [Path.Prefix]

theorem Prefix_env (p : Path) (k : Str) :
    p.Prefix ("env/".toList ++ replaceAll k '_' '-') [] = envKey p.Dir k := by
  rw [Prefix_key]
  · rfl
  · intro h
    have h1 : ("env/".toList ++ replaceAll k '_' '-').head? = some 'e' := rfl
    rw [h] at h1
    exact absurd h1 (by decide)

theorem Path_Set_cases (p : Path) (c : Conn) (key val : Str) :
    (p.Set c key val = ((p.Snapshot.Rev, some .RevMismatch), c) ∧ p.Snapshot.Rev ≠ -1 ∧
      p.Snapshot.Rev < (fileRev c.log (p.Prefix key []) : Int)) ∨
    (p.Set c key val = ((((c.log.length + 1 : Nat) : Int), none),
        c.commit (.put [(p.Prefix key [], .text val)])) ∧
      ¬(p.Snapshot.Rev ≠ -1 ∧ p.Snapshot.Rev < (fileRev c.log (p.Prefix key []) : Int))) := by
  unfold Path.Set
  rcases Snapshot_Set_cases p.Snapshot c (p.Prefix key []) val with ⟨h, hc⟩ | ⟨h, hc⟩
  · left; exact ⟨by simp only [h], hc⟩
  · right; exact ⟨by simp only [h], hc⟩

theorem FastForward_nat (a : App) (c : Conn) (n : Nat) :
    a.FastForward c (n : Int) = { a with Path := ⟨⟨(n : Int)⟩, a.Path.Dir⟩ } := by
  unfold App.FastForward Snapshot.FastForward
  rw [if_neg (by omega)]

theorem SetEnvironmentVar_cases (a : App) (c : Conn) (k v : Str) :
    (a.SetEnvironmentVar c k v = ((none, some .RevMismatch), c) ∧ a.Path.Snapshot.Rev ≠ -1 ∧
      a.Path.Snapshot.Rev < (fileRev c.log (envKey a.Path.Dir k) : Int)) ∨
    (a.SetEnvironmentVar c k v =
        ((some { a.noteEnv k v with Path := ⟨⟨((c.log.length + 1 : Nat) : Int)⟩, a.Path.Dir⟩ },
          none), c.commit (.put [(envKey a.Path.Dir k, .text v)])) ∧
      ¬(a.Path.Snapshot.Rev ≠ -1 ∧
        a.Path.Snapshot.Rev < (fileRev c.log (envKey a.Path.Dir k) : Int))) := by
  unfold App.SetEnvironmentVar
  have hdir : (a.noteEnv k v).Path = a.Path := by
    unfold App.noteEnv; split <;> rfl
  rcases Path_Set_cases a.Path c ("env/".toList ++ replaceAll k '_' '-') v with
    ⟨h, hc⟩ | ⟨h, hc⟩
  · left
    rw [Prefix_env] at hc
    exact ⟨by simp only [h], hc⟩
  · right
    rw [Prefix_env] at hc h
    refine ⟨?_, hc⟩
    simp only [h, FastForward_nat, hdir]

theorem noteEnv_Path (a : App) (k v : Str) : (a.noteEnv k v).Path = a.Path := by
  unfold App.noteEnv; split <;> rfl

theorem registerEnv_ok (entries : List (Str × Str)) :
    ∀ (a : App) (c c' : Conn), a.registerEnv entries c = (none, c') →
      c'.log = envWrites a.Path.Dir entries c.log := by
  induction entries with
  | nil =>
    intro a c c' h
    simp only [App.registerEnv, Prod.mk.injEq, true_and] at h
    subst h; rfl
  | cons kv rest ih =>
    intro a c c' h
    obtain ⟨k, v⟩ := kv
    rw [App.registerEnv] at h
    rcases SetEnvironmentVar_cases a c k v with ⟨hs, _⟩ | ⟨hs, _⟩
    · simp only [hs] at h; cases h
    · simp only [hs] at h
      have := ih _ _ _ h
      rw [this, noteEnv_Path]
      rfl

theorem deployDefault_eq (a : App) :
    (if a.DeployType = [] then { a with DeployType := DEPLOY_LXC } else a) =
      { a with DeployType := if a.DeployType = [] then DEPLOY_LXC else a.DeployType } := by
  by_cases h : a.DeployType = []
  · simp only [h, if_true]
  · simp only [h, if_false]

/-- What a successful `Register` did: the directory was absent, and the history grew by the
attributes, the environment entries and the timestamp, in that order. -/
theorem Register_ok (a : App) (c c' : Conn) (now : Str) (a' : App)
    (h : a.Register c now = ((some a', none), c')) :
    revOf c.log a.Path.Dir = 0 ∧
    c'.log = .put [(a.Path.Dir ++ '/' :: "registered".toList, .text now)] ::
      envWrites a.Path.Dir a.Env
        (.put [(a.Path.Dir ++ '/' :: "attrs".toList, .object (attrsOf a))] :: c.log) ∧
    a' = { a with DeployType := if a.DeployType = [] then DEPLOY_LXC else a.DeployType,
                  Path := ⟨⟨(c'.log.length : Int)⟩, a.Path.Dir⟩ } := by
  unfold App.Register at h
  by_cases h0 : revOf c.log a.Path.Dir = 0
  swap
  · rw [Exists_of_pos c _ h0] at h
    simp only [Prod.mk.injEq] at h
    exact absurd h.1 (by simp)
  rw [Exists_of_zero c _ h0] at h
  simp only at h
  rw [deployDefault_eq] at h
  generalize ha1 : ({ a with DeployType := if a.DeployType = [] then DEPLOY_LXC else
    a.DeployType } : App) = a1 at h
  have hp : a1.Path = a.Path := by rw [← ha1]
  have he : a1.Env = a.Env := by rw [← ha1]
  have hd : a1.DeployType = if a.DeployType = [] then DEPLOY_LXC else a.DeployType := by
    rw [← ha1]
  have hr : a1.RepoUrl = a.RepoUrl := by rw [← ha1]
  have hst : a1.Stack = a.Stack := by rw [← ha1]
  rcases File_Create_cases
      { Snapshot := a1.Path.Snapshot, Codec := .JSONCodec, Path := a1.Path.Prefix "attrs".toList [],
        Value := .map [("repo-url".toList, a1.RepoUrl), ("stack".toList, a1.Stack),
          ("deploy-type".toList, a1.DeployType)] } c with ⟨e, hc⟩ | ⟨_, hc⟩
  · simp only [hc] at h; cases h
  rcases File_Set_cases
      { Snapshot := a1.Path.Snapshot, Codec := .JSONCodec, Path := a1.Path.Prefix "attrs".toList [],
        Value := .map [("repo-url".toList, a1.RepoUrl), ("stack".toList, a1.Stack),
          ("deploy-type".toList, a1.DeployType)] } c
      (.map [("repo-url".toList, a1.RepoUrl), ("stack".toList, a1.Stack),
          ("deploy-type".toList, a1.DeployType)]) with ⟨e, hs⟩ | ⟨b, f', hb, hs⟩
  · simp only [hc, hs] at h; cases h
  simp only [hc, hs] at h
  simp only [Codec.Encode, Except.ok.injEq] at hb
  subst hb
  cases hre : a1.registerEnv a1.Env
      (c.commit (.put [(a1.Path.Prefix "attrs".toList [], .object
        [("repo-url".toList, a1.RepoUrl), ("stack".toList, a1.Stack),
          ("deploy-type".toList, a1.DeployType)])])) with
  | mk res c2 =>
    rw [hre] at h
    cases res with
    | some e => simp only at h; cases h
    | none =>
      simp only at h
      have hlog := registerEnv_ok _ _ _ _ hre
      rcases Path_Set_cases a1.Path c2 "registered".toList now with ⟨hs2, _⟩ | ⟨hs2, _⟩
      · simp only [hs2] at h; cases h
      · simp only [hs2, Prod.mk.injEq, Option.some.injEq, and_true] at h
        obtain ⟨ha', hc'⟩ := h
        subst hc'
        rw [Prefix_key _ _ (by decide)] at hlog
        rw [Prefix_key _ _ (by decide)]
        refine ⟨h0, ?_, ?_⟩
        · simp only [Conn.commit, hlog, hp, he, hr, hst, hd, attrsOf]
        · rw [← ha', FastForward_nat, ← ha1]
          rfl


theorem under_child (dir x : Str) : under dir (dir ++ '/' :: x) = true := by
  unfold under
  rw [List.isPrefixOf_iff_prefix]
  exact ⟨x, by simp⟩

theorem under_trans (dir x q : Str) (h : under (dir ++ '/' :: x) q = true) :
    under dir q = true := by
  unfold under at *
  rw [List.isPrefixOf_iff_prefix] at *
  obtain ⟨t, ht⟩ := h
  exact ⟨x ++ '/' :: t, by rw [← ht]; simp⟩

theorem child_inj (dir x y : Str) (h : dir ++ '/' :: x = dir ++ '/' :: y) : x = y := by
  have := List.append_cancel_left h
  simpa using this

theorem attrs_ne_envKey (dir k : Str) : dir ++ '/' :: "attrs".toList ≠ envKey dir k := by
  intro h
  have h1 := congrArg List.head? (child_inj dir _ _ h)
  have h2 : ("env/".toList ++ replaceAll k '_' '-').head? = some 'e' := rfl
  rw [h2] at h1
  exact absurd h1 (by decide)

theorem registered_ne_envKey (dir k : Str) :
    dir ++ '/' :: "registered".toList ≠ envKey dir k := by
  intro h
  have h1 := congrArg List.head? (child_inj dir _ _ h)
  have h2 : ("env/".toList ++ replaceAll k '_' '-').head? = some 'e' := rfl
  rw [h2] at h1
  exact absurd h1 (by decide)

theorem attrs_ne_registered (dir : Str) :
    dir ++ '/' :: "attrs".toList ≠ dir ++ '/' :: "registered".toList := by
  intro h
  exact absurd (child_inj dir _ _ h) (by decide)

theorem envWrites_length (dir : Str) (entries : List (Str × Str)) :
    ∀ log, (envWrites dir entries log).length = log.length + entries.length := by
  induction entries with
  | nil => intro log; rfl
  | cons kv rest ih =>
    intro log
    obtain ⟨k, v⟩ := kv
    rw [envWrites, ih]
    simp only [List.length_cons]
    omega

theorem statOf_envWrites_other (dir q : Str) (hq : ∀ k, q ≠ envKey dir k)
    (entries : List (Str × Str)) :
    ∀ log, statOf (envWrites dir entries log) q = statOf log q := by
  induction entries with
  | nil => intro log; rfl
  | cons kv rest ih =>
    intro log
    obtain ⟨k, v⟩ := kv
    rw [envWrites, ih, statOf_put_single, if_neg (hq k)]

theorem revOf_pos (log : List Event) (p q : Str) (b : Body) (r : Nat)
    (hq : q = p ∨ under p q = true) (h : statOf log q = some (b, r)) : r ≤ revOf log p := by
  have := (revOf_le_iff log p (revOf log p)).1 (le_refl _) q hq
  simpa [fileRev, h] using this

/-- After a successful `Register` the timestamp key is the newest write of the store. -/
theorem Register_registered (a : App) (c c' : Conn) (now : Str) (a' : App)
    (h : a.Register c now = ((some a', none), c')) :
    statOf c'.log (a.Path.Dir ++ '/' :: "registered".toList) = some (.text now, c'.log.length) ∧
    c.log.length + 2 ≤ c'.log.length ∧ a'.Path = ⟨⟨(c'.log.length : Int)⟩, a.Path.Dir⟩ := by
  obtain ⟨_, hlog, ha'⟩ := Register_ok a c c' now a' h
  refine ⟨?_, ?_, by rw [ha']⟩
  · rw [hlog, statOf_put_single, if_pos rfl]
    simp
  · rw [hlog]
    simp only [List.length_cons, envWrites_length]
    omega

theorem Register_present (a : App) (c c' : Conn) (now : Str) (a' : App)
    (h : a.Register c now = ((some a', none), c')) : revOf c'.log a.Path.Dir = c'.log.length := by
  obtain ⟨hs, _, _⟩ := Register_registered a c c' now a' h
  exact le_antisymm (revOf_le_length _ _)
    (revOf_pos c'.log a.Path.Dir _ _ _ (Or.inr (under_child _ _)) hs)

/-- C4: once `Register` has succeeded, a second `Register` for the same name returns
`ErrKeyConflict` with a nil app and leaves the store untouched, both on the original (now
stale) app value and on the app value the first `Register` returned. -/
theorem Register_twice_conflict (a : App) (c c' : Conn) (now now2 : Str) (a' : App)
    (h : a.Register c now = ((some a', none), c')) :
    a.Register c' now2 = ((none, some .ErrKeyConflict), c') ∧
    a'.Register c' now2 = ((none, some .ErrKeyConflict), c') ∧
    ∀ b : App, b.Path.Dir = a.Path.Dir →
      b.Register c' now2 = ((none, some .ErrKeyConflict), c') := by
  have hpos : revOf c'.log a.Path.Dir ≠ 0 := by
    rw [Register_present a c c' now a' h]
    have := (Register_registered a c c' now a' h).2.1
    omega
  have key : ∀ b : App, b.Path.Dir = a.Path.Dir →
      b.Register c' now2 = ((none, some .ErrKeyConflict), c') := by
    intro b hb
    unfold App.Register
    rw [hb, Exists_of_pos c' _ hpos]
  refine ⟨key a rfl, key a' ?_, key⟩
  rw [(Register_registered a c c' now a' h).2.2]


/-- Witness of C4: registering `lolcatapp` on the empty store, then registering again. -/
theorem Register_twice_conflict_witness :
    lolcatapp.Register (lolcatapp.Register ⟨[]⟩ "t0".toList).2 "t1".toList =
      ((none, some .ErrKeyConflict), (lolcatapp.Register ⟨[]⟩ "t0".toList).2) :=
  (Register_twice_conflict lolcatapp ⟨[]⟩ _ "t0".toList "t1".toList _ rfl).1


theorem Register_attrs (a : App) (c c' : Conn) (now : Str) (a' : App)
    (h : a.Register c now = ((some a', none), c')) :
    statOf c'.log (a.Path.Dir ++ '/' :: "attrs".toList) =
      some (.object (attrsOf a), c.log.length + 1) := by
  obtain ⟨_, hlog, _⟩ := Register_ok a c c' now a' h
  rw [hlog, statOf_put_single, if_neg (attrs_ne_registered _),
    statOf_envWrites_other _ _ (fun k => attrs_ne_envKey _ k), statOf_put_single, if_pos rfl]

theorem upTo_length (log : List Event) : upTo log (log.length : Int) = log :=
  upTo_of_le log _ (le_refl _)

/-- C5: when `Register` of an app (name, repo url, stack, deploy type) succeeds and returns an
app at revision `R`, the app directory exists at `R`, and `GetApp` on the snapshot at `R`
with the same name returns an app with the same name, repo url and stack and with the deploy
type, where an empty deploy type reads back as the default `lxc`. -/
theorem Register_then_GetApp (name repourl stack deployType : Str) (env : Env) (s : Snapshot)
    (c c' : Conn) (now : Str) (a' : App)
    (h : (mkApp name repourl stack deployType env s).Register c now = ((some a', none), c')) :
    (∃ r, a'.Path.Snapshot.Exists c' a'.Path.Dir = .ok (true, r)) ∧
    ∃ g, GetApp a'.Path.Snapshot c' name = (some g, none) ∧
      g.Name = name ∧ g.RepoUrl = repourl ∧ g.Stack = stack ∧
      g.DeployType = (if deployType = [] then DEPLOY_LXC else deployType) := by
  have hp := (Register_registered _ c c' now a' h).2.2
  have hlen := (Register_registered _ c c' now a' h).2.1
  have hpres := Register_present _ c c' now a' h
  have hat := Register_attrs _ c c' now a' h
  have hdir : (mkApp name repourl stack deployType env s).Path.Dir = Join [APPS_PATH, name] := rfl
  rw [hdir] at hp hpres hat
  have hs' : a'.Path.Snapshot = ⟨(c'.log.length : Int)⟩ := by rw [hp]
  have hd' : a'.Path.Dir = Join [APPS_PATH, name] := by rw [hp]
  rw [hs', hd']
  constructor
  · simp only [Snapshot.Exists, Conn.Exists, Conn.view, upTo_length, hpres]
    have : decide ((c'.log.length : Nat) ≠ 0) = true := by
      simp only [decide_eq_true_eq]; omega
    rw [this]
    exact ⟨_, rfl⟩
  · have hpre : (NewApp name [] [] ⟨(c'.log.length : Int)⟩).Path.Prefix "attrs".toList [] =
        Join [APPS_PATH, name] ++ '/' :: "attrs".toList := by
      rw [Prefix_key _ _ (by decide)]; rfl
    unfold GetApp
    simp only [hpre, Get, getFile, Conn.Get, Conn.view, upTo_length, hat, Codec.Decode]
    exact ⟨_, rfl, rfl, rfl, rfl, rfl⟩

/-- Witness of C5: `lolcatapp`, registered on the empty store with no deploy type. -/
theorem Register_then_GetApp_witness :
    ∃ g, GetApp ⟨2⟩ (lolcatapp.Register ⟨[]⟩ "t0".toList).2 "lolcatapp".toList = (some g, none) ∧
      g.Name = "lolcatapp".toList ∧ g.RepoUrl = "git://cat.git".toList ∧
      g.Stack = "whiskers".toList ∧ g.DeployType = DEPLOY_LXC :=
  (Register_then_GetApp "lolcatapp".toList "git://cat.git".toList "whiskers".toList [] []
    ⟨0⟩ ⟨[]⟩ (lolcatapp.Register ⟨[]⟩ "t0".toList).2 "t0".toList
    (mkApp "lolcatapp".toList "git://cat.git".toList "whiskers".toList DEPLOY_LXC [] ⟨2⟩) rfl).2


theorem envKey_congr (dir k k2 : Str) (h : replaceAll k2 '_' '-' = replaceAll k '_' '-') :
    envKey dir k2 = envKey dir k := by
  unfold envKey; rw [h]

theorem GetEnvironmentVar_eq (b : App) (w : Conn) (k : Str) :
    b.GetEnvironmentVar w k =
      (b.Path.Snapshot.Get w (envKey b.Path.Dir k)).map Prod.fst := by
  unfold App.GetEnvironmentVar Path.Get
  rw [Prefix_env]
  cases b.Path.Snapshot.Get w (envKey b.Path.Dir k) with
  | error e => rfl
  | ok x => rfl

theorem Snapshot_Get_latest (c : Conn) (q v : Str) (r : Nat)
    (h : statOf c.log q = some (.text v, r)) :
    (⟨(c.log.length : Int)⟩ : Snapshot).Get c q = .ok (v, (r : Int)) := by
  simp only [Snapshot.Get, Conn.Get, Conn.view, upTo_length, h]

/-- C7: when `SetEnvironmentVar(k, v)` succeeds and returns `app'`, then
`app'.GetEnvironmentVar(k)` returns `v`.  `SetEnvironmentVar`, `GetEnvironmentVar` and
`DelEnvironmentVar` all address the one store key `env/<k with '_' replaced by '-'>` under
the app directory, so a key that differs from `k` only in underscores versus dashes reads
the value written through `k`. -/
theorem EnvironmentVar_roundtrip (a : App) (c c' : Conn) (k v : Str) (a' : App)
    (h : a.SetEnvironmentVar c k v = ((some a', none), c')) :
    a'.GetEnvironmentVar c' k = .ok v ∧
    c' = c.commit (.put [(envKey a.Path.Dir k, .text v)]) ∧
    (∀ k2, replaceAll k2 '_' '-' = replaceAll k '_' '-' →
      a'.GetEnvironmentVar c' k2 = .ok v) ∧
    (∀ (b : App) (w : Conn) (k2 v2 : Str),
      b.GetEnvironmentVar w k2 =
        (b.Path.Snapshot.Get w (envKey b.Path.Dir k2)).map Prod.fst ∧
      (b.SetEnvironmentVar w k2 v2).2 = (b.Path.Snapshot.Set w (envKey b.Path.Dir k2) v2).2 ∧
      (b.DelEnvironmentVar w k2).2 = (b.Path.Snapshot.Del w (envKey b.Path.Dir k2)).2) := by
  rcases SetEnvironmentVar_cases a c k v with ⟨hs, _⟩ | ⟨hs, _⟩
  · rw [hs] at h; cases h
  rw [hs] at h
  simp only [Prod.mk.injEq, Option.some.injEq, and_true] at h
  obtain ⟨ha', hc'⟩ := h
  have hget : ∀ k2, replaceAll k2 '_' '-' = replaceAll k '_' '-' →
      a'.GetEnvironmentVar c' k2 = .ok v := by
    intro k2 hk2
    rw [GetEnvironmentVar_eq, ← ha', ← hc', envKey_congr _ _ _ hk2]
    have hst : statOf (c.commit (.put [(envKey a.Path.Dir k, .text v)])).log
        (envKey a.Path.Dir k) = some (.text v, c.log.length + 1) := by
      simp only [Conn.commit, statOf_put_single, if_true]
    have := Snapshot_Get_latest _ _ _ _ hst
    simp only [Conn.commit, List.length_cons] at this ⊢
    rw [this]
    rfl
  refine ⟨hget k rfl, hc'.symm, hget, ?_⟩
  intro b w k2 v2
  refine ⟨GetEnvironmentVar_eq b w k2, ?_, ?_⟩
  · unfold App.SetEnvironmentVar Path.Set
    rw [Prefix_env]
    rcases Snapshot_Set_cases b.Path.Snapshot w (envKey b.Path.Dir k2) v2 with
      ⟨h1, _⟩ | ⟨h1, _⟩ <;> simp only [h1]
  · unfold App.DelEnvironmentVar Path.Del
    rw [Prefix_env]
    cases hd : b.Path.Snapshot.Del w (envKey b.Path.Dir k2) with
    | mk e w' => cases e <;> rfl

/-- Witness of C7: setting `VAR_1` and reading it back as `VAR_1` and as `VAR-1`. -/
theorem EnvironmentVar_roundtrip_witness :
    ∃ a' c', lolcatapp.SetEnvironmentVar ⟨[]⟩ "VAR_1".toList "w00t".toList =
        ((some a', none), c') ∧
      a'.GetEnvironmentVar c' "VAR_1".toList = .ok "w00t".toList ∧
      a'.GetEnvironmentVar c' "VAR-1".toList = .ok "w00t".toList :=
  ⟨_, _, rfl,
    (EnvironmentVar_roundtrip lolcatapp ⟨[]⟩ _ "VAR_1".toList "w00t".toList _ rfl).1,
    (EnvironmentVar_roundtrip lolcatapp ⟨[]⟩ _ "VAR_1".toList "w00t".toList _ rfl).2.2.1
      "VAR-1".toList rfl⟩

theorem lookup_filter_ne (m : Env) (k k2 : Str) (h : k2 ≠ k) :
    (m.filter fun p => decide (p.1 ≠ k)).lookup k2 = m.lookup k2 := by
  induction m with
  | nil => rfl
  | cons p rest ih =>
    obtain ⟨pk, pv⟩ := p
    by_cases hpk : pk = k
    · subst hpk
      have h1 : (k2 == pk) = false := by simpa using h
      simp only [List.filter, ne_eq, not_true_eq_false, decide_False, List.lookup, h1]
      exact ih
    · simp only [List.filter, ne_eq, hpk, not_false_eq_true, decide_True]
      by_cases h2 : k2 = pk
      · subst h2; simp [List.lookup]
      · have h3 : (k2 == pk) = false := by simpa using h2
        simp only [List.lookup, h3]
        exact ih

theorem lookup_set (m : Env) (k v k2 : Str) :
    (m.set k v).lookup k2 = if k2 = k then some v else m.lookup k2 := by
  unfold Env.set
  by_cases h : k2 = k
  · subst h; simp [List.lookup]
  · have h1 : (k2 == k) = false := by simpa using h
    rw [if_neg h]
    simp only [List.lookup, h1]
    exact lookup_filter_ne m k k2 h

/-- C8, as amended: when `SetEnvironmentVar(k, v)` succeeds, the returned app's `Env` holds
`v` for `k` if `k` was not present before the call, and keeps the entry it had for `k` if
`k` was present; every other key is left as it was. -/
theorem SetEnvironmentVar_Env (a : App) (c c' : Conn) (k v : Str) (a' : App)
    (h : a.SetEnvironmentVar c k v = ((some a', none), c')) :
    (a.Env.lookup k = none → a'.Env.lookup k = some v) ∧
    (∀ old, a.Env.lookup k = some old → a'.Env.lookup k = some old) ∧
    (∀ k2, k2 ≠ k → a'.Env.lookup k2 = a.Env.lookup k2) := by
  rcases SetEnvironmentVar_cases a c k v with ⟨hs, _⟩ | ⟨hs, _⟩
  · rw [hs] at h; cases h
  rw [hs] at h
  simp only [Prod.mk.injEq, Option.some.injEq, and_true] at h
  obtain ⟨ha', _⟩ := h
  have henv : a'.Env = (a.noteEnv k v).Env := by rw [← ha']
  rw [henv]
  unfold App.noteEnv
  refine ⟨fun hn => ?_, fun old ho => ?_, fun k2 hk2 => ?_⟩
  · simp only [hn, Option.isSome_none, Bool.false_eq_true, if_false, lookup_set, if_true]
  · simp only [ho, Option.isSome_some, if_true]
  · split
    · rfl
    · simp only [lookup_set, if_neg hk2]

/-- Witness of C8 as amended: `meow` is new to `lolcatapp` and is recorded. -/
theorem SetEnvironmentVar_Env_witness :
    ∃ a' c', lolcatapp.SetEnvironmentVar ⟨[]⟩ "meow".toList "w00t".toList =
        ((some a', none), c') ∧ a'.Env.lookup "meow".toList = some "w00t".toList :=
  ⟨_, _, rfl,
    (SetEnvironmentVar_Env lolcatapp ⟨[]⟩ _ "meow".toList "w00t".toList _ rfl).1 rfl⟩

/-- Counterexample to C8 as stated: with `meow` already present in `Env`,
`SetEnvironmentVar("meow", "w00t")` succeeds and the returned app's `Env` still holds the
old value. -/
theorem SetEnvironmentVar_Env_counterexample :
    ∃ a' c', meowApp.SetEnvironmentVar ⟨[]⟩ "meow".toList "w00t".toList =
        ((some a', none), c') ∧
      a'.Env.lookup "meow".toList = some "old".toList ∧
      a'.Env.lookup "meow".toList ≠ some "w00t".toList :=
  ⟨_, _, rfl, rfl, by decide⟩

/-- On a snapshot at the store's latest revision `DelEnvironmentVar` does anchor the returned
app to the post-delete revision, and the variable then reads as NoEnt. -/
theorem DelEnvironmentVar_current (a : App) (c c' : Conn) (k : Str) (a' : App)
    (hrev : a.Path.Snapshot.Rev = c.Rev)
    (h : a.DelEnvironmentVar c k = ((some a', none), c')) :
    a'.Path.Snapshot.Rev = c'.Rev ∧ a'.GetEnvironmentVar c' k = .error .ErrNoEnt := by
  unfold App.DelEnvironmentVar Path.Del Snapshot.Del Conn.Del at h
  rw [Prefix_env] at h
  split at h
  · simp at h
  · rename_i w heq
    split at heq
    · cases heq
    · simp only [Prod.mk.injEq] at heq
      obtain ⟨_, hw⟩ := heq
      simp only [Prod.mk.injEq, Option.some.injEq, and_true] at h
      obtain ⟨ha', hc'⟩ := h
      subst hc'
      subst hw
      have hr : a.Path.Snapshot.Rev + 1 = ((c.log.length + 1 : Nat) : Int) := by
        rw [hrev]; simp [Conn.Rev]
      rw [hr, FastForward_nat] at ha'
      subst ha'
      refine ⟨by simp [Conn.Rev, Conn.commit], ?_⟩
      rw [GetEnvironmentVar_eq]
      have hv : upTo (c.commit (.del (envKey a.Path.Dir k))).log ((c.log.length + 1 : Nat) : Int) =
          .del (envKey a.Path.Dir k) :: c.log :=
        upTo_of_le _ _ (by simp [Conn.commit])
      simp only [Snapshot.Get, Conn.Get, Conn.view, hv, statOf_del, true_or, if_true]
      rfl

/-- C9, the code at the failing input: on a snapshot at revision 1 of a store whose latest
revision is 3, `DelEnvironmentVar("wuff")` succeeds; the delete commits at revision 4, the
returned app is anchored to revision 2, and `GetEnvironmentVar("wuff")` on it still returns
the value instead of failing with NoEnt. -/
theorem DelEnvironmentVar_stale_snapshot :
    ∃ a' c', catalolna.DelEnvironmentVar wuffStore "wuff".toList = ((some a', none), c') ∧
      c'.Rev = 4 ∧ a'.Path.Snapshot.Rev = 2 ∧
      a'.GetEnvironmentVar c' "wuff".toList = .ok "lulz".toList :=
  ⟨_, _, rfl, rfl, rfl, rfl⟩


theorem Unregister_eq (b : App) (w : Conn) :
    b.Unregister w = w.Del b.Path.Dir b.Path.Snapshot.Rev := by
  unfold App.Unregister Path.Del Snapshot.Del
  rw [Prefix_slash]

theorem revOf_del (log : List Event) (p : Str) : revOf (.del p :: log) p = 0 := by
  rw [revOf_eq_zero_iff]
  intro q hq
  rw [statOf_del, if_pos hq]

/-- C10: `Unregister` issues a delete of exactly the app's own directory
(`Path.Prefix("/") = Dir = path.Join("apps", name)`) with the app's snapshot revision as CAS
precondition.  For a registered app: on an app value whose snapshot predates the
registration writes it returns RevMismatch and the app stays registered; on the app value
returned by `Register` it succeeds, and afterwards the app directory no longer exists. -/
theorem Unregister_cas (name repourl stack deployType : Str) (env : Env) (s : Snapshot)
    (c c' : Conn) (now : Str) (a' : App)
    (h : (mkApp name repourl stack deployType env s).Register c now = ((some a', none), c')) :
    (∀ (b : App) (w : Conn), b.Path.Prefix ['/'] [] = b.Path.Dir ∧
      b.Unregister w = w.Del b.Path.Dir b.Path.Snapshot.Rev) ∧
    a'.Path.Dir = Join [APPS_PATH, name] ∧
    (∀ b : App, b.Path.Dir = Join [APPS_PATH, name] → 0 ≤ b.Path.Snapshot.Rev →
      b.Path.Snapshot.Rev ≤ c.Rev →
      b.Unregister c' = (some .RevMismatch, c') ∧ Present c' (Join [APPS_PATH, name])) ∧
    ∃ c'', a'.Unregister c' = (none, c'') ∧ Missing c'' (Join [APPS_PATH, name]) := by
  have hp := (Register_registered _ c c' now a' h).2.2
  have hlen := (Register_registered _ c c' now a' h).2.1
  have hpres := Register_present _ c c' now a' h
  have hdir : (mkApp name repourl stack deployType env s).Path.Dir = Join [APPS_PATH, name] := rfl
  rw [hdir] at hp hpres
  refine ⟨fun b w => ⟨Prefix_slash b.Path, Unregister_eq b w⟩, by rw [hp], ?_, ?_⟩
  · intro b hb h0 hle
    have hpos : Present c' (Join [APPS_PATH, name]) := by
      rw [Present_iff, hpres]; omega
    refine ⟨?_, hpos⟩
    rw [Unregister_eq, hb]
    unfold Conn.Del
    rw [if_pos]
    rw [hpres]
    unfold Conn.Rev at hle
    constructor <;> omega
  · refine ⟨c'.commit (.del (Join [APPS_PATH, name])), ?_, ?_⟩
    · rw [Unregister_eq, hp]
      unfold Conn.Del
      rw [if_neg]
      rw [hpres]
      simp
    · rw [Missing_iff]
      exact revOf_del _ _

/-- Witness of C10: `dog` registered on the empty store; the stale value fails with
RevMismatch, the returned value unregisters. -/
theorem Unregister_cas_witness :
    dog.Unregister (dog.Register ⟨[]⟩ "t0".toList).2 =
      (some .RevMismatch, (dog.Register ⟨[]⟩ "t0".toList).2) ∧
    ∃ c'', (mkApp "dog".toList "git://cat.git".toList "whiskers".toList DEPLOY_LXC [] ⟨2⟩).Unregister
        (dog.Register ⟨[]⟩ "t0".toList).2 = (none, c'') ∧
      Missing c'' (Join [APPS_PATH, "dog".toList]) :=
  ⟨((Unregister_cas "dog".toList "git://cat.git".toList "whiskers".toList [] [] ⟨0⟩ ⟨[]⟩
      (dog.Register ⟨[]⟩ "t0".toList).2 "t0".toList _ rfl).2.2.1 dog rfl (by decide)
      (by decide)).1,
   (Unregister_cas "dog".toList "git://cat.git".toList "whiskers".toList [] [] ⟨0⟩ ⟨[]⟩
      (dog.Register ⟨[]⟩ "t0".toList).2 "t0".toList _ rfl).2.2.2⟩


/-! ## The environment written by `Register` and read by `EnvironmentVars` -/

theorem canon_no_slash (k : Str) (h : '/' ∉ k) : '/' ∉ replaceAll k '_' '-' := by
  unfold replaceAll
  intro hm
  rw [List.mem_map] at hm
  obtain ⟨ch, hch, he⟩ := hm
  by_cases h1 : ch = '_'
  · rw [if_pos h1] at he; exact absurd he (by decide)
  · rw [if_neg h1] at he; subst he; exact h hch

theorem uncanon_canon (k : Str) (h : '-' ∉ k) :
    replaceAll (replaceAll k '_' '-') '-' '_' = k := by
  unfold replaceAll
  rw [List.map_map]
  conv_rhs => rw [← List.map_id k]
  apply List.map_congr_left
  intro ch hch
  simp only [Function.comp, id]
  by_cases h1 : ch = '_'
  · rw [if_pos h1, if_pos rfl, h1]
  · rw [if_neg h1]
    have : ch ≠ '-' := fun he => h (he ▸ hch)
    rw [if_neg this]

theorem canon_canon (k : Str) :
    replaceAll (replaceAll k '_' '-') '_' '-' = replaceAll k '_' '-' := by
  unfold replaceAll
  rw [List.map_map]
  apply List.map_congr_left
  intro ch _
  simp only [Function.comp]
  by_cases h1 : ch = '_'
  · rw [if_pos h1, if_neg (by decide)]
  · rw [if_neg h1, if_neg h1]

theorem envKey_inj (dir k k2 : Str) (h : envKey dir k = envKey dir k2) :
    replaceAll k '_' '-' = replaceAll k2 '_' '-' := by
  unfold envKey at h
  have := child_inj dir _ _ h
  exact List.append_cancel_left this

theorem envKey_eq (dir k : Str) :
    envKey dir k = (dir ++ '/' :: "env".toList) ++ '/' :: replaceAll k '_' '-' := by
  unfold envKey
  have : "env/".toList = "env".toList ++ ['/'] := rfl
  rw [this]
  simp

theorem childOf_envKey (dir k : Str) (h : '/' ∉ k) :
    childOf (dir ++ '/' :: "env".toList) (envKey dir k) = some (replaceAll k '_' '-') := by
  unfold childOf
  rw [envKey_eq, if_pos (under_child _ _)]
  have hd : List.drop ((dir ++ '/' :: "env".toList).length + 1)
      ((dir ++ '/' :: "env".toList) ++ '/' :: replaceAll k '_' '-') = replaceAll k '_' '-' := by
    have : (dir ++ '/' :: "env".toList) ++ '/' :: replaceAll k '_' '-' =
        ((dir ++ '/' :: "env".toList) ++ ['/']) ++ replaceAll k '_' '-' := by simp
    rw [this]
    apply List.drop_left'
    simp
  rw [hd]
  congr 1
  rw [List.takeWhile_eq_self_iff]
  intro ch hch
  have := canon_no_slash k h
  simp only [ne_eq, decide_not, Bool.not_eq_true', decide_eq_false_iff_not]
  intro he
  exact this (he ▸ hch)

theorem not_under_env (dir x q : Str) (hx : ¬ ("/env/".toList <+: '/' :: x))
    (hq : q = dir ++ '/' :: x) : under (dir ++ '/' :: "env".toList) q = false := by
  subst hq
  cases hu : under (dir ++ '/' :: "env".toList) (dir ++ '/' :: x) with
  | false => rfl
  | true =>
    exfalso
    unfold under at hu
    rw [List.isPrefixOf_iff_prefix] at hu
    have : dir ++ '/' :: "env".toList ++ ['/'] = dir ++ "/env/".toList := by
      have : "/env/".toList = '/' :: "env".toList ++ ['/'] := rfl
      rw [this]; simp
    rw [this, List.prefix_append_right_inj] at hu
    exact hx hu

theorem statOf_envWrites_cases (dir q : Str) (entries : List (Str × Str)) :
    ∀ log, statOf (envWrites dir entries log) q = statOf log q ∨
      ∃ kv ∈ entries, q = envKey dir kv.1 := by
  induction entries with
  | nil => intro log; exact Or.inl rfl
  | cons kv rest ih =>
    intro log
    obtain ⟨k, v⟩ := kv
    rw [envWrites]
    rcases ih (.put [(envKey dir k, .text v)] :: log) with h | ⟨kv, hkv, hq⟩
    · by_cases hqk : q = envKey dir k
      · exact Or.inr ⟨(k, v), List.mem_cons_self _ _, hqk⟩
      · left; rw [h, statOf_put_single, if_neg hqk]
    · exact Or.inr ⟨kv, List.mem_cons_of_mem _ hkv, hq⟩

theorem statOf_envWrites_key (dir : Str) (entries : List (Str × Str)) :
    ∀ log, (entries.map fun kv => replaceAll kv.1 '_' '-').Nodup →
      ∀ k v, (k, v) ∈ entries →
        ∃ r, statOf (envWrites dir entries log) (envKey dir k) = some (.text v, r) := by
  induction entries with
  | nil => intro log _ k v h; cases h
  | cons kv rest ih =>
    intro log hn k v hm
    obtain ⟨k0, v0⟩ := kv
    rw [envWrites]
    simp only [List.map_cons, List.nodup_cons] at hn
    rcases List.mem_cons.1 hm with he | hr
    · cases he
      rcases statOf_envWrites_cases dir (envKey dir k) rest
          (.put [(envKey dir k, .text v)] :: log) with h | ⟨kv, hkv, hq⟩
      · exact ⟨_, by rw [h, statOf_put_single, if_pos rfl]⟩
      · exfalso
        apply hn.1
        rw [List.mem_map]
        exact ⟨kv, hkv, (envKey_inj dir _ _ hq).symm⟩
    · exact ih _ hn.2 k v hr

theorem mem_Getdir_names (log : List Event) (dir n : Str) :
    n ∈ ((live log).filterMap (childOf dir)).reverse.dedup.reverse ↔
      ∃ q, (statOf log q).isSome ∧ childOf dir q = some n := by
  simp only [List.mem_reverse, List.mem_dedup, List.mem_filterMap, mem_live]

theorem readEnv_spec (a : App) (c : Conn) (f : Str → Str) (names : List Str) :
    ∀ vars : Env, (∀ n ∈ names, a.GetEnvironmentVar c n = .ok (f n)) →
      (a.readEnv c names vars).2 = none ∧
      ∀ x, (∃ n ∈ names, replaceAll n '-' '_' = x ∧
          (a.readEnv c names vars).1.lookup x = some (f n)) ∨
        ((∀ n ∈ names, replaceAll n '-' '_' ≠ x) ∧
          (a.readEnv c names vars).1.lookup x = vars.lookup x) := by
  induction names with
  | nil =>
    intro vars _
    exact ⟨rfl, fun x => Or.inr ⟨fun n hn => (by cases hn), rfl⟩⟩
  | cons n ns ih =>
    intro vars hget
    have hn := hget n (List.mem_cons_self _ _)
    have hns : ∀ m ∈ ns, a.GetEnvironmentVar c m = .ok (f m) :=
      fun m hm => hget m (List.mem_cons_of_mem _ hm)
    rw [App.readEnv]
    simp only [hn]
    obtain ⟨h1, h2⟩ := ih (vars.set (replaceAll n '-' '_') (f n)) hns
    refine ⟨h1, fun x => ?_⟩
    rcases h2 x with ⟨m, hm, hmx, hl⟩ | ⟨hnone, hl⟩
    · exact Or.inl ⟨m, List.mem_cons_of_mem _ hm, hmx, hl⟩
    · rw [lookup_set] at hl
      by_cases hx : x = replaceAll n '-' '_'
      · rw [if_pos hx] at hl
        exact Or.inl ⟨n, List.mem_cons_self _ _, hx.symm, hl⟩
      · rw [if_neg hx] at hl
        refine Or.inr ⟨fun m hm => ?_, hl⟩
        rcases List.mem_cons.1 hm with rfl | hm
        · exact fun h => hx h.symm
        · exact hnone m hm

theorem lookup_of_mem (m : Env) (k v : Str) (hn : (m.map Prod.fst).Nodup) (h : (k, v) ∈ m) :
    m.lookup k = some v := by
  induction m with
  | nil => cases h
  | cons p rest ih =>
    obtain ⟨pk, pv⟩ := p
    simp only [List.map_cons, List.nodup_cons] at hn
    rcases List.mem_cons.1 h with he | hr
    · cases he; simp [List.lookup]
    · have hne : k ≠ pk := by
        intro he
        apply hn.1
        rw [List.mem_map]
        exact ⟨(k, v), hr, he⟩
      have : (k == pk) = false := by simpa using hne
      simp only [List.lookup, this]
      exact ih hn.2 hr

theorem mem_of_lookup (m : Env) (k v : Str) (h : m.lookup k = some v) : (k, v) ∈ m := by
  induction m with
  | nil => simp [List.lookup] at h
  | cons p rest ih =>
    obtain ⟨pk, pv⟩ := p
    by_cases he : k = pk
    · subst he
      simp [List.lookup] at h
      subst h
      exact List.mem_cons_self _ _
    · have : (k == pk) = false := by simpa using he
      simp only [List.lookup, this] at h
      exact List.mem_cons_of_mem _ (ih h)


/-- The keys live under `<Dir>/env` after a successful `Register`, and what they hold. -/
theorem Register_env (a : App) (c c' : Conn) (now : Str) (a' : App)
    (hn : (a.Env.map fun kv => replaceAll kv.1 '_' '-').Nodup)
    (h : a.Register c now = ((some a', none), c')) :
    (∀ k v, (k, v) ∈ a.Env → ∃ r, statOf c'.log (envKey a.Path.Dir k) = some (.text v, r)) ∧
    (∀ q, (statOf c'.log q).isSome → under (a.Path.Dir ++ '/' :: "env".toList) q = true →
      ∃ kv ∈ a.Env, q = envKey a.Path.Dir kv.1) := by
  obtain ⟨h0, hlog, _⟩ := Register_ok a c c' now a' h
  constructor
  · intro k v hm
    rw [hlog, statOf_put_single, if_neg (fun he => registered_ne_envKey _ _ he.symm)]
    exact statOf_envWrites_key _ _ _ hn k v hm
  · intro q hq hu
    have hreg : q ≠ a.Path.Dir ++ '/' :: "registered".toList := by
      intro he
      rw [not_under_env a.Path.Dir "registered".toList q (by decide) he] at hu
      cases hu
    have hattrs : q ≠ a.Path.Dir ++ '/' :: "attrs".toList := by
      intro he
      rw [not_under_env a.Path.Dir "attrs".toList q (by decide) he] at hu
      cases hu
    rw [hlog, statOf_put_single, if_neg hreg] at hq
    rcases statOf_envWrites_cases a.Path.Dir q a.Env
        (.put [(a.Path.Dir ++ '/' :: "attrs".toList, .object (attrsOf a))] :: c.log) with
      he | he
    · exfalso
      rw [he, statOf_put_single, if_neg hattrs,
        (revOf_eq_zero_iff _ _).1 h0 q (Or.inr (under_trans _ _ _ hu))] at hq
      cases hq
    · exact he

/-- C6, as amended: for every environment map whose keys contain neither `/` nor `-`, if an
app with that `Env` is registered successfully, `EnvironmentVars()` on the returned app
succeeds and yields exactly the pairs of `Env`: every key looks up to the same value, and a
key absent from `Env` is absent from the result. -/
theorem Register_then_EnvironmentVars (name repourl stack deployType : Str) (env : Env)
    (s : Snapshot) (c c' : Conn) (now : Str) (a' : App)
    (hkeys : (env.map Prod.fst).Nodup)
    (hslash : ∀ kv ∈ env, '/' ∉ kv.1) (hdash : ∀ kv ∈ env, '-' ∉ kv.1)
    (h : (mkApp name repourl stack deployType env s).Register c now = ((some a', none), c')) :
    (a'.EnvironmentVars c').2 = none ∧
    ∀ k, (a'.EnvironmentVars c').1.lookup k = env.lookup k := by
  have hp := (Register_registered _ c c' now a' h).2.2
  have hEnv : (mkApp name repourl stack deployType env s).Env = env := rfl
  generalize hD : (mkApp name repourl stack deployType env s).Path.Dir = dir at hp
  have hcanon : (env.map fun kv => replaceAll kv.1 '_' '-').Nodup := by
    have : (env.map fun kv => replaceAll kv.1 '_' '-') =
        (env.map Prod.fst).map fun k => replaceAll k '_' '-' := by
      rw [List.map_map]; rfl
    rw [this]
    apply List.Nodup.map_on _ hkeys
    intro x hx y hy hxy
    rw [List.mem_map] at hx hy
    obtain ⟨kx, hkx, rfl⟩ := hx
    obtain ⟨ky, hky, rfl⟩ := hy
    rw [← uncanon_canon kx.1 (hdash kx hkx), ← uncanon_canon ky.1 (hdash ky hky), hxy]
  obtain ⟨hA, hB⟩ := Register_env _ c c' now a' (by rw [hEnv]; exact hcanon) h
  rw [hEnv, hD] at hA hB
  have hs' : a'.Path.Snapshot = ⟨(c'.log.length : Int)⟩ := by rw [hp]
  have hd' : a'.Path.Dir = dir := by rw [hp]
  -- reading one variable of the environment back
  have hread : ∀ k v, (k, v) ∈ env →
      a'.GetEnvironmentVar c' (replaceAll k '_' '-') = .ok v := by
    intro k v hm
    obtain ⟨r, hr⟩ := hA k v hm
    rw [GetEnvironmentVar_eq, hs', hd', envKey_congr dir k _ (canon_canon k),
      Snapshot_Get_latest c' _ v r hr]
    rfl
  -- the names `Getdir` lists are the stored forms of the keys
  have hnames : ∀ n, n ∈ ((live c'.log).filterMap
      (childOf (dir ++ '/' :: "env".toList))).reverse.dedup.reverse ↔
      ∃ kv ∈ env, n = replaceAll kv.1 '_' '-' := by
    intro n
    rw [mem_Getdir_names]
    constructor
    · rintro ⟨q, hq, hch⟩
      have hu : under (dir ++ '/' :: "env".toList) q = true := by
        unfold childOf at hch
        by_contra hne
        rw [if_neg hne] at hch
        cases hch
      obtain ⟨kv, hkv, rfl⟩ := hB q hq hu
      rw [childOf_envKey dir kv.1 (hslash kv hkv)] at hch
      exact ⟨kv, hkv, (Option.some.inj hch).symm⟩
    · rintro ⟨kv, hkv, rfl⟩
      obtain ⟨r, hr⟩ := hA kv.1 kv.2 hkv
      exact ⟨envKey dir kv.1, by rw [hr]; rfl, childOf_envKey dir kv.1 (hslash kv hkv)⟩
  have hpre : a'.Path.Prefix "env".toList [] = dir ++ '/' :: "env".toList := by
    rw [Prefix_key _ _ (by decide), hd']
  unfold App.EnvironmentVars
  simp only [Snapshot.Getdir, Conn.Getdir, hpre, hs', upTo_length]
  cases hnm : ((live c'.log).filterMap
      (childOf (dir ++ '/' :: "env".toList))).reverse.dedup.reverse with
  | nil =>
    refine ⟨rfl, fun k => ?_⟩
    cases hl : env.lookup k with
    | none => rfl
    | some v =>
      have := (hnames (replaceAll k '_' '-')).2 ⟨(k, v), mem_of_lookup env k v hl, rfl⟩
      rw [hnm] at this
      cases this
  | cons n ns =>
    simp only
    rw [← hnm]
    have hget : ∀ m ∈ ((live c'.log).filterMap
        (childOf (dir ++ '/' :: "env".toList))).reverse.dedup.reverse,
        a'.GetEnvironmentVar c' m =
          .ok ((fun x => ((a'.GetEnvironmentVar c' x).toOption).getD []) m) := by
      intro m hm
      obtain ⟨kv, hkv, rfl⟩ := (hnames m).1 hm
      simp only [hread kv.1 kv.2 hkv, Except.toOption, Option.getD_some]
    obtain ⟨h1, h2⟩ := readEnv_spec a' c' _ _ [] hget
    refine ⟨h1, fun k => ?_⟩
    rcases h2 k with ⟨m, hm, hmk, hl⟩ | ⟨hnone, hl⟩
    · obtain ⟨kv, hkv, rfl⟩ := (hnames m).1 hm
      rw [uncanon_canon kv.1 (hdash kv hkv)] at hmk
      subst hmk
      rw [hl, lookup_of_mem env kv.1 kv.2 hkeys hkv]
      simp only [hread kv.1 kv.2 hkv, Except.toOption, Option.getD_some]
    · rw [hl]
      cases hlk : env.lookup k with
      | none => rfl
      | some v =>
        exfalso
        have hm := mem_of_lookup env k v hlk
        exact hnone _ ((hnames _).2 ⟨(k, v), hm, rfl⟩) (uncanon_canon k (hdash _ hm))

/-- Witness of C6 as amended: `Env = {VAR1:VAL1, VAR2:VAL2}`. -/
theorem Register_then_EnvironmentVars_witness :
    ∃ a' c', envyapp.Register ⟨[]⟩ "t0".toList = ((some a', none), c') ∧
      (a'.EnvironmentVars c').2 = none ∧
      ∀ k, (a'.EnvironmentVars c').1.lookup k =
        List.lookup k [("VAR1".toList, "VAL1".toList), ("VAR2".toList, "VAL2".toList)] :=
  ⟨_, _, rfl,
    Register_then_EnvironmentVars "envyapp".toList "git://cat.git".toList "whiskers".toList []
      [("VAR1".toList, "VAL1".toList), ("VAR2".toList, "VAL2".toList)] ⟨0⟩ ⟨[]⟩ _ "t0".toList _
      (by decide) (by decide) (by decide) rfl⟩

/-- Counterexample to C6 as stated: the key `VAR-1` contains no `/`, the app registers, and
`EnvironmentVars()` yields `VAR_1` instead of `VAR-1`. -/
theorem Register_then_EnvironmentVars_counterexample :
    ∃ a' c', dashApp.Register ⟨[]⟩ "t0".toList = ((some a', none), c') ∧
      (∀ kv ∈ dashApp.Env, '/' ∉ kv.1) ∧
      a'.EnvironmentVars c' = ([("VAR_1".toList, "VAL1".toList)], none) ∧
      (a'.EnvironmentVars c').1.lookup "VAR-1".toList ≠ dashApp.Env.lookup "VAR-1".toList :=
  ⟨_, _, rfl, by decide, rfl, by decide⟩

/-! ## `Init` and `ClaimNextPort` -/

theorem statOf_present (log : List Event) (p : Str) (b : Body) (r : Nat)
    (h : statOf log p = some (b, r)) : revOf log p ≠ 0 := by
  have h1 := revOf_pos log p p b r (Or.inl rfl) h
  have h2 := (statOf_rev_pos log p b r h).1
  omega

/-- C13: `Init` is idempotent.  On a snapshot with a non-negative revision: if `/next-port`
is absent, `Init` writes the decimal string `8000` to it and returns the revision of that
write; if `/next-port` is present, `Init` writes nothing and returns the store's current
revision; hence a second `Init` leaves the store, and with it `/next-port`, as the first
one left it. -/
theorem Init_idempotent (s : Snapshot) (c : Conn) (h0 : 0 ≤ s.Rev) :
    (Missing c START_PORT_PATH →
      Init s c = ((((c.log.length + 1 : Nat) : Int), none),
        c.commit (.put [(START_PORT_PATH, .text "8000".toList)]))) ∧
    (Present c START_PORT_PATH → Init s c = ((c.Rev, none), c)) ∧
    (∀ s2 : Snapshot, (Init s2 (Init s c).2).2 = (Init s c).2 ∧
      (Init s2 (Init s c).2).1 = ((Init s c).2.Rev, none)) := by
  have hmiss : Missing c START_PORT_PATH →
      Init s c = ((((c.log.length + 1 : Nat) : Int), none),
        c.commit (.put [(START_PORT_PATH, .text "8000".toList)])) := by
    intro hm
    have hz := (Missing_iff c _).1 hm
    unfold Init
    rw [Exists_of_zero c _ hz]
    have hf : fileRev c.log START_PORT_PATH = 0 := by
      have := (revOf_eq_zero_iff c.log _).1 hz START_PORT_PATH (Or.inl rfl)
      simp [fileRev, this]
    rcases Snapshot_Set_cases s c START_PORT_PATH (Itoa START_PORT) with ⟨_, _, hlt⟩ | ⟨hs, _⟩
    · rw [hf] at hlt
      exact absurd hlt (by simpa using h0)
    · simp only [hs]
      rfl
  have hpres : ∀ (s' : Snapshot) (c' : Conn), Present c' START_PORT_PATH →
      Init s' c' = ((c'.Rev, none), c') := by
    intro s' c' hp
    unfold Init
    rw [Exists_of_pos c' _ ((Present_iff c' _).1 hp)]
  have hafter : Present (Init s c).2 START_PORT_PATH := by
    by_cases hz : revOf c.log START_PORT_PATH = 0
    · rw [hmiss ((Missing_iff c _).2 hz), Present_iff]
      exact statOf_present _ _ (.text "8000".toList) (c.log.length + 1)
        (by simp only [Conn.commit, statOf_put_single, if_true])
    · rw [hpres s c ((Present_iff c _).2 hz)]
      exact (Present_iff c _).2 hz
  refine ⟨hmiss, hpres s c, fun s2 => ?_⟩
  rw [hpres s2 _ hafter]
  exact ⟨rfl, rfl⟩

/-- Witness of C13: `Init` on the empty store writes 8000 at revision 1. -/
theorem Init_idempotent_witness :
    Init ⟨0⟩ ⟨[]⟩ = ((1, none), portStore) ∧ Init ⟨1⟩ portStore = ((1, none), portStore) :=
  ⟨(Init_idempotent ⟨0⟩ ⟨[]⟩ (by decide)).1 ⟨0, rfl⟩,
   (Init_idempotent ⟨1⟩ portStore (by decide)).2.1 ⟨1, rfl⟩⟩

theorem wrap64_range (n : Int) : -(2 : Int) ^ 63 ≤ wrap64 n ∧ wrap64 n < 2 ^ 63 := by
  unfold wrap64
  constructor <;> omega

theorem wrap64_id (n : Int) (h0 : -(2 : Int) ^ 63 ≤ n) (h1 : n < 2 ^ 63) : wrap64 n = n := by
  unfold wrap64
  omega

theorem Atoi_Itoa_neg (n : Int) (h0 : -(2 : Int) ^ 63 ≤ n) (h1 : n < 0) :
    Atoi (Itoa n) = some n := by
  unfold Itoa
  rw [if_pos h1]
  have hp := parseDigits_natDigits (n.natAbs + 1) n.natAbs (by omega)
  have hne := natDigits_ne_nil n.natAbs n.natAbs
  have hnat : -((n.natAbs : Nat) : Int) = n := by omega
  simp only [Atoi, if_true, hne, if_false, hp, Option.map_some', hnat]
  change (match some (-((n.natAbs : Nat) : Int)) with
    | none => none
    | some v => if v < -(2 : Int) ^ 63 ∨ (2 : Int) ^ 63 ≤ v then none else some v) = some n
  rw [hnat]
  simp only
  rw [if_neg (by omega)]

theorem Atoi_Itoa_int64 (n : Int) (h0 : -(2 : Int) ^ 63 ≤ n) (h1 : n < 2 ^ 63) :
    Atoi (Itoa n) = some n := by
  by_cases h : n < 0
  · exact Atoi_Itoa_neg n h0 h
  · exact Atoi_Itoa n (by omega) h1

theorem GetLatest_int (s : Snapshot) (c : Conn) (path t : Str) (r : Nat) (p : Int)
    (hstat : statOf c.log path = some (.text t, r)) (hp : Atoi t = some p) :
    GetLatest s c path .IntCodec = .ok ⟨⟨(r : Int)⟩, path, .IntCodec, .int p⟩ := by
  simp only [GetLatest, getFile, Conn.Get, Conn.view, hstat, Codec.Decode, hp,
    Snapshot.FastForward]
  rw [if_neg (by omega)]

/-- One undisturbed iteration of `ClaimNextPort` claims the stored port and stores its
successor. -/
theorem ClaimNextPort_quiet (s : Snapshot) (c : Conn) (t : Str) (r : Nat) (p : Int)
    (ts : List Turn) (hstat : statOf c.log START_PORT_PATH = some (.text t, r))
    (hp : Atoi t = some p) :
    ClaimNextPort (.quiet :: ts) s c =
      some ((p, none), c.commit (.put [(START_PORT_PATH, .text (Itoa (wrap64 (p + 1))))])) := by
  rw [ClaimNextPort, GetLatest_int s c _ t r p hstat hp]
  simp only [Turn.set, Turn.commit, File.Set, Codec.Encode]
  rcases Conn_Set_cases c START_PORT_PATH (r : Int) (.text (Itoa (wrap64 (p + 1)))) with
    ⟨_, _, hlt⟩ | ⟨hs, _⟩
  · simp [fileRev, hstat] at hlt
  · simp only [hs]

theorem Atoi_range (t : Str) (p : Int) (hp : Atoi t = some p) :
    -(2 : Int) ^ 63 ≤ p ∧ p < 2 ^ 63 := by
  unfold Atoi at hp
  simp only at hp
  generalize (match t with
    | [] => none
    | c :: ds =>
      if c = '-' then
        if ds = [] then none else (parseDigits ds 0).map fun n => -(n : Int)
      else if c = '+' then
        if ds = [] then none else (parseDigits ds 0).map fun n => (n : Int)
      else (parseDigits (c :: ds) 0).map fun n => (n : Int)) = sg at hp
  cases sg with
  | none => cases hp
  | some v =>
    simp only at hp
    by_cases hv : v < -(2 : Int) ^ 63 ∨ (2 : Int) ^ 63 ≤ v
    · rw [if_pos hv] at hp; cases hp
    · rw [if_neg hv] at hp
      cases hp
      omega

/-- `Atoi` is the decimal reading of the text followed by the check of the `int` range. -/
theorem Atoi_decimalValue (t : Str) :
    Atoi t = match decimalValue t with
      | none => none
      | some v => if v < -(2 : Int) ^ 63 ∨ (2 : Int) ^ 63 ≤ v then none else some v := rfl

theorem Atoi_of_decimalValue (t : Str) (p : Int) (hdec : decimalValue t = some p)
    (h0 : -(2 : Int) ^ 63 ≤ p) (h1 : p < 2 ^ 63) : Atoi t = some p := by
  rw [Atoi_decimalValue, hdec]
  simp only
  rw [if_neg (by omega)]

theorem Atoi_out_of_range (t : Str) (p : Int) (hdec : decimalValue t = some p)
    (h : p < -(2 : Int) ^ 63 ∨ (2 : Int) ^ 63 ≤ p) : Atoi t = none := by
  rw [Atoi_decimalValue, hdec]
  simp only
  rw [if_pos h]

theorem decimalValue_of_Atoi (t : Str) (p : Int) (hp : Atoi t = some p) :
    decimalValue t = some p := by
  rw [Atoi_decimalValue] at hp
  cases hd : decimalValue t with
  | none => rw [hd] at hp; cases hp
  | some v =>
    rw [hd] at hp
    simp only at hp
    by_cases hv : v < -(2 : Int) ^ 63 ∨ (2 : Int) ^ 63 ≤ v
    · rw [if_pos hv] at hp; cases hp
    · rw [if_neg hv] at hp; exact hp

/-- The canonical numeral of every integer, of whatever size, denotes that integer. -/
theorem decimalValue_Itoa (n : Int) : decimalValue (Itoa n) = some n := by
  unfold Itoa
  have hp := parseDigits_natDigits (n.natAbs + 1) n.natAbs (by omega)
  by_cases hn : n < 0
  · rw [if_pos hn]
    have hne := natDigits_ne_nil n.natAbs n.natAbs
    have hnat : -((n.natAbs : Nat) : Int) = n := by omega
    simp only [decimalValue, if_true, hne, if_false, hp]
    change Option.map (fun v : Int => -v) (some ((n.natAbs : Nat) : Int)) = some n
    rw [Option.map_some', hnat]
  · rw [if_neg hn]
    cases hd : natDigits (n.natAbs + 1) n.natAbs with
    | nil => exact absurd hd (natDigits_ne_nil _ _)
    | cons c cs =>
      obtain ⟨hm, hpl⟩ := natDigits_head _ _ c cs hd
      rw [hd] at hp
      have hnat : ((n.natAbs : Nat) : Int) = n := by omega
      simp only [decimalValue, hm, hpl, if_false, hp]
      change Option.map (fun v : Int => v) (some ((n.natAbs : Nat) : Int)) = some n
      rw [Option.map_some', hnat]

/-- A stored text that `Atoi` does not read as an `int` makes the read of the counter fail:
`ClaimNextPort` returns -1 with the decoding error and writes nothing. -/
theorem ClaimNextPort_undecodable (s : Snapshot) (c : Conn) (t : Str) (r : Nat) (x : Turn)
    (ts : List Turn) (hstat : statOf c.log START_PORT_PATH = some (.text t, r))
    (hp : Atoi t = none) :
    ClaimNextPort (x :: ts) s c = some ((-1, some .BadValue), c) := by
  have hg : GetLatest s c START_PORT_PATH .IntCodec = .error .BadValue := by
    simp only [GetLatest, getFile, Conn.Get, Conn.view, hstat, Codec.Decode, hp]
  rw [ClaimNextPort, hg]

theorem statOf_commit_port (c : Conn) (q : Int) :
    statOf (c.commit (.put [(START_PORT_PATH, .text (Itoa q))])).log START_PORT_PATH =
      some (.text (Itoa q), c.log.length + 1) := by
  simp only [Conn.commit, statOf_put_single, if_true]

/-- C14, as amended: with no other writer interleaving, for every store in which
`/next-port` holds a decimal integer `p` that is a Go `int` below the largest one
(`-2^63 ≤ p < 2^63 - 1`), `ClaimNextPort` returns `p` with a nil error and leaves `p + 1`
stored by one write; a second call then returns `p + 1` and leaves `p + 2` (when `p + 1` is
below the largest `int` too), so two successive calls starting from 8000 return 8000 and
8001 and leave 8002.  At the largest `int`, `p = 2^63 - 1`, it returns `p` with a nil
error and leaves `-2^63` stored, the wrapped sum of Go `int` addition; for a decimal integer
outside the `int` range it returns -1 with the decoding error and writes nothing. -/
theorem ClaimNextPort_claims (s : Snapshot) (c : Conn) (t : Str) (r : Nat) (p : Int)
    (ts : List Turn) (hstat : statOf c.log START_PORT_PATH = some (.text t, r))
    (hdec : decimalValue t = some p) :
    (-(2 : Int) ^ 63 ≤ p → p + 1 < 2 ^ 63 →
      ∃ c', ClaimNextPort (.quiet :: ts) s c = some ((p, none), c') ∧
        c'.log = .put [(START_PORT_PATH, .text (Itoa (p + 1)))] :: c.log ∧
        (∃ r', statOf c'.log START_PORT_PATH = some (.text (Itoa (p + 1)), r')) ∧
        (p + 2 < 2 ^ 63 → ∀ (s2 : Snapshot) (ts2 : List Turn),
          ∃ c'', ClaimNextPort (.quiet :: ts2) s2 c' = some ((p + 1, none), c'') ∧
            ∃ r'', statOf c''.log START_PORT_PATH = some (.text (Itoa (p + 2)), r''))) ∧
    (p + 1 = 2 ^ 63 →
      ∃ c', ClaimNextPort (.quiet :: ts) s c = some ((p, none), c') ∧
        ∃ r', statOf c'.log START_PORT_PATH = some (.text (Itoa (-(2 : Int) ^ 63)), r')) ∧
    (p < -(2 : Int) ^ 63 ∨ (2 : Int) ^ 63 ≤ p →
      ClaimNextPort (.quiet :: ts) s c = some ((-1, some .BadValue), c)) := by
  refine ⟨fun h0 h1 => ?_, fun hmax => ?_, fun hout => ?_⟩
  · have hp : Atoi t = some p := Atoi_of_decimalValue t p hdec h0 (by omega)
    have hw : wrap64 (p + 1) = p + 1 := wrap64_id _ (by omega) h1
    have hq := ClaimNextPort_quiet s c t r p ts hstat hp
    rw [hw] at hq
    refine ⟨_, hq, rfl, ⟨_, statOf_commit_port c _⟩, fun h2 s2 ts2 => ?_⟩
    have hp2 : Atoi (Itoa (p + 1)) = some (p + 1) := Atoi_Itoa_int64 _ (by omega) h1
    have hw2 : wrap64 (p + 1 + 1) = p + 2 := by rw [wrap64_id _ (by omega) (by omega)]; omega
    have hq2 := ClaimNextPort_quiet s2 _ _ _ _ ts2 (statOf_commit_port c (p + 1)) hp2
    rw [hw2] at hq2
    exact ⟨_, hq2, ⟨_, statOf_commit_port _ _⟩⟩
  · have hp : Atoi t = some p := Atoi_of_decimalValue t p hdec (by omega) (by omega)
    have hw : wrap64 (p + 1) = -(2 : Int) ^ 63 := by rw [hmax]; rfl
    have hq := ClaimNextPort_quiet s c t r p ts hstat hp
    rw [hw] at hq
    exact ⟨_, hq, ⟨_, statOf_commit_port c _⟩⟩
  · exact ClaimNextPort_undecodable s c t r .quiet ts hstat (Atoi_out_of_range t p hdec hout)

/-- Witness of C14 as amended: two successive calls starting from 8000 return 8000 and 8001
and leave 8002; the call at the largest `int` leaves the smallest one; the call at 2^63
returns -1 with the decoding error. -/
theorem ClaimNextPort_claims_witness :
    (∃ c', ClaimNextPort [.quiet] ⟨1⟩ portStore = some ((8000, none), c') ∧
      c'.log = .put [(START_PORT_PATH, .text "8001".toList)] :: portStore.log ∧
      (∃ r', statOf c'.log START_PORT_PATH = some (.text "8001".toList, r')) ∧
      ∃ c'', ClaimNextPort [.quiet] ⟨2⟩ c' = some ((8001, none), c'') ∧
        ∃ r'', statOf c''.log START_PORT_PATH = some (.text "8002".toList, r'')) ∧
    (∃ c', ClaimNextPort [.quiet] ⟨1⟩ maxPortStore = some ((9223372036854775807, none), c') ∧
      ∃ r', statOf c'.log START_PORT_PATH =
        some (.text "-9223372036854775808".toList, r')) ∧
    ClaimNextPort [.quiet] ⟨1⟩ hugePortStore = some ((-1, some .BadValue), hugePortStore) := by
  refine ⟨?_, ?_, ?_⟩
  · obtain ⟨c', h1, h2, h3, h4⟩ :=
      (ClaimNextPort_claims ⟨1⟩ portStore "8000".toList 1 8000 [] rfl (by decide)).1
        (by decide) (by decide)
    exact ⟨c', h1, h2, h3, h4 (by decide) ⟨2⟩ []⟩
  · exact (ClaimNextPort_claims ⟨1⟩ maxPortStore "9223372036854775807".toList 1
      9223372036854775807 [] rfl (by decide)).2.1 (by decide)
  · exact (ClaimNextPort_claims ⟨1⟩ hugePortStore "9223372036854775808".toList 1
      9223372036854775808 [] rfl (by decide)).2.2 (Or.inr (by decide))

/-- Counterexample to C14 as stated: in `maxPortStore` the key `/next-port` holds the
decimal integer `p = 9223372036854775807`; `ClaimNextPort` returns `p` with a nil error and
leaves -9223372036854775808 stored, not `p + 1 = 9223372036854775808`.  In `hugePortStore`
the key holds the decimal integer 9223372036854775808; `ClaimNextPort` returns -1 with an
error, not that integer with a nil error, and writes nothing. -/
theorem ClaimNextPort_claims_counterexample :
    (statOf maxPortStore.log START_PORT_PATH = some (.text (Itoa 9223372036854775807), 1) ∧
      ClaimNextPort [.quiet] ⟨1⟩ maxPortStore =
        some ((9223372036854775807, none),
          maxPortStore.commit
            (.put [(START_PORT_PATH, .text "-9223372036854775808".toList)])) ∧
      ∀ c' r', ClaimNextPort [.quiet] ⟨1⟩ maxPortStore = some ((9223372036854775807, none), c') →
        statOf c'.log START_PORT_PATH ≠ some (.text (Itoa (9223372036854775807 + 1)), r')) ∧
    (statOf hugePortStore.log START_PORT_PATH = some (.text (Itoa 9223372036854775808), 1) ∧
      ClaimNextPort [.quiet] ⟨1⟩ hugePortStore = some ((-1, some .BadValue), hugePortStore) ∧
      ∀ c', ClaimNextPort [.quiet] ⟨1⟩ hugePortStore ≠ some ((9223372036854775808, none), c')) := by
  have hmaxrun : ClaimNextPort [.quiet] ⟨1⟩ maxPortStore =
      some ((9223372036854775807, none),
        maxPortStore.commit
          (.put [(START_PORT_PATH, .text "-9223372036854775808".toList)])) := rfl
  have hhuge : ClaimNextPort [.quiet] ⟨1⟩ hugePortStore =
      some ((-1, some .BadValue), hugePortStore) := rfl
  refine ⟨⟨rfl, hmaxrun, fun c' r' h => ?_⟩, rfl, hhuge, fun c' h => ?_⟩
  · rw [hmaxrun] at h
    simp only [Option.some.injEq, Prod.mk.injEq, true_and] at h
    subst h
    intro hst
    have h1 : statOf (maxPortStore.commit
        (.put [(START_PORT_PATH, .text "-9223372036854775808".toList)])).log START_PORT_PATH =
        some (.text "-9223372036854775808".toList, 2) := rfl
    rw [h1] at hst
    simp only [Option.some.injEq, Prod.mk.injEq, Body.text.injEq] at hst
    have h2 : ("-9223372036854775808".toList).head? = some '-' := rfl
    rw [hst.1] at h2
    exact absurd h2 (by decide)
  · rw [hhuge] at h
    simp only [Option.some.injEq, Prod.mk.injEq] at h
    cases h.1.2

theorem getFile_error_indep (s s' : Snapshot) (c : Conn) (rev : Option Int) (path : Str)
    (codec : Codec) (e : Err) (h : getFile s c rev path codec = .error e) :
    getFile s' c rev path codec = .error e := by
  unfold getFile at *
  cases hg : c.Get path rev with
  | error e' => rw [hg] at h; exact h
  | ok x =>
    obtain ⟨b, r⟩ := x
    rw [hg] at h
    simp only at h ⊢
    cases hd : codec.Decode b with
    | error e' => rw [hd] at h; exact h
    | ok v => rw [hd] at h; cases h

theorem getFile_int (s : Snapshot) (c : Conn) (rev : Option Int) (path : Str) (f : File)
    (h : getFile s c rev path .IntCodec = .ok f) :
    ∃ (txt : Str) (r : Nat) (n : Int), statOf (c.view rev) path = some (.text txt, r) ∧
      Atoi txt = some n ∧ f = ⟨s.FastForward c (r : Int), path, .IntCodec, .int n⟩ := by
  unfold getFile Conn.Get at h
  cases hs : statOf (c.view rev) path with
  | none => rw [hs] at h; cases h
  | some x =>
    obtain ⟨b, r⟩ := x
    rw [hs] at h
    cases b with
    | object fields => simp [Codec.Decode] at h
    | text txt =>
      cases ha : Atoi txt with
      | none => simp [Codec.Decode, ha] at h
      | some n =>
        simp only [Codec.Decode, ha, Except.ok.injEq] at h
        exact ⟨txt, r, n, rfl, ha, h.symm⟩

/-- An error returned by `ClaimNextPort` is the error of a failed read of `/next-port`. -/
theorem ClaimNextPort_error (ts : List Turn) :
    ∀ (s : Snapshot) (c : Conn) (port : Int) (e : Err) (c' : Conn),
      ClaimNextPort ts s c = some ((port, some e), c') →
      port = -1 ∧ ∀ s', GetLatest s' c' START_PORT_PATH .IntCodec = .error e := by
  induction ts with
  | nil => intro s c port e c' h; simp [ClaimNextPort] at h
  | cons t ts ih =>
    intro s c port e c' h
    rw [ClaimNextPort] at h
    cases hg : GetLatest s c START_PORT_PATH .IntCodec with
    | error err =>
      rw [hg] at h
      simp only [Option.some.injEq, Prod.mk.injEq] at h
      obtain ⟨⟨hp, he⟩, hc⟩ := h
      subst hc
      cases he
      exact ⟨hp.symm, fun s' => getFile_error_indep s s' c none _ _ _ hg⟩
    | ok f =>
      rw [hg] at h
      obtain ⟨txt, r, n, _, _, hf⟩ := getFile_int s c none _ f hg
      subst hf
      simp only at h
      cases hset : t.set ⟨s.FastForward c (r : Int), START_PORT_PATH, .IntCodec, .int n⟩
          (t.commit c) (.int (wrap64 (n + 1))) with
      | mk res c2 =>
        obtain ⟨f1, oe⟩ := res
        rw [hset] at h
        cases oe with
        | none => simp at h
        | some e1 => exact ih _ _ _ _ _ h

theorem ClaimNextPort_fail (s : Snapshot) (c : Conn) (t : Str) (r : Nat) (p : Int)
    (ts : List Turn) (e : Err) (hstat : statOf c.log START_PORT_PATH = some (.text t, r))
    (hp : Atoi t = some p) :
    ClaimNextPort (.fail e :: ts) s c = ClaimNextPort ts ⟨(r : Int)⟩ c := by
  rw [ClaimNextPort, GetLatest_int s c _ t r p hstat hp]
  rfl

/-- A write of another client to `/next-port` between the read and the increment makes the
increment fail with RevMismatch. -/
theorem File_Set_conflict (c : Conn) (t : Str) (r : Nat) (b : Body) (v : Value)
    (hstat : statOf c.log START_PORT_PATH = some (.text t, r)) :
    ∀ f : File, f.Path = START_PORT_PATH → f.Snapshot.Rev = (r : Int) →
      f.Set (c.commit (.put [(START_PORT_PATH, b)])) v =
          ((f, some .RevMismatch), c.commit (.put [(START_PORT_PATH, b)])) ∨
        ∃ e, f.Codec.Encode v = .error e := by
  intro f hpath hrev
  have hr := (statOf_rev_pos c.log _ _ r hstat).2
  cases he : f.Codec.Encode v with
  | error e => exact Or.inr ⟨e, rfl⟩
  | ok body =>
    left
    unfold File.Set
    rw [he]
    rcases Conn_Set_cases (c.commit (.put [(START_PORT_PATH, b)])) f.Path f.Snapshot.Rev body
      with ⟨hs, _⟩ | ⟨_, hn⟩
    · simp only [hs]
    · exfalso
      apply hn
      rw [hpath, hrev]
      simp only [Conn.commit, fileRev, statOf_put_single, if_true]
      constructor <;> omega

theorem ClaimNextPort_write (s : Snapshot) (c : Conn) (t : Str) (r : Nat) (p : Int)
    (ts : List Turn) (b : Body) (hstat : statOf c.log START_PORT_PATH = some (.text t, r))
    (hp : Atoi t = some p) :
    ClaimNextPort (.write START_PORT_PATH b :: ts) s c =
      ClaimNextPort ts ⟨(r : Int)⟩ (c.commit (.put [(START_PORT_PATH, b)])) := by
  rw [ClaimNextPort, GetLatest_int s c _ t r p hstat hp]
  simp only [Turn.set, Turn.commit]
  rcases File_Set_conflict c t r b (.int (wrap64 (p + 1))) hstat
    ⟨⟨(r : Int)⟩, START_PORT_PATH, .IntCodec, .int p⟩ rfl rfl with h | ⟨e, he⟩
  · simp only [h]
  · simp [Codec.Encode] at he

/-- C17, as amended: `ClaimNextPort` returns `(-1, err)` when reading `/next-port` fails,
and retries the read-and-increment whenever the increment write fails: when the CAS fails
with RevMismatch because another client wrote the counter, and equally when the write
fails with any other error `e`.  After such a failure an undisturbed iteration claims the
port with a nil error, and an error `ClaimNextPort` does return is always that of a failed
read, never that of the write. -/
theorem ClaimNextPort_retries (s : Snapshot) (c : Conn) (ts : List Turn) :
    (∀ t e, GetLatest s c START_PORT_PATH .IntCodec = .error e →
      ClaimNextPort (t :: ts) s c = some ((-1, some e), c)) ∧
    (∀ txt r p, statOf c.log START_PORT_PATH = some (.text txt, r) → Atoi txt = some p →
      (∀ b, (Turn.write START_PORT_PATH b).set ⟨⟨(r : Int)⟩, START_PORT_PATH, .IntCodec, .int p⟩
          ((Turn.write START_PORT_PATH b).commit c) (.int (wrap64 (p + 1))) =
          ((⟨⟨(r : Int)⟩, START_PORT_PATH, .IntCodec, .int p⟩, some .RevMismatch),
            c.commit (.put [(START_PORT_PATH, b)])) ∧
        ClaimNextPort (.write START_PORT_PATH b :: ts) s c =
          ClaimNextPort ts ⟨(r : Int)⟩ (c.commit (.put [(START_PORT_PATH, b)]))) ∧
      (∀ e, ClaimNextPort (.fail e :: ts) s c = ClaimNextPort ts ⟨(r : Int)⟩ c) ∧
      (∀ e, ClaimNextPort (.fail e :: .quiet :: ts) s c =
        some ((p, none), c.commit (.put [(START_PORT_PATH, .text (Itoa (wrap64 (p + 1))))])))) ∧
    (∀ port e c', ClaimNextPort ts s c = some ((port, some e), c') →
      port = -1 ∧ ∀ s', GetLatest s' c' START_PORT_PATH .IntCodec = .error e) := by
  refine ⟨fun t e hg => ?_, fun txt r p hstat hp => ⟨fun b => ⟨?_, ?_⟩, fun e => ?_, fun e => ?_⟩,
    fun port e c' h => ClaimNextPort_error ts s c port e c' h⟩
  · rw [ClaimNextPort, hg]
  · simp only [Turn.set, Turn.commit]
    rcases File_Set_conflict c txt r b (.int (wrap64 (p + 1))) hstat
      ⟨⟨(r : Int)⟩, START_PORT_PATH, .IntCodec, .int p⟩ rfl rfl with h | ⟨e, he⟩
    · exact h
    · simp [Codec.Encode] at he
  · exact ClaimNextPort_write s c txt r p ts b hstat hp
  · exact ClaimNextPort_fail s c txt r p ts e hstat hp
  · rw [ClaimNextPort_fail s c txt r p _ e hstat hp]
    exact ClaimNextPort_quiet _ c txt r p ts hstat hp

/-- Witness of C17 as amended: on the store holding 8000, another client's write of 9000
makes the first increment fail and the retry claim 9000. -/
theorem ClaimNextPort_retries_witness :
    ClaimNextPort [.write START_PORT_PATH (.text "9000".toList), .quiet] ⟨1⟩ portStore =
      some ((9000, none),
        (portStore.commit (.put [(START_PORT_PATH, .text "9000".toList)])).commit
          (.put [(START_PORT_PATH, .text "9001".toList)])) :=
  (((ClaimNextPort_retries ⟨1⟩ portStore [.quiet]).2.1 "8000".toList 1 8000 rfl
    (by decide)).1 (.text "9000".toList)).2.trans rfl

/-- Counterexample to C17 as stated: the increment write fails with a connection error,
and `ClaimNextPort` does not return that error: it retries and returns port 8000 with a
nil error. -/
theorem ClaimNextPort_retries_counterexample :
    ClaimNextPort [.fail connectionLost, .quiet] ⟨1⟩ portStore =
      some ((8000, none), portStore.commit (.put [(START_PORT_PATH, .text "8001".toList)])) ∧
    ∀ port c', ClaimNextPort [.fail connectionLost, .quiet] ⟨1⟩ portStore ≠
      some ((port, some connectionLost), c') := by
  have h : ClaimNextPort [.fail connectionLost, .quiet] ⟨1⟩ portStore =
      some ((8000, none), portStore.commit (.put [(START_PORT_PATH, .text "8001".toList)])) :=
    rfl
  refine ⟨h, fun port c' hc => ?_⟩
  rw [h] at hc
  simp at hc

/-! ## `Apps` -/

theorem appsLoop_ok (s : Snapshot) (c : Conn) (names : List Str) :
    ∀ (apps acc : List App),
      List.Forall₂ (fun n a => GetApp s c n = (some a, none)) names apps →
      appsLoop s c names acc = (acc ++ apps, none) := by
  induction names with
  | nil =>
    intro apps acc h
    cases h
    simp [appsLoop]
  | cons n ns ih =>
    intro apps acc h
    cases h with
    | cons hn hrest =>
      rw [appsLoop, hn]
      simp only
      rw [ih _ _ hrest]
      simp

theorem appsLoop_fail (s : Snapshot) (c : Conn) (pre : List Str) :
    ∀ (apps acc : List App) (n : Str) (post : List Str) (x : Option App) (e : Err),
      List.Forall₂ (fun n a => GetApp s c n = (some a, none)) pre apps →
      GetApp s c n = (x, some e) →
      appsLoop s c (pre ++ n :: post) acc = (acc ++ apps, some e) := by
  induction pre with
  | nil =>
    intro apps acc n post x e h hn
    cases h
    simp only [List.nil_append, appsLoop, hn, List.append_nil]
  | cons m ms ih =>
    intro apps acc n post x e h hn
    cases h with
    | cons hm hrest =>
      rw [List.cons_append, appsLoop, hm]
      simp only
      rw [ih _ _ n post x e hrest hn]
      simp

/-- C15, as amended: when the `apps` directory does not exist, `Apps(s)` returns an empty
list and no error.  Otherwise it hydrates the children of `apps` in the order `Getdir`
lists them at the latest revision: if every child hydrates, it returns one app per child in
that order; at the first child whose hydration fails (its attrs are missing, say) it stops
and returns the apps hydrated before it together with that error, so such a child is not
skipped. -/
theorem Apps_hydrates (s : Snapshot) (c : Conn) :
    (Missing c APPS_PATH → Apps s c = ([], none)) ∧
    (∀ names, Present c APPS_PATH →
      (s.FastForward c (-1)).Getdir c APPS_PATH = .ok names →
      (∀ apps, List.Forall₂ (fun n a => GetApp s c n = (some a, none)) names apps →
        Apps s c = (apps, none)) ∧
      (∀ pre n post apps x e, names = pre ++ n :: post →
        List.Forall₂ (fun n a => GetApp s c n = (some a, none)) pre apps →
        GetApp s c n = (x, some e) → Apps s c = (apps, some e))) := by
  constructor
  · intro hm
    unfold Apps
    rw [Exists_of_zero c _ ((Missing_iff c _).1 hm)]
  · intro names hp hdir
    have hrun : Apps s c = appsLoop s c names [] := by
      unfold Apps
      rw [Exists_of_pos c _ ((Present_iff c _).1 hp)]
      simp only [hdir]
    constructor
    · intro apps h
      rw [hrun, appsLoop_ok s c names apps [] h]
      rfl
    · intro pre n post apps x e hn h hf
      rw [hrun, hn, appsLoop_fail s c pre apps [] n post x e h hf]
      rfl

/-- Witness of C15 as amended: after registering `cat`, `dog` and `lol`, `Apps` returns
exactly those three names in that order. -/
theorem Apps_hydrates_witness :
    ∃ apps, Apps ⟨6⟩ zooStore = (apps, none) ∧
      apps.map App.Name = ["cat".toList, "dog".toList, "lol".toList] :=
  ⟨_, ((Apps_hydrates ⟨6⟩ zooStore).2 ["cat".toList, "dog".toList, "lol".toList]
      ⟨6, rfl⟩ rfl).1
    [mkApp "cat".toList "zebra".toList "joke".toList DEPLOY_LXC [] ⟨6⟩,
     mkApp "dog".toList "zebra".toList "joke".toList DEPLOY_LXC [] ⟨6⟩,
     mkApp "lol".toList "zebra".toList "joke".toList DEPLOY_LXC [] ⟨6⟩]
    (.cons rfl (.cons rfl (.cons rfl .nil))), rfl⟩

/-- Counterexample to C15 as stated: `dog` is a child of `apps` without attrs; `Apps` does
not skip it and go on to `lol`, it returns `cat` alone together with the NoEnt error. -/
theorem Apps_hydrates_counterexample :
    (strayStore.Getdir APPS_PATH 5 = .ok ["cat".toList, "dog".toList, "lol".toList]) ∧
    (GetApp ⟨5⟩ strayStore "dog".toList).2 = some .ErrNoEnt ∧
    (GetApp ⟨5⟩ strayStore "lol".toList).2 = none ∧
    (Apps ⟨5⟩ strayStore).1.map App.Name = ["cat".toList] ∧
    (Apps ⟨5⟩ strayStore).2 = some .ErrNoEnt :=
  ⟨rfl, rfl, rfl, rfl, rfl⟩

/-! ## `Instance.Register` -/

theorem PresentAt_iff (c : Conn) (rev : Int) (path : Str) :
    PresentAt c rev path ↔ revOf (upTo c.log rev) path ≠ 0 := by
  unfold PresentAt Conn.Exists Conn.view
  by_cases h : revOf (upTo c.log rev) path = 0 <;> simp [h]

theorem MissingAt_iff (c : Conn) (rev : Int) (path : Str) :
    MissingAt c rev path ↔ revOf (upTo c.log rev) path = 0 := by
  unfold MissingAt Conn.Exists Conn.view
  by_cases h : revOf (upTo c.log rev) path = 0 <;> simp [h]

theorem ExistsAt_of_zero (c : Conn) (rev : Int) (path : Str)
    (h : revOf (upTo c.log rev) path = 0) : c.Exists path (some rev) = .ok (false, 0) := by
  simp [Conn.Exists, Conn.view, h]

theorem ExistsAt_of_pos (c : Conn) (rev : Int) (path : Str)
    (h : revOf (upTo c.log rev) path ≠ 0) :
    c.Exists path (some rev) = .ok (true, (revOf (upTo c.log rev) path : Int)) := by
  simp [Conn.Exists, Conn.view, h]

/-- `Instance.Register` on a path that exists at the snapshot revision. -/
theorem Instance_Register_conflict (i : Instance) (c : Conn) (now : Str)
    (h : revOf (upTo c.log i.Snapshot.Rev) i.Path ≠ 0) :
    i.Register c now = ((none, some .ErrKeyConflict), c) := by
  unfold Instance.Register
  rw [ExistsAt_of_pos c _ _ h]

/-- `Instance.Register` of an instance that is not in state Initial, on a free path. -/
theorem Instance_Register_state (i : Instance) (c : Conn) (now : Str)
    (hs : i.State ≠ InsStateInitial) (h : revOf (upTo c.log i.Snapshot.Rev) i.Path = 0) :
    i.Register c now = ((none, some .ErrInvalidState), c) := by
  unfold Instance.Register
  rw [ExistsAt_of_zero c _ _ h]
  simp only [hs, ne_eq, not_false_eq_true, if_true]

/-- C11, as amended: for every Instance whose State is anything other than Initial, and
every store state, `Instance.Register` returns a nil instance and writes nothing to the
store; the error is `ErrInvalidState` when the instance's path does not exist at the
instance's snapshot revision, and `ErrKeyConflict` when it does. -/
theorem Instance_Register_not_initial (i : Instance) (c : Conn) (now : Str)
    (hs : i.State ≠ InsStateInitial) :
    (MissingAt c i.Snapshot.Rev i.Path →
      i.Register c now = ((none, some .ErrInvalidState), c)) ∧
    (PresentAt c i.Snapshot.Rev i.Path →
      i.Register c now = ((none, some .ErrKeyConflict), c)) ∧
    ∃ e, i.Register c now = ((none, some e), c) := by
  refine ⟨fun hm => Instance_Register_state i c now hs ((MissingAt_iff c _ _).1 hm),
    fun hp => Instance_Register_conflict i c now ((PresentAt_iff c _ _).1 hp), ?_⟩
  by_cases h : revOf (upTo c.log i.Snapshot.Rev) i.Path = 0
  · exact ⟨_, Instance_Register_state i c now hs h⟩
  · exact ⟨_, Instance_Register_conflict i c now h⟩

/-- Witness of C11 as amended: a Started instance on the empty store is refused with
`ErrInvalidState`. -/
theorem Instance_Register_not_initial_witness :
    startedInstance.Register ⟨[]⟩ "now".toList = ((none, some .ErrInvalidState), ⟨[]⟩) :=
  (Instance_Register_not_initial startedInstance ⟨[]⟩ "now".toList (by decide)).1 ⟨0, rfl⟩

/-- Counterexample to C11 as stated: a Started instance whose path already exists at its
snapshot revision gets `ErrKeyConflict`, not `ErrInvalidState`. -/
theorem Instance_Register_not_initial_counterexample :
    ({ startedInstance with Snapshot := ⟨2⟩ } : Instance).State ≠ InsStateInitial ∧
    ({ startedInstance with Snapshot := ⟨2⟩ } : Instance).Register webStore "now".toList =
      ((none, some .ErrKeyConflict), webStore) ∧
    ({ startedInstance with Snapshot := ⟨2⟩ } : Instance).Register webStore "now".toList ≠
      ((none, some .ErrInvalidState), webStore) :=
  ⟨by decide, rfl, by decide⟩

theorem SetMulti_cases (c : Conn) (path : Str) (files : List (Str × Body)) (rev : Int) :
    (c.SetMulti path files rev = (.error .RevMismatch, c) ∧ rev ≠ -1 ∧
      ∃ kv ∈ files, rev < (fileRev c.log (path ++ '/' :: kv.1) : Int)) ∨
    (c.SetMulti path files rev = (.ok ((c.log.length + 1 : Nat) : Int),
        c.commit (.put (files.map fun kv => (path ++ '/' :: kv.1, kv.2)))) ∧
      ¬(rev ≠ -1 ∧ ∃ kv ∈ files, rev < (fileRev c.log (path ++ '/' :: kv.1) : Int))) := by
  unfold Conn.SetMulti
  by_cases h : rev ≠ -1 ∧
      (files.any fun kv => decide (rev < (fileRev c.log (path ++ '/' :: kv.1) : Int))) = true
  · left
    refine ⟨by rw [if_pos h], h.1, ?_⟩
    have := h.2
    rw [List.any_eq_true] at this
    obtain ⟨kv, hkv, hlt⟩ := this
    exact ⟨kv, hkv, by simpa using hlt⟩
  · right
    refine ⟨by rw [if_neg h], ?_⟩
    rintro ⟨h1, kv, hkv, hlt⟩
    apply h
    refine ⟨h1, ?_⟩
    rw [List.any_eq_true]
    exact ⟨kv, hkv, by simpa using hlt⟩

theorem statOf_fields_host (i : Instance) (log : List Event) :
    statOf (.put (i.fields.map fun kv => (i.Path ++ '/' :: kv.1, kv.2)) :: log)
      (i.Path ++ '/' :: "host".toList) = some (.text (IP.String i.Addr.IP), log.length + 1) := by
  simp [statOf, Event.effect, Instance.fields, List.lookup]

/-- An IP of length 0 is stored as `<nil>` by `Register`, and is printed empty in the
address that names the instance directory. -/
theorem IP_String_empty (port : Int) (state : State) (s : Snapshot) (p : ProcType) :
    (Instance.fields ⟨s, p, ⟨[], port⟩, state⟩).head? =
      some ("host".toList, .text "<nil>".toList) ∧
    TCPAddr.String ⟨[], port⟩ = ':' :: Itoa port := by
  constructor
  · rfl
  · simp [TCPAddr.String, JoinHostPort]

theorem host_ne_registered (p : Str) :
    p ++ '/' :: "host".toList ≠ p ++ "/registered".toList := by
  intro h
  have h' : p ++ '/' :: "host".toList = p ++ '/' :: "registered".toList := h
  exact absurd (child_inj p _ _ h') (by decide)

/-- What a successful `Instance.Register` did: the path was free at the snapshot revision,
the state was Initial, and the history grew by the atomic write of host, port and state and
by the timestamp. -/
theorem Instance_Register_ok (i : Instance) (c c1 : Conn) (now : Str) (i' : Instance)
    (h : i.Register c now = ((some i', none), c1)) :
    revOf (upTo c.log i.Snapshot.Rev) i.Path = 0 ∧ i.State = InsStateInitial ∧
    c1.log = .put [(i.Path ++ "/registered".toList, .text now)] ::
      .put (i.fields.map fun kv => (i.Path ++ '/' :: kv.1, kv.2)) :: c.log ∧
    i' = { i with Snapshot := ⟨((c.log.length + 2 : Nat) : Int)⟩ } := by
  unfold Instance.Register at h
  by_cases h0 : revOf (upTo c.log i.Snapshot.Rev) i.Path = 0
  swap
  · rw [ExistsAt_of_pos c _ _ h0] at h
    simp at h
  rw [ExistsAt_of_zero c _ _ h0] at h
  simp only at h
  by_cases hs : i.State = InsStateInitial
  swap
  · rw [if_pos hs] at h
    simp at h
  rw [if_neg (by simpa using hs)] at h
  rcases SetMulti_cases c i.Path i.fields i.Snapshot.Rev with ⟨hm, _⟩ | ⟨hm, _⟩
  · rw [hm] at h; simp at h
  rw [hm] at h
  simp only at h
  rcases Conn_Set_cases (c.commit (.put (i.fields.map fun kv => (i.Path ++ '/' :: kv.1, kv.2))))
      (i.Path ++ "/registered".toList) i.Snapshot.Rev (.text now) with ⟨hset, _⟩ | ⟨hset, _⟩
  · rw [hset] at h; simp at h
  rw [hset] at h
  simp only [Prod.mk.injEq, Option.some.injEq, and_true] at h
  obtain ⟨hi', hc1⟩ := h
  refine ⟨h0, hs, by rw [← hc1]; rfl, ?_⟩
  rw [← hi']
  unfold Instance.FastForward Snapshot.FastForward
  rw [if_neg (by omega)]
  simp only [Conn.commit, List.length_cons]

/-- After a successful `Instance.Register`, the host key is visible at every revision past
the one the store had before. -/
theorem Instance_Register_visible (i : Instance) (c c1 : Conn) (now : Str) (i' : Instance)
    (h : i.Register c now = ((some i', none), c1)) (r : Int) (hr : (c.log.length : Int) < r) :
    revOf (upTo c1.log r) i.Path ≠ 0 := by
  obtain ⟨_, _, hlog, _⟩ := Instance_Register_ok i c c1 now i' h
  have hst : statOf (upTo c1.log r) (i.Path ++ '/' :: "host".toList) =
      some (.text (IP.String i.Addr.IP), c.log.length + 1) := by
    rw [hlog]
    by_cases h2 : ((c.log.length + 2 : Nat) : Int) ≤ r
    · rw [upTo_of_le _ _ (by simpa using h2), statOf_put_single,
        if_neg (host_ne_registered i.Path), statOf_fields_host]
    · rw [upTo_cons_of_le _ _ _ (by simp only [List.length_cons]; omega),
        upTo_of_le _ _ (by simp only [List.length_cons]; omega), statOf_fields_host]
  have := revOf_pos _ i.Path _ _ _ (Or.inr (under_child _ _)) hst
  omega

/-- C12, as amended: once `Register` of an instance has succeeded, `Register` of an instance
value with the same `Path()` (the same ProcType and TCP address) returns `ErrKeyConflict`
with a nil instance and writes nothing whenever that value's snapshot is past the revision
the store had before the first registration, as the value returned by the first `Register`
is.  A value that carries the first one's snapshot revision from before the registration,
such as the very same value registered again, does not see the registration: in state
Initial its atomic write is refused and `Register` returns RevMismatch together with the
value itself, in any other state it returns `ErrInvalidState`; it writes nothing either. -/
theorem Instance_Register_twice (i : Instance) (c c1 : Conn) (now now2 : Str) (i' : Instance)
    (h : i.Register c now = ((some i', none), c1)) :
    (∀ i2 : Instance, i2.Path = i.Path → (c.log.length : Int) < i2.Snapshot.Rev →
      i2.Register c1 now2 = ((none, some .ErrKeyConflict), c1)) ∧
    i'.Register c1 now2 = ((none, some .ErrKeyConflict), c1) ∧
    (∀ i2 : Instance, i2.Path = i.Path → i2.Snapshot.Rev = i.Snapshot.Rev →
      0 ≤ i.Snapshot.Rev → i.Snapshot.Rev ≤ c.Rev →
      (i2.State = InsStateInitial →
        i2.Register c1 now2 = ((some i2, some .RevMismatch), c1)) ∧
      (i2.State ≠ InsStateInitial →
        i2.Register c1 now2 = ((none, some .ErrInvalidState), c1))) := by
  obtain ⟨h0, _, hlog, hi'⟩ := Instance_Register_ok i c c1 now i' h
  have key : ∀ i2 : Instance, i2.Path = i.Path → (c.log.length : Int) < i2.Snapshot.Rev →
      i2.Register c1 now2 = ((none, some .ErrKeyConflict), c1) := by
    intro i2 hp hr
    apply Instance_Register_conflict
    rw [hp]
    exact Instance_Register_visible i c c1 now i' h _ hr
  refine ⟨key, key i' (by rw [hi']; rfl) (by rw [hi']; simp only; omega), ?_⟩
  intro i2 hp hrev hnn hle
  unfold Conn.Rev at hle
  have hview : upTo c1.log i2.Snapshot.Rev = upTo c.log i.Snapshot.Rev := by
    rw [hlog, hrev, upTo_cons_of_le _ _ _ (by simp only [List.length_cons]; omega),
      upTo_cons_of_le _ _ _ hle]
  have hfree : revOf (upTo c1.log i2.Snapshot.Rev) i2.Path = 0 := by rw [hview, hp]; exact h0
  constructor
  · intro hs
    unfold Instance.Register
    rw [ExistsAt_of_zero c1 _ _ hfree]
    simp only
    rw [if_neg (by simpa using hs)]
    rcases SetMulti_cases c1 i2.Path i2.fields i2.Snapshot.Rev with ⟨hm, _⟩ | ⟨_, hn⟩
    · rw [hm]
    · exfalso
      apply hn
      refine ⟨by omega, ("host".toList, .text (IP.String i2.Addr.IP)), by simp [Instance.fields], ?_⟩
      have : statOf c1.log (i.Path ++ '/' :: "host".toList) =
          some (.text (IP.String i.Addr.IP), c.log.length + 1) := by
        rw [hlog, statOf_put_single, if_neg (host_ne_registered i.Path), statOf_fields_host]
      simp only [hp, fileRev, this]
      omega
  · intro hs
    exact Instance_Register_state i2 c1 now2 hs hfree

/-- Witness of C12 as amended: the value returned by the first `Register` is refused with
`ErrKeyConflict`. -/
theorem Instance_Register_twice_witness :
    ({ webInstance with Snapshot := ⟨2⟩ } : Instance).Register webStore "later".toList =
      ((none, some .ErrKeyConflict), webStore) :=
  (Instance_Register_twice webInstance ⟨[]⟩ webStore "now".toList "later".toList
    { webInstance with Snapshot := ⟨2⟩ } rfl).2.1

/-- Counterexample to C12 as stated: the very same value registered again, carrying the
snapshot revision from before the first registration, gets RevMismatch and a non-nil
instance, not `ErrKeyConflict`. -/
theorem Instance_Register_twice_counterexample :
    webInstance.Register ⟨[]⟩ "now".toList =
      ((some { webInstance with Snapshot := ⟨2⟩ }, none), webStore) ∧
    webInstance.Register webStore "later".toList =
      ((some webInstance, some .RevMismatch), webStore) ∧
    webInstance.Register webStore "later".toList ≠
      ((none, some .ErrKeyConflict), webStore) :=
  ⟨rfl, rfl, by decide⟩

/-! ## `WatchInstance` and `GetInstanceInfo` -/

/-- The loop variable `rev` advances to the revision of the event only when the event is
delivered; for a delete and for a failed hydration it keeps its value. -/
theorem watchNext_cases (s : Snapshot) (c : Conn) (rev : Int) (ev : WaitEvent) :
    ((watchNext s c rev ev).2 = none → (watchNext s c rev ev).1 = rev) ∧
    (∀ ins, (watchNext s c rev ev).2 = some ins → (watchNext s c rev ev).1 = ev.Rev) ∧
    (ev.IsSet = false → watchNext s c rev ev = (rev, none)) := by
  unfold watchNext
  cases hset : ev.IsSet with
  | false => simp
  | true =>
    simp only [Bool.not_true, Bool.false_eq_true, if_false]
    cases hg : GetInstanceInfo (s.FastForward c ev.Rev) c (index (parseEvent ev) "app".toList)
        (index (parseEvent ev) "rev".toList) (index (parseEvent ev) "proctype".toList)
        (index (parseEvent ev) "instance".toList) with
    | mk ins oe =>
      cases oe with
      | none => simp
      | some e => simp

/-- Once an event is received and not delivered, the watcher waits from the same revision
in every later iteration and receives that event again each time. -/
theorem watchLoop_stuck (s : Snapshot) (c : Conn) (rev : Int) (ev : WaitEvent)
    (hw : c.Wait INSTANCE_GLOB (rev + 1) = .ok ev) (hnot : (watchNext s c rev ev).2 = none) :
    ∀ n, watchLoop s c n rev = ⟨List.replicate n (rev + 1), [], none⟩ := by
  intro n
  induction n with
  | zero => rfl
  | succ n ih =>
    rw [watchLoop, hw]
    simp only [(watchNext_cases s c rev ev).1 hnot, hnot, ih, Option.toList, List.nil_append,
      List.replicate_succ]

/-- C16, the code at two failing inputs.  A watcher at revision 2 receives the delete at
revision 3 and skips it; a watcher at revision 0 receives the registration at revision 1
and drops it because hydration fails.  In both runs every further `Wait` is issued from the
same revision again, not from the revision after the event, and nothing is sent. -/
theorem WatchInstance_rewaits :
    deletedStore.Wait INSTANCE_GLOB 3 =
      .ok ⟨3, watchedDir ++ "/registered".toList, none⟩ ∧
    WatchInstance 4 ⟨2⟩ deletedStore = ⟨[3, 3, 3, 3], [], none⟩ ∧
    orphanStore.Wait INSTANCE_GLOB 1 =
      .ok ⟨1, watchedDir ++ "/registered".toList, some (.text "now".toList)⟩ ∧
    WatchInstance 4 ⟨0⟩ orphanStore = ⟨[1, 1, 1, 1], [], none⟩ :=
  ⟨rfl, rfl, rfl, rfl⟩

/-- A delivered event does move the watcher on: the registration at revision 2 is sent and
the next `Wait` is issued from revision 3. -/
theorem WatchInstance_delivers :
    (WatchInstance 2 ⟨0⟩ deletedStore).waits = [1, 3] ∧
    (WatchInstance 2 ⟨0⟩ deletedStore).sent.map InstanceInfo.Host = ["10.0.0.1".toList] :=
  ⟨rfl, rfl⟩

/-- Beside a nil error, the `int` that `strconv.Atoi` returns is the value read. -/
theorem atoiValue_of_Atoi (s : Str) (n : Int) (h : Atoi s = some n) : atoiValue s = n := by
  have hr := Atoi_range s n h
  unfold atoiValue
  rw [decimalValue_of_Atoi s n h]
  simp only
  rw [if_neg (by omega), if_neg (by omega)]

/-- Beside a range error `strconv.Atoi` returns the nearest bound of the `int` range, and
beside a syntax error 0. -/
theorem atoiValue_failed :
    Atoi "9223372036854775808".toList = none ∧
    atoiValue "9223372036854775808".toList = 9223372036854775807 ∧
    Atoi "-9223372036854775809".toList = none ∧
    atoiValue "-9223372036854775809".toList = -9223372036854775808 ∧
    Atoi "http".toList = none ∧ atoiValue "http".toList = 0 ∧
    Atoi [] = none ∧ atoiValue [] = 0 := by
  decide

/-- The error `GetInstanceInfo` returns is that of parsing the state, whatever the other
four steps did. -/
theorem GetInstanceInfo_error (s : Snapshot) (c : Conn) (app rev proc ins : Str) :
    (GetInstanceInfo s c app rev proc ins).2 =
      atoiErr (stringOf (c.Get (instanceInfoPath app rev proc ins ++ "/state".toList)
        (some s.Rev))) ∧
    (GetInstanceInfo s c app rev proc ins).2 =
      (instanceInfoErrors s c app rev proc ins).getLast?.getD none :=
  ⟨rfl, rfl⟩

/-- C18, the code at two failing inputs.  With the host key missing, the host read fails
with NoEnt and is the first error of the five steps, yet `GetInstanceInfo` returns a nil
error and an empty host; with a port that is not a decimal integer, the port parse fails,
yet the error returned is nil and the port is 0. -/
theorem GetInstanceInfo_drops_errors :
    firstError (instanceInfoErrors ⟨1⟩ hostlessStore "a".toList "r".toList "web".toList
      "i".toList) = some .ErrNoEnt ∧
    GetInstanceInfo ⟨1⟩ hostlessStore "a".toList "r".toList "web".toList "i".toList =
      (⟨"i".toList, "a".toList, "r".toList, "web".toList, [], 8080, 0⟩, none) ∧
    firstError (instanceInfoErrors ⟨1⟩ badPortStore "a".toList "r".toList "web".toList
      "i".toList) = some atoiError ∧
    GetInstanceInfo ⟨1⟩ badPortStore "a".toList "r".toList "web".toList "i".toList =
      (⟨"i".toList, "a".toList, "r".toList, "web".toList, "10.0.0.1".toList, 0, 0⟩, none) :=
  ⟨rfl, rfl, rfl, rfl⟩

end Visor
